import Mathlib

/-
  Verification development for the indexed write batch
  (utilities/write_batch_with_index/write_batch_with_index.cc).

  Part 1 models the merged iterator (class BaseDeltaIterator): a base
  iterator over a store snapshot and a delta iterator over the batch index
  are overlaid into one ordered view.  Both underlying iterators are
  modelled as a list of entries together with a cursor position; position
  outside the list means the iterator is invalid, exactly as Valid()
  reports for the source iterators.
-/

namespace WBWI

/-- Record types a delta (batch) iterator entry can carry, mirroring the
WriteType values the source allows in an indexed entry. -/
inductive RecType where
  | putRec
  | deleteRec
  | singleDeleteRec
  | mergeRec
  | deleteRangeRec
  deriving DecidableEq, Repr

/-- A tombstone is a Delete or SingleDelete record, the two types
UpdateCurrent skips over (kDeleteRecord, kSingleDeleteRecord). -/
def RecType.isTombstone : RecType → Bool
  | .deleteRec => true
  | .singleDeleteRec => true
  | _ => false

/-- One decoded delta entry, as WBWIIterator::Entry() returns it. -/
structure DEntry (K V : Type) where
  key : K
  rtype : RecType
  value : V
  deriving DecidableEq, Repr

instance {K V : Type} [Inhabited K] [Inhabited V] : Inhabited (DEntry K V) :=
  ⟨⟨default, RecType.putRec, default⟩⟩

/-- A sorted-sequence iterator: a fixed entry list plus a cursor.  The
cursor is valid while it is inside the list; moving past either end makes
it invalid (position = length), matching RocksDB iterator behaviour. -/
structure SIter (α : Type) where
  entries : List α
  pos : Nat
  deriving DecidableEq, Repr

namespace SIter

variable {α : Type} {K : Type}

/-- Valid() of an underlying iterator. -/
def valid (it : SIter α) : Bool := decide (it.pos < it.entries.length)

/-- Current entry (only meaningful while valid). -/
def cur [Inhabited α] (it : SIter α) : α := it.entries.getD it.pos default

/-- SeekToFirst(). -/
def seekToFirst (it : SIter α) : SIter α := { it with pos := 0 }

/-- SeekToLast(): lands on the last entry, invalid when empty. -/
def seekToLast (it : SIter α) : SIter α :=
  { it with pos := it.entries.length - 1 }

/-- Next(): step forward; stepping from the last entry invalidates. -/
def next (it : SIter α) : SIter α :=
  if it.pos < it.entries.length then { it with pos := it.pos + 1 } else it

/-- Prev(): step backward; stepping from the first entry invalidates. -/
def prev (it : SIter α) : SIter α :=
  if it.pos < it.entries.length then
    if it.pos = 0 then { it with pos := it.entries.length }
    else { it with pos := it.pos - 1 }
  else it

/-- Seek(k): position on the first entry whose key is not below k. -/
def seek [LinearOrder K] (keyOf : α → K) (k : K) (it : SIter α) : SIter α :=
  { it with pos := it.entries.findIdx (fun a => decide (k ≤ keyOf a)) }

/-- SeekForPrev(k): position on the last entry whose key is not above k. -/
def seekForPrev [LinearOrder K] (keyOf : α → K) (k : K) (it : SIter α) :
    SIter α :=
  let i := it.entries.findIdx (fun a => decide (k < keyOf a))
  { it with pos := if i = 0 then it.entries.length else i - 1 }

end SIter

/-- The merged iterator state, mirroring the data members of
class BaseDeltaIterator: direction flag, current side, equal-keys flag,
sticky status, and the two wrapped iterators. -/
structure BDI (K V : Type) where
  forward : Bool
  currentAtBase : Bool
  equalKeys : Bool
  statusOK : Bool
  base : SIter (K × V)
  delta : SIter (DEntry K V)
  deriving DecidableEq, Repr

namespace BDI

variable {K V : Type}

/-- The three-way comparator result, as the user comparator returns it. -/
def cmpInt [LinearOrder K] (a b : K) : Int :=
  if a < b then -1 else if a = b then 0 else 1

/-- BaseValid(). -/
def baseValid (s : BDI K V) : Bool := s.base.valid

/-- DeltaValid(). -/
def deltaValid (s : BDI K V) : Bool := s.delta.valid

/-- Valid(): delegate to the side indicated by current_at_base_. -/
def bdiValid (s : BDI K V) : Bool :=
  if s.currentAtBase then s.baseValid else s.deltaValid

/-- Key of the base iterator's current entry. -/
def baseKey [Inhabited K] [Inhabited V] (s : BDI K V) : K := s.base.cur.1

/-- The delta iterator's current entry. -/
def deltaEntry [Inhabited K] [Inhabited V] (s : BDI K V) : DEntry K V :=
  s.delta.cur

/-- key(): from the side indicated by current_at_base_. -/
def curKey [Inhabited K] [Inhabited V] (s : BDI K V) : K :=
  if s.currentAtBase then s.baseKey else s.deltaEntry.key

/-- value(): from the side indicated by current_at_base_. -/
def curValue [Inhabited K] [Inhabited V] (s : BDI K V) : V :=
  if s.currentAtBase then s.base.cur.2 else s.deltaEntry.value

/-- AdvanceDelta(): Next or Prev on the delta iterator per direction. -/
def advanceDelta (s : BDI K V) : BDI K V :=
  { s with delta := if s.forward then s.delta.next else s.delta.prev }

/-- AdvanceBase(): Next or Prev on the base iterator per direction. -/
def advanceBase (s : BDI K V) : BDI K V :=
  { s with base := if s.forward then s.base.next else s.base.prev }

/-- Termination measure for the UpdateCurrent loop: every non-returning
iteration advances the delta iterator in the scan direction. -/
def ucMeasure (s : BDI K V) : Nat :=
  if s.forward then s.delta.entries.length - s.delta.pos
  else if s.delta.pos < s.delta.entries.length then s.delta.pos + 1 else 0

theorem ucMeasure_advanceDelta_lt (s : BDI K V)
    (h : s.delta.pos < s.delta.entries.length) :
    ucMeasure (advanceDelta s) < ucMeasure s := by
  rcases hf : s.forward with _ | _ <;>
    simp only [ucMeasure, advanceDelta, SIter.next, SIter.prev, hf] <;>
    split_ifs <;> (try dsimp only at *) <;> omega

theorem ucMeasure_advanceBase (s : BDI K V) :
    ucMeasure (advanceBase s) = ucMeasure s := rfl

theorem ucMeasure_setEqual (s : BDI K V) (b : Bool) :
    ucMeasure { s with equalKeys := b } = ucMeasure s := rfl

/-- The signed comparison computed inside UpdateCurrent: the comparator
result between the delta key and the base key, negated when scanning
backward. -/
def signedCmp [LinearOrder K] [Inhabited K] [Inhabited V]
    (s : BDI K V) : Int :=
  (if s.forward = true then 1 else -1) * cmpInt s.deltaEntry.key s.baseKey

/-- UpdateCurrent(): the loop from the source, one recursive call per
iteration.  Each branch mirrors the corresponding branch of the source:
both invalid, base finished, delta finished, and the signed comparison
between the delta key and the base key. -/
def updateCurrent [LinearOrder K] [Inhabited K] [Inhabited V]
    (s : BDI K V) : BDI K V :=
  if hB : s.base.pos < s.base.entries.length then
    if hD : s.delta.pos < s.delta.entries.length then
      if signedCmp s ≤ 0 then
        if s.deltaEntry.rtype.isTombstone then
          if signedCmp s = 0 then
            updateCurrent (advanceBase (advanceDelta { s with equalKeys := true }))
          else
            updateCurrent (advanceDelta { s with equalKeys := false })
        else
          { s with equalKeys := decide (signedCmp s = 0), currentAtBase := false }
      else
        { s with equalKeys := false, currentAtBase := true }
    else
      { s with equalKeys := false, currentAtBase := true }
  else
    if _hD : s.delta.pos < s.delta.entries.length then
      if s.deltaEntry.rtype.isTombstone then
        updateCurrent (advanceDelta { s with equalKeys := false })
      else
        { s with equalKeys := false, currentAtBase := false }
    else
      { s with equalKeys := false }
termination_by ucMeasure s
decreasing_by
  · calc ucMeasure (advanceBase (advanceDelta { s with equalKeys := true }))
        = ucMeasure (advanceDelta { s with equalKeys := true }) :=
          ucMeasure_advanceBase _
      _ < ucMeasure { s with equalKeys := true } :=
          ucMeasure_advanceDelta_lt _ hD
      _ = ucMeasure s := ucMeasure_setEqual _ _
  · calc ucMeasure (advanceDelta { s with equalKeys := false })
        < ucMeasure { s with equalKeys := false } :=
          ucMeasure_advanceDelta_lt _ hD
      _ = ucMeasure s := ucMeasure_setEqual _ _
  · calc ucMeasure (advanceDelta { s with equalKeys := false })
        < ucMeasure { s with equalKeys := false } :=
          ucMeasure_advanceDelta_lt _ _hD
      _ = ucMeasure s := ucMeasure_setEqual _ _

section Ops

variable {K V : Type} [LinearOrder K] [Inhabited K] [Inhabited V]

/-- A fresh merged iterator, as the BaseDeltaIterator constructor builds
it: forward direction, current at base, no equal keys, ok status, and
both wrapped iterators unpositioned (invalid). -/
def mkBDI (baseL : List (K × V)) (deltaL : List (DEntry K V)) : BDI K V :=
  { forward := true, currentAtBase := true, equalKeys := false,
    statusOK := true,
    base := ⟨baseL, baseL.length⟩, delta := ⟨deltaL, deltaL.length⟩ }

/-- SeekToFirst(): forward direction, seek both iterators, UpdateCurrent. -/
def doSeekToFirst (s : BDI K V) : BDI K V :=
  updateCurrent { s with
    forward := true,
    base := s.base.seekToFirst, delta := s.delta.seekToFirst }

/-- SeekToLast(): backward direction, seek both iterators, UpdateCurrent. -/
def doSeekToLast (s : BDI K V) : BDI K V :=
  updateCurrent { s with
    forward := false,
    base := s.base.seekToLast, delta := s.delta.seekToLast }

/-- Seek(k): forward direction, seek both iterators, UpdateCurrent. -/
def doSeek (k : K) (s : BDI K V) : BDI K V :=
  updateCurrent { s with
    forward := true,
    base := SIter.seek Prod.fst k s.base,
    delta := SIter.seek DEntry.key k s.delta }

/-- SeekForPrev(k): backward direction, seek both, UpdateCurrent. -/
def doSeekForPrev (k : K) (s : BDI K V) : BDI K V :=
  updateCurrent { s with
    forward := false,
    base := SIter.seekForPrev Prod.fst k s.base,
    delta := SIter.seekForPrev DEntry.key k s.delta }

/-- Advance(): advance both sides when the keys were equal, otherwise the
current side only, then UpdateCurrent. -/
def advance (s : BDI K V) : BDI K V :=
  updateCurrent
    (if s.equalKeys then advanceDelta (advanceBase s)
     else if s.currentAtBase then advanceBase s
     else advanceDelta s)

/-- The body of Next() before the final Advance(): sticky status on an
invalid iterator, then, when the direction was backward, flip it by
seeking the dead iterator to the first entry or advancing the trailing
one, and recompute equal_keys_. -/
def nextAdjust (s : BDI K V) : BDI K V :=
  let s0 := if s.bdiValid then s else { s with statusOK := false }
  if s0.forward then s0
  else
    let s1 := { s0 with forward := true, equalKeys := false }
    let s2 :=
      if s1.base.valid then
        if s1.delta.valid then
          if s1.currentAtBase then advanceDelta s1 else advanceBase s1
        else { s1 with delta := s1.delta.seekToFirst }
      else { s1 with base := s1.base.seekToFirst }
    if s2.delta.valid && s2.base.valid
        && decide (s2.deltaEntry.key = s2.baseKey)
    then { s2 with equalKeys := true } else s2

/-- Next(): the direction adjustment, then Advance(). -/
def doNext (s : BDI K V) : BDI K V := advance (nextAdjust s)

/-- The body of Prev() before the final Advance(): mirror image of
nextAdjust, seeking a dead iterator to the last entry. -/
def prevAdjust (s : BDI K V) : BDI K V :=
  let s0 := if s.bdiValid then s else { s with statusOK := false }
  if s0.forward then
    let s1 := { s0 with forward := false, equalKeys := false }
    let s2 :=
      if s1.base.valid then
        if s1.delta.valid then
          if s1.currentAtBase then advanceDelta s1 else advanceBase s1
        else { s1 with delta := s1.delta.seekToLast }
      else { s1 with base := s1.base.seekToLast }
    if s2.delta.valid && s2.base.valid
        && decide (s2.deltaEntry.key = s2.baseKey)
    then { s2 with equalKeys := true } else s2
  else s0

/-- Prev(): the direction adjustment, then Advance(). -/
def doPrev (s : BDI K V) : BDI K V := advance (prevAdjust s)

end Ops

section CmpLemmas

variable {K : Type} [LinearOrder K]

theorem cmpInt_le_zero_iff {a b : K} : cmpInt a b ≤ 0 ↔ a ≤ b := by
  unfold cmpInt
  rcases lt_trichotomy a b with h | h | h
  · simp [h, le_of_lt h]
  · simp [h]
  · simp [not_lt_of_gt h, ne_of_gt h, not_le_of_gt h]

theorem cmpInt_eq_zero_iff {a b : K} : cmpInt a b = 0 ↔ a = b := by
  unfold cmpInt
  rcases lt_trichotomy a b with h | h | h
  · simp [h, ne_of_lt h]
  · simp [h]
  · simp [not_lt_of_gt h, ne_of_gt h]

theorem cmpInt_pos_iff {a b : K} : 0 < cmpInt a b ↔ b < a := by
  unfold cmpInt
  rcases lt_trichotomy a b with h | h | h
  · simp [h, not_lt_of_gt h]
  · simp [h]
  · simp [not_lt_of_gt h, ne_of_gt h, h]

theorem neg_cmpInt_le_zero_iff {a b : K} : -1 * cmpInt a b ≤ 0 ↔ b ≤ a := by
  rw [neg_one_mul, neg_nonpos]
  unfold cmpInt
  rcases lt_trichotomy a b with h | h | h
  · simp [h, not_le_of_gt h]
  · simp [h]
  · simp [not_lt_of_gt h, ne_of_gt h, le_of_lt h]

theorem neg_cmpInt_eq_zero_iff {a b : K} : -1 * cmpInt a b = 0 ↔ a = b := by
  rw [neg_one_mul, neg_eq_zero]
  exact cmpInt_eq_zero_iff

theorem neg_cmpInt_pos_iff {a b : K} : 0 < -1 * cmpInt a b ↔ a < b := by
  rw [neg_one_mul, neg_pos]
  unfold cmpInt
  rcases lt_trichotomy a b with h | h | h
  · simp [h]
  · simp [h]
  · simp [not_lt_of_gt h, ne_of_gt h, not_lt_of_gt h]

end CmpLemmas

section Invariant

variable {K V : Type} [LinearOrder K] [Inhabited K] [Inhabited V]

/-- The state invariant of the merged iterator, as the spec states it (the
corrected form of AssertInvariants): with both sides valid, in the forward
direction the current side is the base exactly when the base key is
strictly ahead of the delta key, flipped when backward; and equal_keys_
holds exactly when both sides are valid on the same key. -/
def invariantHolds (s : BDI K V) : Prop :=
  (s.base.valid = true → s.delta.valid = true →
    (s.forward = true →
      (s.currentAtBase = true → s.baseKey < s.deltaEntry.key) ∧
      (s.currentAtBase = false → s.deltaEntry.key ≤ s.baseKey)) ∧
    (s.forward = false →
      (s.currentAtBase = true → s.deltaEntry.key < s.baseKey) ∧
      (s.currentAtBase = false → s.baseKey ≤ s.deltaEntry.key)))
  ∧ (s.equalKeys = true ↔
      (s.base.valid = true ∧ s.delta.valid = true ∧
        s.deltaEntry.key = s.baseKey))

theorem sIterValid_iff {α : Type} (it : SIter α) :
    it.valid = true ↔ it.pos < it.entries.length := by
  simp [SIter.valid]

theorem signedCmp_le_zero_fwd {s : BDI K V} (hf : s.forward = true) :
    signedCmp s ≤ 0 ↔ s.deltaEntry.key ≤ s.baseKey := by
  rw [signedCmp, hf]
  simpa using cmpInt_le_zero_iff

theorem signedCmp_le_zero_bwd {s : BDI K V} (hf : s.forward = false) :
    signedCmp s ≤ 0 ↔ s.baseKey ≤ s.deltaEntry.key := by
  rw [signedCmp, hf]
  simpa using neg_cmpInt_le_zero_iff

theorem signedCmp_eq_zero {s : BDI K V} :
    signedCmp s = 0 ↔ s.deltaEntry.key = s.baseKey := by
  rcases hf : s.forward with _ | _
  · rw [signedCmp, hf]
    simpa using neg_cmpInt_eq_zero_iff
  · rw [signedCmp, hf]
    simpa using cmpInt_eq_zero_iff

theorem signedCmp_pos_fwd {s : BDI K V} (hf : s.forward = true) :
    0 < signedCmp s ↔ s.baseKey < s.deltaEntry.key := by
  rw [signedCmp, hf]
  simpa using cmpInt_pos_iff

theorem signedCmp_pos_bwd {s : BDI K V} (hf : s.forward = false) :
    0 < signedCmp s ↔ s.deltaEntry.key < s.baseKey := by
  rw [signedCmp, hf]
  simpa using neg_cmpInt_pos_iff

/-- UpdateCurrent establishes the invariant from any starting state. -/
theorem invariant_updateCurrent (s : BDI K V) :
    invariantHolds (updateCurrent s) := by
  induction s using updateCurrent.induct with
  | case1 s hB hD hle htomb heq ih =>
    rw [updateCurrent]
    simp only [dif_pos hB, dif_pos hD, if_pos hle, if_pos htomb, if_pos heq]
    exact ih
  | case2 s hB hD hle htomb hne ih =>
    rw [updateCurrent]
    simp only [dif_pos hB, dif_pos hD, if_pos hle, if_pos htomb, if_neg hne]
    exact ih
  | case3 s hB hD hle htomb =>
    rw [updateCurrent]
    simp only [dif_pos hB, dif_pos hD, if_pos hle, if_neg htomb]
    constructor
    · intro _ _
      constructor
      · intro hf
        refine ⟨by simp, fun _ => ?_⟩
        exact (signedCmp_le_zero_fwd hf).mp hle
      · intro hf
        refine ⟨by simp, fun _ => ?_⟩
        exact (signedCmp_le_zero_bwd hf).mp hle
    · simp only [sIterValid_iff, decide_eq_true_eq]
      exact ⟨fun h => ⟨hB, hD, signedCmp_eq_zero.mp h⟩,
        fun h => signedCmp_eq_zero.mpr h.2.2⟩
  | case4 s hB hD hgt =>
    rw [updateCurrent]
    simp only [dif_pos hB, dif_pos hD, if_neg hgt]
    push_neg at hgt
    constructor
    · intro _ _
      constructor
      · intro hf
        exact ⟨fun _ => (signedCmp_pos_fwd hf).mp hgt, by simp⟩
      · intro hf
        exact ⟨fun _ => (signedCmp_pos_bwd hf).mp hgt, by simp⟩
    · constructor
      · simp
      · rintro ⟨-, -, h⟩
        have h2 : s.deltaEntry.key = s.baseKey := by
          simpa [deltaEntry, baseKey] using h
        rw [signedCmp_eq_zero.mpr h2] at hgt
        exact absurd hgt (lt_irrefl 0)
  | case5 s hB hD =>
    rw [updateCurrent]
    simp only [dif_pos hB, dif_neg hD]
    refine ⟨?_, ?_⟩
    · intro _ hd
      rw [sIterValid_iff] at hd
      exact absurd hd hD
    · constructor
      · simp
      · rintro ⟨-, hd, -⟩
        rw [sIterValid_iff] at hd
        exact absurd hd hD
  | case6 s hB hD htomb ih =>
    rw [updateCurrent]
    simp only [dif_neg hB, dif_pos hD, if_pos htomb]
    exact ih
  | case7 s hB hD htomb =>
    rw [updateCurrent]
    simp only [dif_neg hB, dif_pos hD, if_neg htomb]
    refine ⟨?_, ?_⟩
    · intro hb _
      rw [sIterValid_iff] at hb
      exact absurd hb hB
    · constructor
      · simp
      · rintro ⟨hb, -, -⟩
        rw [sIterValid_iff] at hb
        exact absurd hb hB
  | case8 s hB hD =>
    rw [updateCurrent]
    simp only [dif_neg hB, dif_neg hD]
    refine ⟨?_, ?_⟩
    · intro hb _
      rw [sIterValid_iff] at hb
      exact absurd hb hB
    · constructor
      · simp
      · rintro ⟨hb, -, -⟩
        rw [sIterValid_iff] at hb
        exact absurd hb hB

/-- The operations of the merged iterator that move the cursor. -/
inductive IterOp (K : Type) where
  | toFirst
  | toLast
  | seekKey (k : K)
  | seekForPrevKey (k : K)
  | nextOp
  | prevOp

/-- Dispatch an operation on the merged iterator. -/
def applyOp (op : IterOp K) (s : BDI K V) : BDI K V :=
  match op with
  | .toFirst => doSeekToFirst s
  | .toLast => doSeekToLast s
  | .seekKey k => doSeek k s
  | .seekForPrevKey k => doSeekForPrev k s
  | .nextOp => doNext s
  | .prevOp => doPrev s

theorem invariant_advance (s : BDI K V) : invariantHolds (advance s) := by
  unfold advance
  exact invariant_updateCurrent _

theorem invariant_doNext (s : BDI K V) : invariantHolds (doNext s) :=
  invariant_advance _

theorem invariant_doPrev (s : BDI K V) : invariantHolds (doPrev s) :=
  invariant_advance _

/-- Claim C2: after every seek, next and prev, the merged iterator
satisfies the state invariant: with both sides valid, in the forward
direction current side Base means the delta key is strictly greater than
the base key and current side Delta means it is less than or equal, with
the inequalities flipped in the reverse direction; and keys_equal holds
exactly when both sides are valid and the delta key equals the base key. -/
theorem c2_state_invariant (s : BDI K V) (op : IterOp K) :
    invariantHolds (applyOp op s) := by
  rcases op with _ | _ | k | k | _ | _
  · exact invariant_updateCurrent _
  · exact invariant_updateCurrent _
  · exact invariant_updateCurrent _
  · exact invariant_updateCurrent _
  · exact invariant_doNext _
  · exact invariant_doPrev _

end Invariant

section ScanLemmas

variable {K V : Type} [LinearOrder K] [Inhabited K] [Inhabited V]

theorem sIter_next_entries {α : Type} (it : SIter α) :
    it.next.entries = it.entries := by
  unfold SIter.next
  split_ifs <;> rfl

theorem sIter_prev_entries {α : Type} (it : SIter α) :
    it.prev.entries = it.entries := by
  unfold SIter.prev
  split_ifs <;> rfl

theorem sIter_next_pos {α : Type} (it : SIter α)
    (h : it.pos < it.entries.length) : it.next.pos = it.pos + 1 := by
  simp [SIter.next, h]

theorem sIter_cur_eq {α : Type} [Inhabited α] (it : SIter α)
    (h : it.pos < it.entries.length) : it.cur = it.entries[it.pos] :=
  List.getD_eq_getElem it.entries default h

theorem advanceDelta_base (s : BDI K V) : (advanceDelta s).base = s.base :=
  rfl

theorem advanceDelta_forward (s : BDI K V) :
    (advanceDelta s).forward = s.forward := rfl

theorem advanceDelta_entries (s : BDI K V) :
    (advanceDelta s).delta.entries = s.delta.entries := by
  unfold advanceDelta
  split_ifs <;> simp [sIter_next_entries, sIter_prev_entries]

theorem advanceDelta_pos_fwd (s : BDI K V) (hf : s.forward = true)
    (h : s.delta.pos < s.delta.entries.length) :
    (advanceDelta s).delta.pos = s.delta.pos + 1 := by
  unfold advanceDelta
  rw [hf]
  simpa using sIter_next_pos s.delta h

theorem advanceBase_delta (s : BDI K V) : (advanceBase s).delta = s.delta :=
  rfl

theorem advanceBase_forward (s : BDI K V) :
    (advanceBase s).forward = s.forward := rfl

theorem advanceBase_entries (s : BDI K V) :
    (advanceBase s).base.entries = s.base.entries := by
  unfold advanceBase
  split_ifs <;> simp [sIter_next_entries, sIter_prev_entries]

theorem advanceBase_pos_fwd (s : BDI K V) (hf : s.forward = true)
    (h : s.base.pos < s.base.entries.length) :
    (advanceBase s).base.pos = s.base.pos + 1 := by
  unfold advanceBase
  rw [hf]
  simpa using sIter_next_pos s.base h

theorem doNext_of_valid_fwd (t : BDI K V) (hv : t.bdiValid = true)
    (hf : t.forward = true) : doNext t = advance t := by
  unfold doNext nextAdjust
  simp only [hv, if_true, hf]

theorem advance_equal (s : BDI K V) (h : s.equalKeys = true) :
    advance s = updateCurrent (advanceDelta (advanceBase s)) := by
  unfold advance
  rw [h]
  simp

theorem advance_atBase (s : BDI K V) (h : s.equalKeys = false)
    (hc : s.currentAtBase = true) :
    advance s = updateCurrent (advanceBase s) := by
  unfold advance
  rw [h, hc]
  simp

theorem advance_atDelta (s : BDI K V) (h : s.equalKeys = false)
    (hc : s.currentAtBase = false) :
    advance s = updateCurrent (advanceDelta s) := by
  unfold advance
  rw [h, hc]
  simp

/-- The expected content of a full forward scan: the standard two-way
merge of a base entry list with a delta entry list, the delta shadowing
the base at equal keys and Delete/SingleDelete entries dropping out
together with the base entry they mask. -/
def mergeSpec : List (K × V) → List (DEntry K V) → List (K × V)
  | [], [] => []
  | [], d :: ds =>
    if d.rtype.isTombstone then mergeSpec [] ds
    else (d.key, d.value) :: mergeSpec [] ds
  | b :: bs, [] => b :: mergeSpec bs []
  | b :: bs, d :: ds =>
    if d.key < b.1 then
      if d.rtype.isTombstone then mergeSpec (b :: bs) ds
      else (d.key, d.value) :: mergeSpec (b :: bs) ds
    else if d.key = b.1 then
      if d.rtype.isTombstone then mergeSpec bs ds
      else (d.key, d.value) :: mergeSpec bs ds
    else b :: mergeSpec bs (d :: ds)
termination_by bs ds => bs.length + ds.length

/-- Collect the rest of a forward scan: emit the current entry and step
with Next() while the iterator stays valid, bounded by fuel. -/
def scanFromFuel [DecidableEq V] : Nat → BDI K V → List (K × V)
  | 0, _ => []
  | n + 1, s =>
    if s.bdiValid then (s.curKey, s.curValue) :: scanFromFuel n (doNext s)
    else []

/-- A full forward scan: SeekToFirst, then Next() until invalid, as the
spec describes a scan of the merged iterator. -/
def forwardScan [DecidableEq V] (baseL : List (K × V))
    (deltaL : List (DEntry K V)) : List (K × V) :=
  scanFromFuel (baseL.length + deltaL.length + 1)
    (doSeekToFirst (mkBDI baseL deltaL))

end ScanLemmas

section ScanMain

variable {K V : Type} [LinearOrder K] [Inhabited K] [Inhabited V]
variable [DecidableEq V]

/-- Forward scans compute the merge: from any forward state, running
UpdateCurrent and then scanning with Next() until invalid yields exactly
the two-way merge of the unread suffixes of the two iterators. -/
theorem scanFromFuel_updateCurrent (k : Nat) :
    ∀ (n : Nat) (s : BDI K V), s.forward = true →
      (s.base.entries.length - s.base.pos)
        + (s.delta.entries.length - s.delta.pos) = k →
      k < n →
      scanFromFuel n (updateCurrent s)
        = mergeSpec (s.base.entries.drop s.base.pos)
            (s.delta.entries.drop s.delta.pos) := by
  induction k using Nat.strong_induction_on with
  | _ k ih =>
    intro n s hf hk hn
    obtain ⟨m, rfl⟩ : ∃ m, n = m + 1 := ⟨n - 1, by omega⟩
    by_cases hB : s.base.pos < s.base.entries.length
    · by_cases hD : s.delta.pos < s.delta.entries.length
      · have hbd : s.base.entries.drop s.base.pos
            = s.base.entries[s.base.pos] :: s.base.entries.drop (s.base.pos + 1) :=
          List.drop_eq_getElem_cons hB
        have hdd : s.delta.entries.drop s.delta.pos
            = s.delta.entries[s.delta.pos] :: s.delta.entries.drop (s.delta.pos + 1) :=
          List.drop_eq_getElem_cons hD
        have hbk2 : s.base.cur = s.base.entries[s.base.pos] :=
          sIter_cur_eq _ hB
        have hdk2 : s.delta.cur = s.delta.entries[s.delta.pos] :=
          sIter_cur_eq _ hD
        have hbk : s.baseKey = (s.base.entries[s.base.pos]).1 :=
          congrArg Prod.fst hbk2
        have hdk : s.deltaEntry = s.delta.entries[s.delta.pos] := hdk2
        by_cases htomb : s.deltaEntry.rtype.isTombstone = true
        · rcases lt_trichotomy s.deltaEntry.key s.baseKey with hlt | heqk | hgt
          · -- delta strictly behind, tombstone: skip the delta entry
            have hle : signedCmp s ≤ 0 :=
              (signedCmp_le_zero_fwd hf).mpr (le_of_lt hlt)
            have hne : ¬ signedCmp s = 0 := fun h =>
              absurd (signedCmp_eq_zero.mp h) (ne_of_lt hlt)
            have hlt' : (s.delta.entries[s.delta.pos]).key
                < (s.base.entries[s.base.pos]).1 := by
              rw [← hdk, ← hbk]; exact hlt
            have htomb' : (s.delta.entries[s.delta.pos]).rtype.isTombstone
                = true := by rw [← hdk]; exact htomb
            have hR : mergeSpec (s.base.entries.drop s.base.pos)
                  (s.delta.entries.drop s.delta.pos)
                = mergeSpec (s.base.entries.drop s.base.pos)
                  (s.delta.entries.drop (s.delta.pos + 1)) := by
              conv_lhs => rw [hbd, hdd]
              rw [mergeSpec]
              simp only [if_pos hlt', if_pos htomb']
              rw [← hbd]
            rw [updateCurrent]
            simp only [dif_pos hB, dif_pos hD, if_pos hle, if_pos htomb,
              if_neg hne]
            rw [hR]
            have hIH := ih (k - 1) (by omega) (m + 1)
              (advanceDelta { s with equalKeys := false }) hf
              (by rw [advanceDelta_base, advanceDelta_entries,
                    advanceDelta_pos_fwd { s with equalKeys := false } hf hD]
                  dsimp only
                  omega)
              (by omega)
            rw [advanceDelta_base, advanceDelta_entries,
              advanceDelta_pos_fwd { s with equalKeys := false } hf hD] at hIH
            dsimp only at hIH
            exact hIH
          · -- equal keys, tombstone: skip both entries
            have hle : signedCmp s ≤ 0 :=
              (signedCmp_le_zero_fwd hf).mpr (le_of_eq heqk)
            have heq0 : signedCmp s = 0 := signedCmp_eq_zero.mpr heqk
            have heq' : (s.delta.entries[s.delta.pos]).key
                = (s.base.entries[s.base.pos]).1 := by
              rw [← hdk, ← hbk]; exact heqk
            have htomb' : (s.delta.entries[s.delta.pos]).rtype.isTombstone
                = true := by rw [← hdk]; exact htomb
            have hR : mergeSpec (s.base.entries.drop s.base.pos)
                  (s.delta.entries.drop s.delta.pos)
                = mergeSpec (s.base.entries.drop (s.base.pos + 1))
                  (s.delta.entries.drop (s.delta.pos + 1)) := by
              conv_lhs => rw [hbd, hdd]
              rw [mergeSpec]
              rw [if_neg (by rw [heq']; exact lt_irrefl _)]
              rw [if_pos heq', if_pos htomb']
            rw [updateCurrent]
            simp only [dif_pos hB, dif_pos hD, if_pos hle, if_pos htomb,
              if_pos heq0]
            rw [hR]
            have hE2 : (advanceBase (advanceDelta { s with equalKeys := true })).delta.entries
                = s.delta.entries :=
              (advanceDelta_entries { s with equalKeys := true }).trans rfl
            have hE3 : (advanceBase (advanceDelta { s with equalKeys := true })).delta.pos
                = s.delta.pos + 1 :=
              (advanceDelta_pos_fwd { s with equalKeys := true } hf hD).trans rfl
            have hE4 : (advanceBase (advanceDelta { s with equalKeys := true })).base.entries
                = s.base.entries :=
              (advanceBase_entries (advanceDelta { s with equalKeys := true })).trans
                ((advanceDelta_base { s with equalKeys := true }).trans rfl ▸ rfl)
            have hE5 : (advanceBase (advanceDelta { s with equalKeys := true })).base.pos
                = s.base.pos + 1 :=
              (advanceBase_pos_fwd (advanceDelta { s with equalKeys := true }) hf hB).trans rfl
            have hIH := ih (k - 2) (by omega) (m + 1)
              (advanceBase (advanceDelta { s with equalKeys := true })) hf
              (by rw [hE2, hE3, hE4, hE5]; omega)
              (by omega)
            rw [hE2, hE3, hE4, hE5] at hIH
            exact hIH
          · -- base strictly behind: emit the base entry
            have hgt0 : ¬ signedCmp s ≤ 0 := by
              rw [not_le]
              exact (signedCmp_pos_fwd hf).mpr hgt
            have hgt' : ¬ (s.delta.entries[s.delta.pos]).key
                < (s.base.entries[s.base.pos]).1 := by
              rw [← hdk, ← hbk]; exact not_lt_of_gt hgt
            have hne' : ¬ (s.delta.entries[s.delta.pos]).key
                = (s.base.entries[s.base.pos]).1 := by
              rw [← hdk, ← hbk]; exact ne_of_gt hgt
            have hR : mergeSpec (s.base.entries.drop s.base.pos)
                  (s.delta.entries.drop s.delta.pos)
                = s.base.entries[s.base.pos]
                  :: mergeSpec (s.base.entries.drop (s.base.pos + 1))
                    (s.delta.entries.drop s.delta.pos) := by
              conv_lhs => rw [hbd, hdd]
              rw [mergeSpec]
              rw [if_neg hgt', if_neg hne', ← hdd]
            rw [updateCurrent]
            simp only [dif_pos hB, dif_pos hD, if_neg hgt0]
            rw [hR]
            set t : BDI K V :=
              { s with equalKeys := false, currentAtBase := true } with ht
            have hv : t.bdiValid = true := by
              have h0 : t.bdiValid = s.base.valid := rfl
              rw [h0, sIterValid_iff]
              exact hB
            rw [scanFromFuel, if_pos hv]
            have hck : t.curKey = (s.base.entries[s.base.pos]).1 := by
              have h0 : t.curKey = s.base.cur.1 := rfl
              rw [h0, hbk2]
            have hcv : t.curValue = (s.base.entries[s.base.pos]).2 := by
              have h0 : t.curValue = s.base.cur.2 := rfl
              rw [h0, hbk2]
            have hstep : doNext t = updateCurrent (advanceBase t) := by
              rw [doNext_of_valid_fwd t hv hf]
              exact advance_atBase t rfl rfl
            rw [hstep]
            have hA1 : (advanceBase t).delta = s.delta := rfl
            have hA2 : (advanceBase t).base.entries = s.base.entries :=
              (advanceBase_entries t).trans rfl
            have hA3 : (advanceBase t).base.pos = s.base.pos + 1 :=
              (advanceBase_pos_fwd t hf hB).trans rfl
            have hIH := ih (k - 1) (by omega) m (advanceBase t) hf
              (by rw [hA1, hA2, hA3]; omega)
              (by omega)
            rw [hA1, hA2, hA3] at hIH
            rw [hIH, hck, hcv]
        · rcases lt_trichotomy s.deltaEntry.key s.baseKey with hlt | heqk | hgt
          · -- delta strictly behind, not a tombstone: emit the delta entry
            have hle : signedCmp s ≤ 0 :=
              (signedCmp_le_zero_fwd hf).mpr (le_of_lt hlt)
            have hne : ¬ signedCmp s = 0 := fun h =>
              absurd (signedCmp_eq_zero.mp h) (ne_of_lt hlt)
            have hlt' : (s.delta.entries[s.delta.pos]).key
                < (s.base.entries[s.base.pos]).1 := by
              rw [← hdk, ← hbk]; exact hlt
            have htomb' : ¬ (s.delta.entries[s.delta.pos]).rtype.isTombstone
                = true := by rw [← hdk]; exact htomb
            have hR : mergeSpec (s.base.entries.drop s.base.pos)
                  (s.delta.entries.drop s.delta.pos)
                = ((s.delta.entries[s.delta.pos]).key,
                    (s.delta.entries[s.delta.pos]).value)
                  :: mergeSpec (s.base.entries.drop s.base.pos)
                    (s.delta.entries.drop (s.delta.pos + 1)) := by
              conv_lhs => rw [hbd, hdd]
              rw [mergeSpec]
              rw [if_pos hlt', if_neg htomb', ← hbd]
            rw [updateCurrent]
            simp only [dif_pos hB, dif_pos hD, if_pos hle, if_neg htomb]
            rw [hR]
            set t : BDI K V :=
              { s with
                equalKeys := decide (signedCmp s = 0),
                currentAtBase := false } with ht
            have hv : t.bdiValid = true := by
              have h0 : t.bdiValid = s.delta.valid := rfl
              rw [h0, sIterValid_iff]
              exact hD
            rw [scanFromFuel, if_pos hv]
            have hck : t.curKey = (s.delta.entries[s.delta.pos]).key := by
              have h0 : t.curKey = s.delta.cur.key := rfl
              rw [h0, hdk2]
            have hcv : t.curValue = (s.delta.entries[s.delta.pos]).value := by
              have h0 : t.curValue = s.delta.cur.value := rfl
              rw [h0, hdk2]
            have hstep : doNext t = updateCurrent (advanceDelta t) := by
              rw [doNext_of_valid_fwd t hv hf]
              exact advance_atDelta t (decide_eq_false hne) rfl
            rw [hstep]
            have hA1 : (advanceDelta t).base = s.base := rfl
            have hA2 : (advanceDelta t).delta.entries = s.delta.entries :=
              (advanceDelta_entries t).trans rfl
            have hA3 : (advanceDelta t).delta.pos = s.delta.pos + 1 :=
              (advanceDelta_pos_fwd t hf hD).trans rfl
            have hIH := ih (k - 1) (by omega) m (advanceDelta t) hf
              (by rw [hA1, hA2, hA3]; omega)
              (by omega)
            rw [hA1, hA2, hA3] at hIH
            rw [hIH, hck, hcv]
          · -- equal keys, not a tombstone: the delta entry shadows the base
            have hle : signedCmp s ≤ 0 :=
              (signedCmp_le_zero_fwd hf).mpr (le_of_eq heqk)
            have heq0 : signedCmp s = 0 := signedCmp_eq_zero.mpr heqk
            have heq' : (s.delta.entries[s.delta.pos]).key
                = (s.base.entries[s.base.pos]).1 := by
              rw [← hdk, ← hbk]; exact heqk
            have htomb' : ¬ (s.delta.entries[s.delta.pos]).rtype.isTombstone
                = true := by rw [← hdk]; exact htomb
            have hR : mergeSpec (s.base.entries.drop s.base.pos)
                  (s.delta.entries.drop s.delta.pos)
                = ((s.delta.entries[s.delta.pos]).key,
                    (s.delta.entries[s.delta.pos]).value)
                  :: mergeSpec (s.base.entries.drop (s.base.pos + 1))
                    (s.delta.entries.drop (s.delta.pos + 1)) := by
              conv_lhs => rw [hbd, hdd]
              rw [mergeSpec]
              rw [if_neg (by rw [heq']; exact lt_irrefl _)]
              rw [if_pos heq', if_neg htomb']
            rw [updateCurrent]
            simp only [dif_pos hB, dif_pos hD, if_pos hle, if_neg htomb]
            rw [hR]
            set t : BDI K V :=
              { s with
                equalKeys := decide (signedCmp s = 0),
                currentAtBase := false } with ht
            have hv : t.bdiValid = true := by
              have h0 : t.bdiValid = s.delta.valid := rfl
              rw [h0, sIterValid_iff]
              exact hD
            rw [scanFromFuel, if_pos hv]
            have hck : t.curKey = (s.delta.entries[s.delta.pos]).key := by
              have h0 : t.curKey = s.delta.cur.key := rfl
              rw [h0, hdk2]
            have hcv : t.curValue = (s.delta.entries[s.delta.pos]).value := by
              have h0 : t.curValue = s.delta.cur.value := rfl
              rw [h0, hdk2]
            have hstep : doNext t
                = updateCurrent (advanceDelta (advanceBase t)) := by
              rw [doNext_of_valid_fwd t hv hf]
              exact advance_equal t (decide_eq_true heq0)
            rw [hstep]
            have hE2 : (advanceDelta (advanceBase t)).delta.entries
                = s.delta.entries :=
              (advanceDelta_entries (advanceBase t)).trans rfl
            have hE3 : (advanceDelta (advanceBase t)).delta.pos
                = s.delta.pos + 1 :=
              (advanceDelta_pos_fwd (advanceBase t) hf hD).trans rfl
            have hE4 : (advanceDelta (advanceBase t)).base.entries
                = s.base.entries :=
              (advanceBase_entries t).trans rfl
            have hE5 : (advanceDelta (advanceBase t)).base.pos
                = s.base.pos + 1 :=
              (advanceBase_pos_fwd t hf hB).trans rfl
            have hIH := ih (k - 2) (by omega) m
              (advanceDelta (advanceBase t)) hf
              (by rw [hE2, hE3, hE4, hE5]; omega)
              (by omega)
            rw [hE2, hE3, hE4, hE5] at hIH
            rw [hIH, hck, hcv]
          · -- base strictly behind: emit the base entry
            have hgt0 : ¬ signedCmp s ≤ 0 := by
              rw [not_le]
              exact (signedCmp_pos_fwd hf).mpr hgt
            have hgt' : ¬ (s.delta.entries[s.delta.pos]).key
                < (s.base.entries[s.base.pos]).1 := by
              rw [← hdk, ← hbk]; exact not_lt_of_gt hgt
            have hne' : ¬ (s.delta.entries[s.delta.pos]).key
                = (s.base.entries[s.base.pos]).1 := by
              rw [← hdk, ← hbk]; exact ne_of_gt hgt
            have hR : mergeSpec (s.base.entries.drop s.base.pos)
                  (s.delta.entries.drop s.delta.pos)
                = s.base.entries[s.base.pos]
                  :: mergeSpec (s.base.entries.drop (s.base.pos + 1))
                    (s.delta.entries.drop s.delta.pos) := by
              conv_lhs => rw [hbd, hdd]
              rw [mergeSpec]
              rw [if_neg hgt', if_neg hne', ← hdd]
            rw [updateCurrent]
            simp only [dif_pos hB, dif_pos hD, if_neg hgt0]
            rw [hR]
            set t : BDI K V :=
              { s with equalKeys := false, currentAtBase := true } with ht
            have hv : t.bdiValid = true := by
              have h0 : t.bdiValid = s.base.valid := rfl
              rw [h0, sIterValid_iff]
              exact hB
            rw [scanFromFuel, if_pos hv]
            have hck : t.curKey = (s.base.entries[s.base.pos]).1 := by
              have h0 : t.curKey = s.base.cur.1 := rfl
              rw [h0, hbk2]
            have hcv : t.curValue = (s.base.entries[s.base.pos]).2 := by
              have h0 : t.curValue = s.base.cur.2 := rfl
              rw [h0, hbk2]
            have hstep : doNext t = updateCurrent (advanceBase t) := by
              rw [doNext_of_valid_fwd t hv hf]
              exact advance_atBase t rfl rfl
            rw [hstep]
            have hA1 : (advanceBase t).delta = s.delta := rfl
            have hA2 : (advanceBase t).base.entries = s.base.entries :=
              (advanceBase_entries t).trans rfl
            have hA3 : (advanceBase t).base.pos = s.base.pos + 1 :=
              (advanceBase_pos_fwd t hf hB).trans rfl
            have hIH := ih (k - 1) (by omega) m (advanceBase t) hf
              (by rw [hA1, hA2, hA3]; omega)
              (by omega)
            rw [hA1, hA2, hA3] at hIH
            rw [hIH, hck, hcv]
      · -- delta finished: a pure base tail remains
        have hdnil : s.delta.entries.drop s.delta.pos = [] :=
          List.drop_eq_nil_of_le (le_of_not_lt hD)
        have hbd : s.base.entries.drop s.base.pos
            = s.base.entries[s.base.pos] :: s.base.entries.drop (s.base.pos + 1) :=
          List.drop_eq_getElem_cons hB
        have hbk2 : s.base.cur = s.base.entries[s.base.pos] :=
          sIter_cur_eq _ hB
        have hR : mergeSpec (s.base.entries.drop s.base.pos)
              (s.delta.entries.drop s.delta.pos)
            = s.base.entries[s.base.pos]
              :: mergeSpec (s.base.entries.drop (s.base.pos + 1))
                (s.delta.entries.drop s.delta.pos) := by
          conv_lhs => rw [hbd, hdnil]
          rw [mergeSpec]
          rw [← hdnil]
        rw [updateCurrent]
        simp only [dif_pos hB, dif_neg hD]
        rw [hR]
        set t : BDI K V :=
          { s with equalKeys := false, currentAtBase := true } with ht
        have hv : t.bdiValid = true := by
          have h0 : t.bdiValid = s.base.valid := rfl
          rw [h0, sIterValid_iff]
          exact hB
        rw [scanFromFuel, if_pos hv]
        have hck : t.curKey = (s.base.entries[s.base.pos]).1 := by
          have h0 : t.curKey = s.base.cur.1 := rfl
          rw [h0, hbk2]
        have hcv : t.curValue = (s.base.entries[s.base.pos]).2 := by
          have h0 : t.curValue = s.base.cur.2 := rfl
          rw [h0, hbk2]
        have hstep : doNext t = updateCurrent (advanceBase t) := by
          rw [doNext_of_valid_fwd t hv hf]
          exact advance_atBase t rfl rfl
        rw [hstep]
        have hA1 : (advanceBase t).delta = s.delta := rfl
        have hA2 : (advanceBase t).base.entries = s.base.entries :=
          (advanceBase_entries t).trans rfl
        have hA3 : (advanceBase t).base.pos = s.base.pos + 1 :=
          (advanceBase_pos_fwd t hf hB).trans rfl
        have hIH := ih (k - 1) (by omega) m (advanceBase t) hf
          (by rw [hA1, hA2, hA3]; omega)
          (by omega)
        rw [hA1, hA2, hA3] at hIH
        rw [hIH, hck, hcv]
    · by_cases hD : s.delta.pos < s.delta.entries.length
      · -- base finished: delta tail with tombstones dropped
        have hbnil : s.base.entries.drop s.base.pos = [] :=
          List.drop_eq_nil_of_le (le_of_not_lt hB)
        have hdd : s.delta.entries.drop s.delta.pos
            = s.delta.entries[s.delta.pos] :: s.delta.entries.drop (s.delta.pos + 1) :=
          List.drop_eq_getElem_cons hD
        have hdk2 : s.delta.cur = s.delta.entries[s.delta.pos] :=
          sIter_cur_eq _ hD
        have hdk : s.deltaEntry = s.delta.entries[s.delta.pos] := hdk2
        by_cases htomb : s.deltaEntry.rtype.isTombstone = true
        · have htomb' : (s.delta.entries[s.delta.pos]).rtype.isTombstone
              = true := by rw [← hdk]; exact htomb
          have hR : mergeSpec (s.base.entries.drop s.base.pos)
                (s.delta.entries.drop s.delta.pos)
              = mergeSpec (s.base.entries.drop s.base.pos)
                (s.delta.entries.drop (s.delta.pos + 1)) := by
            conv_lhs => rw [hbnil, hdd]
            rw [mergeSpec]
            rw [if_pos htomb', ← hbnil]
          rw [updateCurrent]
          simp only [dif_neg hB, dif_pos hD, if_pos htomb]
          rw [hR]
          have hIH := ih (k - 1) (by omega) (m + 1)
            (advanceDelta { s with equalKeys := false }) hf
            (by rw [advanceDelta_base, advanceDelta_entries,
                  advanceDelta_pos_fwd { s with equalKeys := false } hf hD]
                dsimp only
                omega)
            (by omega)
          rw [advanceDelta_base, advanceDelta_entries,
            advanceDelta_pos_fwd { s with equalKeys := false } hf hD] at hIH
          dsimp only at hIH
          exact hIH
        · have htomb' : ¬ (s.delta.entries[s.delta.pos]).rtype.isTombstone
              = true := by rw [← hdk]; exact htomb
          have hR : mergeSpec (s.base.entries.drop s.base.pos)
                (s.delta.entries.drop s.delta.pos)
              = ((s.delta.entries[s.delta.pos]).key,
                  (s.delta.entries[s.delta.pos]).value)
                :: mergeSpec (s.base.entries.drop s.base.pos)
                  (s.delta.entries.drop (s.delta.pos + 1)) := by
            conv_lhs => rw [hbnil, hdd]
            rw [mergeSpec]
            rw [if_neg htomb', ← hbnil]
          rw [updateCurrent]
          simp only [dif_neg hB, dif_pos hD, if_neg htomb]
          rw [hR]
          set t : BDI K V :=
            { s with equalKeys := false, currentAtBase := false } with ht
          have hv : t.bdiValid = true := by
            have h0 : t.bdiValid = s.delta.valid := rfl
            rw [h0, sIterValid_iff]
            exact hD
          rw [scanFromFuel, if_pos hv]
          have hck : t.curKey = (s.delta.entries[s.delta.pos]).key := by
            have h0 : t.curKey = s.delta.cur.key := rfl
            rw [h0, hdk2]
          have hcv : t.curValue = (s.delta.entries[s.delta.pos]).value := by
            have h0 : t.curValue = s.delta.cur.value := rfl
            rw [h0, hdk2]
          have hstep : doNext t = updateCurrent (advanceDelta t) := by
            rw [doNext_of_valid_fwd t hv hf]
            exact advance_atDelta t rfl rfl
          rw [hstep]
          have hA1 : (advanceDelta t).base = s.base := rfl
          have hA2 : (advanceDelta t).delta.entries = s.delta.entries :=
            (advanceDelta_entries t).trans rfl
          have hA3 : (advanceDelta t).delta.pos = s.delta.pos + 1 :=
            (advanceDelta_pos_fwd t hf hD).trans rfl
          have hIH := ih (k - 1) (by omega) m (advanceDelta t) hf
            (by rw [hA1, hA2, hA3]; omega)
            (by omega)
          rw [hA1, hA2, hA3] at hIH
          rw [hIH, hck, hcv]
      · -- both finished: the scan is over
        have hbnil : s.base.entries.drop s.base.pos = [] :=
          List.drop_eq_nil_of_le (le_of_not_lt hB)
        have hdnil : s.delta.entries.drop s.delta.pos = [] :=
          List.drop_eq_nil_of_le (le_of_not_lt hD)
        rw [updateCurrent]
        simp only [dif_neg hB, dif_neg hD]
        set t : BDI K V := { s with equalKeys := false } with ht
        have hv : ¬ t.bdiValid = true := by
          have h0 : t.bdiValid = bdiValid s := rfl
          rw [h0]
          unfold bdiValid baseValid deltaValid
          split <;> rw [sIterValid_iff] <;> omega
        rw [scanFromFuel, if_neg hv]
        rw [hbnil, hdnil]
        rw [mergeSpec]

/-- The full scan of a freshly constructed merged iterator computes the
two-way merge of the two entry lists. -/
theorem forwardScan_eq_mergeSpec (bl : List (K × V))
    (dl : List (DEntry K V)) : forwardScan bl dl = mergeSpec bl dl := by
  have h := scanFromFuel_updateCurrent (bl.length + dl.length)
    (bl.length + dl.length + 1)
    { forward := true, currentAtBase := true, equalKeys := false,
      statusOK := true, base := ⟨bl, 0⟩, delta := ⟨dl, 0⟩ }
    rfl (by simp) (by omega)
  exact h

end ScanMain

section MergeSpecProps

variable {K V : Type} [LinearOrder K] [Inhabited K] [Inhabited V]

/-- Keys of a merge are keys of an input list. -/
theorem mergeSpec_key_sub (bs : List (K × V)) (ds : List (DEntry K V)) :
    ∀ p ∈ mergeSpec bs ds,
      p.1 ∈ bs.map Prod.fst ∨ p.1 ∈ ds.map DEntry.key := by
  induction bs, ds using mergeSpec.induct with
  | case1 => simp [mergeSpec]
  | case2 d ds htomb ih =>
    rw [mergeSpec, if_pos htomb]
    intro p hp
    rcases ih p hp with h | h
    · exact Or.inl h
    · exact Or.inr (by simp [h])
  | case3 d ds htomb ih =>
    rw [mergeSpec, if_neg htomb]
    intro p hp
    rcases List.mem_cons.mp hp with h | h
    · subst h
      exact Or.inr (by simp)
    · rcases ih p h with h2 | h2
      · exact Or.inl h2
      · exact Or.inr (by simp [h2])
  | case4 b bs ih =>
    rw [mergeSpec]
    intro p hp
    rcases List.mem_cons.mp hp with h | h
    · subst h
      exact Or.inl (by simp)
    · rcases ih p h with h2 | h2
      · exact Or.inl (by simp [h2])
      · exact Or.inr h2
  | case5 b bs d ds hlt htomb ih =>
    rw [mergeSpec, if_pos hlt, if_pos htomb]
    intro p hp
    rcases ih p hp with h | h
    · exact Or.inl h
    · exact Or.inr (by simp [h])
  | case6 b bs d ds hlt htomb ih =>
    rw [mergeSpec, if_pos hlt, if_neg htomb]
    intro p hp
    rcases List.mem_cons.mp hp with h | h
    · subst h
      exact Or.inr (by simp)
    · rcases ih p h with h2 | h2
      · exact Or.inl h2
      · exact Or.inr (by simp [h2])
  | case7 b bs d ds hlt heq htomb ih =>
    rw [mergeSpec, if_neg hlt, if_pos heq, if_pos htomb]
    intro p hp
    rcases ih p hp with h | h
    · exact Or.inl (by simp [h])
    · exact Or.inr (by simp [h])
  | case8 b bs d ds hlt heq htomb ih =>
    rw [mergeSpec, if_neg hlt, if_pos heq, if_neg htomb]
    intro p hp
    rcases List.mem_cons.mp hp with h | h
    · subst h
      exact Or.inr (by simp)
    · rcases ih p h with h2 | h2
      · exact Or.inl (by simp [h2])
      · exact Or.inr (by simp [h2])
  | case9 b bs d ds hlt heq ih =>
    rw [mergeSpec, if_neg hlt, if_neg heq]
    intro p hp
    rcases List.mem_cons.mp hp with h | h
    · subst h
      exact Or.inl (by simp)
    · rcases ih p h with h2 | h2
      · exact Or.inl (by simp [h2])
      · exact Or.inr h2


/-- Keys with the same value in a strictly sorted delta list identify the
same entry: overwrite mode admits one record per key. -/
theorem sorted_delta_key_unique (ds : List (DEntry K V))
    (hd : ds.Pairwise (fun a b => a.key < b.key)) :
    ∀ e ∈ ds, ∀ e2 ∈ ds, e.key = e2.key → e = e2 := by
  induction ds with
  | nil => intro e he; exact absurd he (List.not_mem_nil e)
  | cons d ds ih =>
    have hds := (List.pairwise_cons.mp hd).1
    intro e he e2 he2 hk
    rcases List.mem_cons.mp he with rfl | he'
    · rcases List.mem_cons.mp he2 with rfl | he2'
      · rfl
      · exact absurd hk (ne_of_lt (hds e2 he2'))
    · rcases List.mem_cons.mp he2 with rfl | he2'
      · exact absurd hk.symm (ne_of_lt (hds e he'))
      · exact ih (List.pairwise_cons.mp hd).2 e he' e2 he2' hk
/-- Completeness of the merge: every base or delta key without a
tombstone record appears in the merge output. -/
theorem mergeSpec_complete (bs : List (K × V)) (ds : List (DEntry K V))
    (hb : bs.Pairwise (fun a b => a.1 < b.1))
    (hd : ds.Pairwise (fun a b => a.key < b.key)) (kk : K) :
    (kk ∈ bs.map Prod.fst ∨ kk ∈ ds.map DEntry.key) →
    (∀ e ∈ ds, e.key = kk → e.rtype.isTombstone = false) →
    kk ∈ (mergeSpec bs ds).map Prod.fst := by
  induction bs, ds using mergeSpec.induct with
  | case1 =>
    intro hmem _
    simpa using hmem
  | case2 d ds htomb ih =>
    intro hmem hnt
    rw [mergeSpec, if_pos htomb]
    have hkd : kk ≠ d.key := by
      intro h
      have := hnt d (List.mem_cons_self d ds) h.symm
      rw [htomb] at this
      exact Bool.true_eq_false.mp this
    refine ih hb (List.pairwise_cons.mp hd).2 ?_
      (fun e he hek => hnt e (List.mem_cons_of_mem d he) hek)
    rcases hmem with h | h
    · exact Or.inl h
    · simp only [List.map_cons, List.mem_cons] at h
      rcases h with h | h
      · exact absurd h hkd
      · exact Or.inr h
  | case3 d ds htomb ih =>
    intro hmem hnt
    rw [mergeSpec, if_neg htomb]
    by_cases hkd : kk = d.key
    · simp [hkd]
    · simp only [List.map_cons, List.mem_cons]
      refine Or.inr (ih hb (List.pairwise_cons.mp hd).2 ?_
        (fun e he hek => hnt e (List.mem_cons_of_mem d he) hek))
      rcases hmem with h | h
      · exact Or.inl h
      · simp only [List.map_cons, List.mem_cons] at h
        rcases h with h | h
        · exact absurd h hkd
        · exact Or.inr h
  | case4 b bs ih =>
    intro hmem hnt
    rw [mergeSpec]
    by_cases hkb : kk = b.1
    · simp [hkb]
    · simp only [List.map_cons, List.mem_cons]
      refine Or.inr (ih (List.pairwise_cons.mp hb).2 hd ?_ hnt)
      rcases hmem with h | h
      · simp only [List.map_cons, List.mem_cons] at h
        rcases h with h | h
        · exact absurd h hkb
        · exact Or.inl h
      · simp at h
  | case5 b bs d ds hlt htomb ih =>
    intro hmem hnt
    rw [mergeSpec, if_pos hlt, if_pos htomb]
    have hkd : kk ≠ d.key := by
      intro h
      have := hnt d (List.mem_cons_self d ds) h.symm
      rw [htomb] at this
      exact Bool.true_eq_false.mp this
    refine ih hb (List.pairwise_cons.mp hd).2 ?_
      (fun e he hek => hnt e (List.mem_cons_of_mem d he) hek)
    rcases hmem with h | h
    · exact Or.inl h
    · simp only [List.map_cons, List.mem_cons] at h
      rcases h with h | h
      · exact absurd h hkd
      · exact Or.inr h
  | case6 b bs d ds hlt htomb ih =>
    intro hmem hnt
    rw [mergeSpec, if_pos hlt, if_neg htomb]
    by_cases hkd : kk = d.key
    · simp [hkd]
    · simp only [List.map_cons, List.mem_cons]
      refine Or.inr (ih hb (List.pairwise_cons.mp hd).2 ?_
        (fun e he hek => hnt e (List.mem_cons_of_mem d he) hek))
      rcases hmem with h | h
      · exact Or.inl h
      · simp only [List.map_cons, List.mem_cons] at h
        rcases h with h | h
        · exact absurd h hkd
        · exact Or.inr h
  | case7 b bs d ds hlt heq htomb ih =>
    intro hmem hnt
    rw [mergeSpec, if_neg hlt, if_pos heq, if_pos htomb]
    have hkd : kk ≠ d.key := by
      intro h
      have := hnt d (List.mem_cons_self d ds) h.symm
      rw [htomb] at this
      exact Bool.true_eq_false.mp this
    have hkb : kk ≠ b.1 := by rw [← heq]; exact hkd
    refine ih (List.pairwise_cons.mp hb).2 (List.pairwise_cons.mp hd).2 ?_
      (fun e he hek => hnt e (List.mem_cons_of_mem d he) hek)
    rcases hmem with h | h
    · simp only [List.map_cons, List.mem_cons] at h
      rcases h with h | h
      · exact absurd h hkb
      · exact Or.inl h
    · simp only [List.map_cons, List.mem_cons] at h
      rcases h with h | h
      · exact absurd h hkd
      · exact Or.inr h
  | case8 b bs d ds hlt heq htomb ih =>
    intro hmem hnt
    rw [mergeSpec, if_neg hlt, if_pos heq, if_neg htomb]
    by_cases hkd : kk = d.key
    · simp [hkd]
    · have hkb : kk ≠ b.1 := by rw [← heq]; exact hkd
      simp only [List.map_cons, List.mem_cons]
      refine Or.inr (ih (List.pairwise_cons.mp hb).2
        (List.pairwise_cons.mp hd).2 ?_
        (fun e he hek => hnt e (List.mem_cons_of_mem d he) hek))
      rcases hmem with h | h
      · simp only [List.map_cons, List.mem_cons] at h
        rcases h with h | h
        · exact absurd h hkb
        · exact Or.inl h
      · simp only [List.map_cons, List.mem_cons] at h
        rcases h with h | h
        · exact absurd h hkd
        · exact Or.inr h
  | case9 b bs d ds hlt heq ih =>
    intro hmem hnt
    rw [mergeSpec, if_neg hlt, if_neg heq]
    by_cases hkb : kk = b.1
    · simp [hkb]
    · simp only [List.map_cons, List.mem_cons]
      refine Or.inr (ih (List.pairwise_cons.mp hb).2 hd ?_ hnt)
      rcases hmem with h | h
      · simp only [List.map_cons, List.mem_cons] at h
        rcases h with h | h
        · exact absurd h hkb
        · exact Or.inl h
      · exact Or.inr h
/-- Provenance of merge output: every emitted pair is either a live delta
entry, key and value both, or a base pair whose key has no delta entry. -/
theorem mergeSpec_shadow (bs : List (K × V)) (ds : List (DEntry K V))
    (hb : bs.Pairwise (fun a b => a.1 < b.1))
    (hd : ds.Pairwise (fun a b => a.key < b.key)) :
    ∀ kk v, (kk, v) ∈ mergeSpec bs ds →
      (∃ e ∈ ds, e.key = kk ∧ e.rtype.isTombstone = false ∧ e.value = v) ∨
      ((∀ e ∈ ds, e.key ≠ kk) ∧ (kk, v) ∈ bs) := by
  induction bs, ds using mergeSpec.induct with
  | case1 =>
    intro kk v h
    rw [mergeSpec] at h
    exact absurd h (List.not_mem_nil _)
  | case2 d ds htomb ih =>
    intro kk v h
    rw [mergeSpec, if_pos htomb] at h
    rcases ih hb (List.pairwise_cons.mp hd).2 kk v h with
      ⟨e, he, h1, h2, h3⟩ | ⟨-, hin⟩
    · exact Or.inl ⟨e, List.mem_cons_of_mem d he, h1, h2, h3⟩
    · exact absurd hin (List.not_mem_nil _)
  | case3 d ds htomb ih =>
    intro kk v h
    rw [mergeSpec, if_neg htomb] at h
    rcases List.mem_cons.mp h with h0 | h0
    · refine Or.inl ⟨d, List.mem_cons_self d ds, ?_, ?_, ?_⟩
      · exact (congrArg Prod.fst h0).symm
      · exact Bool.of_not_eq_true htomb
      · exact (congrArg Prod.snd h0).symm
    · rcases ih hb (List.pairwise_cons.mp hd).2 kk v h0 with
        ⟨e, he, h1, h2, h3⟩ | ⟨-, hin⟩
      · exact Or.inl ⟨e, List.mem_cons_of_mem d he, h1, h2, h3⟩
      · exact absurd hin (List.not_mem_nil _)
  | case4 b bs ih =>
    intro kk v h
    rw [mergeSpec] at h
    rcases List.mem_cons.mp h with h0 | h0
    · exact Or.inr ⟨fun e he => absurd he (List.not_mem_nil e),
        by rw [h0]; exact List.mem_cons_self b bs⟩
    · rcases ih (List.pairwise_cons.mp hb).2 hd kk v h0 with
        ⟨e, he, -⟩ | ⟨hne, hin⟩
      · exact absurd he (List.not_mem_nil e)
      · exact Or.inr ⟨hne, List.mem_cons_of_mem b hin⟩
  | case5 b bs d ds hlt htomb ih =>
    intro kk v h
    rw [mergeSpec, if_pos hlt, if_pos htomb] at h
    have hbs := (List.pairwise_cons.mp hb).1
    rcases ih hb (List.pairwise_cons.mp hd).2 kk v h with
      ⟨e, he, h1, h2, h3⟩ | ⟨hne, hin⟩
    · exact Or.inl ⟨e, List.mem_cons_of_mem d he, h1, h2, h3⟩
    · refine Or.inr ⟨?_, hin⟩
      have hkk : b.1 ≤ kk := by
        rcases List.mem_cons.mp hin with h4 | h4
        · rw [← h4]
        · exact le_of_lt (hbs (kk, v) h4)
      intro e he
      rcases List.mem_cons.mp he with rfl | he2
      · exact ne_of_lt (lt_of_lt_of_le hlt hkk)
      · exact hne e he2
  | case6 b bs d ds hlt htomb ih =>
    intro kk v h
    rw [mergeSpec, if_pos hlt, if_neg htomb] at h
    have hbs := (List.pairwise_cons.mp hb).1
    rcases List.mem_cons.mp h with h0 | h0
    · refine Or.inl ⟨d, List.mem_cons_self d ds, ?_, ?_, ?_⟩
      · exact (congrArg Prod.fst h0).symm
      · exact Bool.of_not_eq_true htomb
      · exact (congrArg Prod.snd h0).symm
    · rcases ih hb (List.pairwise_cons.mp hd).2 kk v h0 with
        ⟨e, he, h1, h2, h3⟩ | ⟨hne, hin⟩
      · exact Or.inl ⟨e, List.mem_cons_of_mem d he, h1, h2, h3⟩
      · refine Or.inr ⟨?_, hin⟩
        have hkk : b.1 ≤ kk := by
          rcases List.mem_cons.mp hin with h4 | h4
          · rw [← h4]
          · exact le_of_lt (hbs (kk, v) h4)
        intro e he
        rcases List.mem_cons.mp he with rfl | he2
        · exact ne_of_lt (lt_of_lt_of_le hlt hkk)
        · exact hne e he2
  | case7 b bs d ds hlt heq htomb ih =>
    intro kk v h
    rw [mergeSpec, if_neg hlt, if_pos heq, if_pos htomb] at h
    have hbs := (List.pairwise_cons.mp hb).1
    rcases ih (List.pairwise_cons.mp hb).2 (List.pairwise_cons.mp hd).2
        kk v h with ⟨e, he, h1, h2, h3⟩ | ⟨hne, hin⟩
    · exact Or.inl ⟨e, List.mem_cons_of_mem d he, h1, h2, h3⟩
    · refine Or.inr ⟨?_, List.mem_cons_of_mem b hin⟩
      have hkk : b.1 < kk := hbs (kk, v) hin
      intro e he
      rcases List.mem_cons.mp he with rfl | he2
      · rw [heq]
        exact ne_of_lt hkk
      · exact hne e he2
  | case8 b bs d ds hlt heq htomb ih =>
    intro kk v h
    rw [mergeSpec, if_neg hlt, if_pos heq, if_neg htomb] at h
    have hbs := (List.pairwise_cons.mp hb).1
    rcases List.mem_cons.mp h with h0 | h0
    · refine Or.inl ⟨d, List.mem_cons_self d ds, ?_, ?_, ?_⟩
      · exact (congrArg Prod.fst h0).symm
      · exact Bool.of_not_eq_true htomb
      · exact (congrArg Prod.snd h0).symm
    · rcases ih (List.pairwise_cons.mp hb).2 (List.pairwise_cons.mp hd).2
          kk v h0 with ⟨e, he, h1, h2, h3⟩ | ⟨hne, hin⟩
      · exact Or.inl ⟨e, List.mem_cons_of_mem d he, h1, h2, h3⟩
      · refine Or.inr ⟨?_, List.mem_cons_of_mem b hin⟩
        have hkk : b.1 < kk := hbs (kk, v) hin
        intro e he
        rcases List.mem_cons.mp he with rfl | he2
        · rw [heq]
          exact ne_of_lt hkk
        · exact hne e he2
  | case9 b bs d ds hlt heq ih =>
    intro kk v h
    rw [mergeSpec, if_neg hlt, if_neg heq] at h
    have hgt : b.1 < d.key := by
      rcases lt_trichotomy d.key b.1 with h2 | h2 | h2
      · exact absurd h2 hlt
      · exact absurd h2 heq
      · exact h2
    have hds := (List.pairwise_cons.mp hd).1
    rcases List.mem_cons.mp h with h0 | h0
    · refine Or.inr ⟨?_, by rw [h0]; exact List.mem_cons_self b bs⟩
      have hkk : kk = b.1 := congrArg Prod.fst h0
      intro e he
      rcases List.mem_cons.mp he with rfl | he2
      · rw [hkk]
        exact ne_of_gt hgt
      · rw [hkk]
        exact ne_of_gt (lt_trans hgt (hds e he2))
    · rcases ih (List.pairwise_cons.mp hb).2 hd kk v h0 with
        ⟨e, he, h1, h2, h3⟩ | ⟨hne, hin⟩
      · exact Or.inl ⟨e, he, h1, h2, h3⟩
      · exact Or.inr ⟨hne, List.mem_cons_of_mem b hin⟩

end MergeSpecProps

section ClaimOne

variable {K V : Type} [LinearOrder K] [Inhabited K] [Inhabited V]
variable [DecidableEq V]

/-- Claim C1: for every store snapshot and every overwrite-mode batch,
given as the sorted entry lists their iterators produce, a full forward
scan of the merged iterator visits exactly the union of the base and
delta keys minus the keys whose batch record is a Delete or SingleDelete
tombstone, and for a visited key the delta record's value shadows the
base's value. -/
theorem c1_merged_scan_completeness (bl : List (K × V))
    (dl : List (DEntry K V))
    (hb : bl.Pairwise (fun a b => a.1 < b.1))
    (hd : dl.Pairwise (fun a b => a.key < b.key)) :
    (∀ kk : K, kk ∈ (forwardScan bl dl).map Prod.fst ↔
      ((kk ∈ bl.map Prod.fst ∨ kk ∈ dl.map DEntry.key) ∧
        ∀ e ∈ dl, e.key = kk → e.rtype.isTombstone = false)) ∧
    (∀ (kk : K) (v : V), (kk, v) ∈ forwardScan bl dl →
      (∃ e ∈ dl, e.key = kk ∧ e.rtype.isTombstone = false ∧ e.value = v) ∨
      ((∀ e ∈ dl, e.key ≠ kk) ∧ (kk, v) ∈ bl)) := by
  rw [forwardScan_eq_mergeSpec]
  constructor
  · intro kk
    constructor
    · intro h
      obtain ⟨p, hp, hpk⟩ := List.mem_map.mp h
      have hp2 : (p.1, p.2) ∈ mergeSpec bl dl := by
        rw [Prod.mk.eta]
        exact hp
      rcases mergeSpec_shadow bl dl hb hd p.1 p.2 hp2 with
        ⟨e, he, h1, h2, h3⟩ | ⟨hne, hin⟩
      · subst hpk
        refine ⟨Or.inr (List.mem_map.mpr ⟨e, he, h1⟩), ?_⟩
        intro e2 he2 hek2
        have he12 : e2 = e :=
          sorted_delta_key_unique dl hd e2 he2 e he (by rw [hek2, h1])
        rw [he12, h2]
      · subst hpk
        refine ⟨Or.inl (List.mem_map.mpr ⟨(p.1, p.2), hin, rfl⟩), ?_⟩
        intro e2 he2 hek2
        exact absurd hek2 (hne e2 he2)
    · rintro ⟨hmem, hnt⟩
      exact mergeSpec_complete bl dl hb hd kk hmem hnt
  · intro kk v h
    exact mergeSpec_shadow bl dl hb hd kk v h

/-- Witness for c1_merged_scan_completeness at the tombstone-masking
scenario of the spec: base entries at keys 0, 1, 2, a batch that deletes
key 1 and overwrites key 2. -/
theorem c1_merged_scan_completeness_witness :
    (([((0 : Nat), (10 : Nat)), (1, 11), (2, 12)].Pairwise
        (fun a b => a.1 < b.1))
      ∧ (([⟨1, RecType.deleteRec, 0⟩, ⟨2, RecType.putRec, 22⟩]
          : List (DEntry Nat Nat)).Pairwise (fun a b => a.key < b.key)))
    ∧ ((∀ kk : Nat, kk ∈ (forwardScan [((0 : Nat), (10 : Nat)), (1, 11), (2, 12)]
          ([⟨1, RecType.deleteRec, 0⟩, ⟨2, RecType.putRec, 22⟩]
            : List (DEntry Nat Nat))).map Prod.fst ↔
        ((kk ∈ [((0 : Nat), (10 : Nat)), (1, 11), (2, 12)].map Prod.fst
            ∨ kk ∈ ([⟨1, RecType.deleteRec, 0⟩, ⟨2, RecType.putRec, 22⟩]
              : List (DEntry Nat Nat)).map DEntry.key) ∧
          ∀ e ∈ ([⟨1, RecType.deleteRec, 0⟩, ⟨2, RecType.putRec, 22⟩]
            : List (DEntry Nat Nat)), e.key = kk →
              e.rtype.isTombstone = false)) ∧
      (∀ (kk v : Nat), (kk, v) ∈ forwardScan
          [((0 : Nat), (10 : Nat)), (1, 11), (2, 12)]
          ([⟨1, RecType.deleteRec, 0⟩, ⟨2, RecType.putRec, 22⟩]
            : List (DEntry Nat Nat)) →
        (∃ e ∈ ([⟨1, RecType.deleteRec, 0⟩, ⟨2, RecType.putRec, 22⟩]
            : List (DEntry Nat Nat)), e.key = kk ∧
              e.rtype.isTombstone = false ∧ e.value = v) ∨
        ((∀ e ∈ ([⟨1, RecType.deleteRec, 0⟩, ⟨2, RecType.putRec, 22⟩]
            : List (DEntry Nat Nat)), e.key ≠ kk) ∧
          (kk, v) ∈ [((0 : Nat), (10 : Nat)), (1, 11), (2, 12)]))) :=
  ⟨⟨by decide, by decide⟩,
    c1_merged_scan_completeness _ _ (by decide) (by decide)⟩

end ClaimOne

section RoundTrip

variable {K V : Type} [LinearOrder K] [Inhabited K] [Inhabited V]

/-- The cursor position whose iterated prefix is `take cut`: one below
the cut, wrapping to the invalid position when the cut is zero.  Both
Prev() on a valid cursor and SeekToLast() on an exhausted one land on
this position. -/
def predPos (len cut : Nat) : Nat := if cut = 0 then len else cut - 1

/-- The cut a cursor position stands for, inverse to predPos on
positions not above the length. -/
def cutOf (len pos : Nat) : Nat := if pos = len then 0 else pos + 1

theorem predPos_cutOf (len pos : Nat) (h : pos ≤ len) :
    predPos len (cutOf len pos) = pos := by
  unfold predPos cutOf
  by_cases hp : pos = len <;> simp [hp] <;> omega

theorem cutOf_predPos (len cut : Nat) (h : cut ≤ len) :
    cutOf len (predPos len cut) = cut := by
  unfold predPos cutOf
  by_cases hc : cut = 0
  · simp [hc]
  · rw [if_neg hc, if_neg (by omega)]
    omega

theorem predPos_le (len cut : Nat) (h : cut ≤ len) :
    predPos len cut ≤ len := by
  unfold predPos
  split <;> omega

theorem predPos_lt_iff (len cut : Nat) (h : cut ≤ len) :
    predPos len cut < len ↔ 1 ≤ cut := by
  unfold predPos
  by_cases hc : cut = 0 <;> simp [hc] <;> omega

/-- Prev() on the position of a cut is the position of the cut below. -/
theorem sIter_prev_predPos {α : Type} (l : List α) (cut : Nat)
    (h1 : 1 ≤ cut) (h2 : cut ≤ l.length) :
    SIter.prev ⟨l, predPos l.length cut⟩
      = ⟨l, predPos l.length (cut - 1)⟩ := by
  have hp : predPos l.length cut = cut - 1 := by
    unfold predPos
    rw [if_neg (by omega)]
  rw [hp]
  unfold SIter.prev
  dsimp only
  rw [if_pos (by omega)]
  by_cases hc : cut - 1 = 0
  · rw [if_pos hc]
    unfold predPos
    rw [if_pos hc]
  · rw [if_neg hc]
    unfold predPos
    rw [if_neg hc]

/-- SeekToLast() on a cursor is the position of the full cut. -/
theorem sIter_seekToLast_predPos {α : Type} (l : List α) (p : Nat) :
    SIter.seekToLast ⟨l, p⟩ = ⟨l, predPos l.length l.length⟩ := by
  unfold SIter.seekToLast predPos
  by_cases h : l.length = 0 <;> simp [h]

/-- Next() on the position of a cut is the position one above; an
exhausted reverse cursor instead restarts at the first entry, which is
the same position as the cut itself. -/
theorem sIter_next_cut {α : Type} (l : List α) (cut : Nat)
    (h1 : 1 ≤ cut) (h2 : cut ≤ l.length) :
    SIter.next ⟨l, predPos l.length cut⟩ = ⟨l, cut⟩ := by
  have hp : predPos l.length cut = cut - 1 := by
    unfold predPos
    rw [if_neg (by omega)]
  rw [hp]
  unfold SIter.next
  dsimp only
  rw [if_pos (by omega)]
  have h3 : cut - 1 + 1 = cut := by omega
  rw [h3]

theorem sIter_seekToFirst_cut {α : Type} (l : List α) (p : Nat) :
    SIter.seekToFirst ⟨l, p⟩ = ⟨l, 0⟩ := rfl

/-- UpdateCurrent touches neither the direction, the status, nor the
entry lists. -/
theorem updateCurrent_fields (s : BDI K V) :
    (updateCurrent s).forward = s.forward ∧
    (updateCurrent s).statusOK = s.statusOK ∧
    (updateCurrent s).base.entries = s.base.entries ∧
    (updateCurrent s).delta.entries = s.delta.entries := by
  induction s using updateCurrent.induct with
  | case1 s hB hD hle htomb heq ih =>
    rw [updateCurrent]
    simp only [dif_pos hB, dif_pos hD, if_pos hle, if_pos htomb, if_pos heq]
    refine ⟨ih.1, ih.2.1, ?_, ?_⟩
    · rw [ih.2.2.1]
      rw [advanceBase_entries, advanceDelta_base]
    · rw [ih.2.2.2, advanceBase_delta, advanceDelta_entries]
  | case2 s hB hD hle htomb hne ih =>
    rw [updateCurrent]
    simp only [dif_pos hB, dif_pos hD, if_pos hle, if_pos htomb, if_neg hne]
    refine ⟨ih.1, ih.2.1, ?_, ?_⟩
    · rw [ih.2.2.1, advanceDelta_base]
    · rw [ih.2.2.2, advanceDelta_entries]
  | case3 s hB hD hle htomb =>
    rw [updateCurrent]
    simp only [dif_pos hB, dif_pos hD, if_pos hle, if_neg htomb]
    refine ⟨?_, ?_, ?_, ?_⟩ <;> first
      | rfl
      | trivial
  | case4 s hB hD hgt =>
    rw [updateCurrent]
    simp only [dif_pos hB, dif_pos hD, if_neg hgt]
    refine ⟨?_, ?_, ?_, ?_⟩ <;> first
      | rfl
      | trivial
  | case5 s hB hD =>
    rw [updateCurrent]
    simp only [dif_pos hB, dif_neg hD]
    refine ⟨?_, ?_, ?_, ?_⟩ <;> first
      | rfl
      | trivial
  | case6 s hB hD htomb ih =>
    rw [updateCurrent]
    simp only [dif_neg hB, dif_pos hD, if_pos htomb]
    refine ⟨ih.1, ih.2.1, ?_, ?_⟩
    · rw [ih.2.2.1, advanceDelta_base]
    · rw [ih.2.2.2, advanceDelta_entries]
  | case7 s hB hD htomb =>
    rw [updateCurrent]
    simp only [dif_neg hB, dif_pos hD, if_neg htomb]
    refine ⟨?_, ?_, ?_, ?_⟩ <;> first
      | rfl
      | trivial
  | case8 s hB hD =>
    rw [updateCurrent]
    simp only [dif_neg hB, dif_neg hD]
    refine ⟨?_, ?_, ?_, ?_⟩ <;> first
      | rfl
      | trivial

/-- UpdateCurrent never reads the equal-keys flag, it only writes it. -/
theorem updateCurrent_eqKeys (s : BDI K V) (b : Bool) :
    updateCurrent { s with equalKeys := b } = updateCurrent s := by
  rw [updateCurrent]
  conv_rhs => rw [updateCurrent]
  rfl

theorem pairwise_key_mono {l : List (K × V)}
    (h : l.Pairwise (fun a b => a.1 < b.1))
    {i j : Nat} (hij : i ≤ j) (hj : j < l.length) :
    (l.get ⟨i, by omega⟩).1 ≤ (l.get ⟨j, hj⟩).1 := by
  rcases Nat.lt_or_ge i j with hlt | hge
  · exact le_of_lt (List.pairwise_iff_getElem.mp h i j (by omega) hj hlt)
  · have hij2 : i = j := by omega
    subst hij2
    exact le_rfl

theorem pairwise_key_strict {l : List (K × V)}
    (h : l.Pairwise (fun a b => a.1 < b.1))
    {i j : Nat} (hij : i < j) (hj : j < l.length) :
    (l.get ⟨i, by omega⟩).1 < (l.get ⟨j, hj⟩).1 :=
  List.pairwise_iff_getElem.mp h i j (by omega) hj hij

theorem pairwise_dkey_strict {l : List (DEntry K V)}
    (h : l.Pairwise (fun a b => a.key < b.key))
    {i j : Nat} (hij : i < j) (hj : j < l.length) :
    (l.get ⟨i, by omega⟩).key < (l.get ⟨j, hj⟩).key :=
  List.pairwise_iff_getElem.mp h i j (by omega) hj hij

theorem pairwise_dkey_mono {l : List (DEntry K V)}
    (h : l.Pairwise (fun a b => a.key < b.key))
    {i j : Nat} (hij : i ≤ j) (hj : j < l.length) :
    (l.get ⟨i, by omega⟩).key ≤ (l.get ⟨j, hj⟩).key := by
  rcases Nat.lt_or_ge i j with hlt | hge
  · exact le_of_lt (List.pairwise_iff_getElem.mp h i j (by omega) hj hlt)
  · have hij2 : i = j := by omega
    subst hij2
    exact le_rfl

theorem deltaEntry_eq (s : BDI K V)
    (hD : s.delta.pos < s.delta.entries.length) :
    s.deltaEntry = s.delta.entries[s.delta.pos] := by
  rw [deltaEntry]
  exact sIter_cur_eq _ hD

theorem baseKey_eq (s : BDI K V)
    (hB : s.base.pos < s.base.entries.length) :
    s.baseKey = (s.base.entries[s.base.pos]).1 := by
  rw [baseKey]
  rw [sIter_cur_eq _ hB]

/-- What one forward run of UpdateCurrent does to the positions: both
cursors only move ahead and stay in range, every skipped delta entry is
a tombstone, every skipped base entry is masked by a skipped delta entry
of the same key, the skipped delta keys stay below the key the iterator
settles on when it settles on the base, a settled-on delta entry is
never a tombstone, and equal keys imply the delta side. -/
theorem updateCurrent_char_fwd (s : BDI K V) :
    s.forward = true →
    s.base.entries.Pairwise (fun a b => a.1 < b.1) →
    s.base.pos ≤ s.base.entries.length →
    s.delta.pos ≤ s.delta.entries.length →
    (s.base.pos ≤ (updateCurrent s).base.pos ∧
     (updateCurrent s).base.pos ≤ s.base.entries.length ∧
     s.delta.pos ≤ (updateCurrent s).delta.pos ∧
     (updateCurrent s).delta.pos ≤ s.delta.entries.length ∧
     (∀ i, s.delta.pos ≤ i → i < (updateCurrent s).delta.pos →
       ∀ (hi : i < s.delta.entries.length),
       (s.delta.entries[i]).rtype.isTombstone = true) ∧
     (∀ j, s.base.pos ≤ j → j < (updateCurrent s).base.pos →
       ∀ (hj : j < s.base.entries.length),
       ∃ i, s.delta.pos ≤ i ∧ i < (updateCurrent s).delta.pos ∧
         ∃ (hi : i < s.delta.entries.length),
         (s.delta.entries[i]).key = (s.base.entries[j]).1) ∧
     ((updateCurrent s).currentAtBase = true →
       ∀ (hbv : (updateCurrent s).base.pos < s.base.entries.length),
       ∀ i, s.delta.pos ≤ i → i < (updateCurrent s).delta.pos →
       ∀ (hi : i < s.delta.entries.length),
       (s.delta.entries[i]).key <
         (s.base.entries[(updateCurrent s).base.pos]).1) ∧
     ((updateCurrent s).currentAtBase = false →
       ∀ (hdv : (updateCurrent s).delta.pos < s.delta.entries.length),
       (s.delta.entries[(updateCurrent s).delta.pos]).rtype.isTombstone
         = false) ∧
     ((updateCurrent s).equalKeys = true →
       (updateCurrent s).currentAtBase = false)) := by
  induction s using updateCurrent.induct with
  | case1 s hB hD hle htomb heq ih =>
    intro hf hsb hwb hwd
    have hde : s.deltaEntry = s.delta.entries[s.delta.pos] :=
      deltaEntry_eq s hD
    have hbk : s.baseKey = (s.base.entries[s.base.pos]).1 := baseKey_eq s hB
    have hfX : (advanceDelta { s with equalKeys := true }).forward = true := by
      rw [advanceDelta_forward]
      exact hf
    have he1 : (advanceBase (advanceDelta { s with equalKeys := true
        })).base.entries = s.base.entries := by
      rw [advanceBase_entries, advanceDelta_base]
    have he2 : (advanceBase (advanceDelta { s with equalKeys := true
        })).delta.entries = s.delta.entries := by
      rw [advanceBase_delta, advanceDelta_entries]
    have hp1 : (advanceBase (advanceDelta { s with equalKeys := true
        })).base.pos = s.base.pos + 1 := by
      rw [advanceBase_pos_fwd _ (by rw [advanceDelta_forward]; exact hf)
        (by rw [advanceDelta_base]; exact hB)]
      rw [advanceDelta_base]
    have hp2 : (advanceBase (advanceDelta { s with equalKeys := true
        })).delta.pos = s.delta.pos + 1 := by
      rw [advanceBase_delta]
      exact advanceDelta_pos_fwd _ (by exact hf) hD
    rw [updateCurrent]
    simp only [dif_pos hB, dif_pos hD, if_pos hle, if_pos htomb, if_pos heq]
    obtain ⟨i1, i2, i3, i4, i5, i6, i7, i8, i9⟩ :=
      ih (by rw [advanceBase_forward]; exact hfX)
        (by rw [he1]; exact hsb)
        (by rw [he1, hp1]; omega)
        (by rw [he2, hp2]; omega)
    rw [hp1] at i1
    rw [he1] at i2
    rw [hp2] at i3
    rw [he2] at i4
    rw [hp2, he2] at i5
    rw [hp1, hp2, he1, he2] at i6
    rw [hp2, he1, he2] at i7
    rw [he2] at i8
    refine ⟨by omega, i2, by omega, i4, ?_, ?_, ?_, i8, i9⟩
    · intro i hi1 hi2 hi
      by_cases hieq : i = s.delta.pos
      · subst hieq
        rw [← hde]
        exact htomb
      · exact i5 i (by omega) hi2 hi
    · intro j hj1 hj2 hj
      by_cases hjeq : j = s.base.pos
      · subst hjeq
        refine ⟨s.delta.pos, le_rfl, by omega, hD, ?_⟩
        have := signedCmp_eq_zero.mp heq
        rw [hde, hbk] at this
        exact this
      · obtain ⟨i, hia, hib, hic, hid⟩ := i6 j (by omega) hj2 hj
        exact ⟨i, by omega, hib, hic, hid⟩
    · intro hcb hbv i hi1 hi2 hi
      by_cases hieq : i = s.delta.pos
      · subst hieq
        have hkey := signedCmp_eq_zero.mp heq
        rw [hde, hbk] at hkey
        rw [hkey]
        exact pairwise_key_strict hsb (by omega) hbv
      · exact i7 hcb hbv i (by omega) hi2 hi
  | case2 s hB hD hle htomb hne ih =>
    intro hf hsb hwb hwd
    have hde : s.deltaEntry = s.delta.entries[s.delta.pos] :=
      deltaEntry_eq s hD
    have hbk : s.baseKey = (s.base.entries[s.base.pos]).1 := baseKey_eq s hB
    have he1 : (advanceDelta { s with equalKeys := false }).base.entries
        = s.base.entries := by
      rw [advanceDelta_base]
    have he2 : (advanceDelta { s with equalKeys := false }).delta.entries
        = s.delta.entries := by
      rw [advanceDelta_entries]
    have hp1 : (advanceDelta { s with equalKeys := false }).base.pos
        = s.base.pos := by
      rw [advanceDelta_base]
    have hp2 : (advanceDelta { s with equalKeys := false }).delta.pos
        = s.delta.pos + 1 :=
      advanceDelta_pos_fwd _ (by exact hf) hD
    rw [updateCurrent]
    simp only [dif_pos hB, dif_pos hD, if_pos hle, if_pos htomb, if_neg hne]
    obtain ⟨i1, i2, i3, i4, i5, i6, i7, i8, i9⟩ :=
      ih (by rw [advanceDelta_forward]; exact hf)
        (by rw [he1]; exact hsb)
        (by rw [he1, hp1]; exact hwb)
        (by rw [he2, hp2]; omega)
    rw [hp1] at i1
    rw [he1] at i2
    rw [hp2] at i3
    rw [he2] at i4
    rw [hp2, he2] at i5
    rw [hp1, hp2, he1, he2] at i6
    rw [hp2, he1, he2] at i7
    rw [he2] at i8
    have hdlt : s.deltaEntry.key < s.baseKey := by
      rcases lt_or_eq_of_le ((signedCmp_le_zero_fwd hf).mp hle) with h | h
      · exact h
      · exact absurd (signedCmp_eq_zero.mpr h) hne
    refine ⟨i1, i2, by omega, i4, ?_, ?_, ?_, i8, i9⟩
    · intro i hi1 hi2 hi
      by_cases hieq : i = s.delta.pos
      · subst hieq
        rw [← hde]
        exact htomb
      · exact i5 i (by omega) hi2 hi
    · intro j hj1 hj2 hj
      obtain ⟨i, hia, hib, hic, hid⟩ := i6 j hj1 hj2 hj
      exact ⟨i, by omega, hib, hic, hid⟩
    · intro hcb hbv i hi1 hi2 hi
      by_cases hieq : i = s.delta.pos
      · subst hieq
        rw [hde, hbk] at hdlt
        calc (s.delta.entries[s.delta.pos]).key
            < (s.base.entries[s.base.pos]).1 := hdlt
          _ ≤ (s.base.entries[(updateCurrent (advanceDelta { s with
                equalKeys := false })).base.pos]).1 :=
            pairwise_key_mono hsb i1 hbv
      · exact i7 hcb hbv i (by omega) hi2 hi
  | case3 s hB hD hle htomb =>
    intro hf hsb hwb hwd
    rw [updateCurrent]
    simp only [dif_pos hB, dif_pos hD, if_pos hle, if_neg htomb]
    refine ⟨le_rfl, hwb, le_rfl, hwd, ?_, ?_, ?_, ?_, ?_⟩
    · intro i hi1 hi2 hi
      omega
    · intro j hj1 hj2 hj
      omega
    · intro hcb hbv i hi1 hi2 hi
      omega
    · intro hcb hdv
      rw [← deltaEntry_eq s hD]
      simp only [Bool.not_eq_true] at htomb
      exact htomb
    · intro _
      trivial
  | case4 s hB hD hgt =>
    intro hf hsb hwb hwd
    rw [updateCurrent]
    simp only [dif_pos hB, dif_pos hD, if_neg hgt]
    refine ⟨le_rfl, hwb, le_rfl, hwd, ?_, ?_, ?_, ?_, ?_⟩
    · intro i hi1 hi2 hi
      omega
    · intro j hj1 hj2 hj
      omega
    · intro hcb hbv i hi1 hi2 hi
      omega
    · intro hcb hdv
      cases hcb
    · intro hq
      cases hq
  | case5 s hB hD =>
    intro hf hsb hwb hwd
    rw [updateCurrent]
    simp only [dif_pos hB, dif_neg hD]
    refine ⟨le_rfl, hwb, le_rfl, hwd, ?_, ?_, ?_, ?_, ?_⟩
    · intro i hi1 hi2 hi
      omega
    · intro j hj1 hj2 hj
      omega
    · intro hcb hbv i hi1 hi2 hi
      omega
    · intro hcb hdv
      cases hcb
    · intro hq
      cases hq
  | case6 s hB hD htomb ih =>
    intro hf hsb hwb hwd
    have hde : s.deltaEntry = s.delta.entries[s.delta.pos] :=
      deltaEntry_eq s hD
    have he1 : (advanceDelta { s with equalKeys := false }).base.entries
        = s.base.entries := by
      rw [advanceDelta_base]
    have he2 : (advanceDelta { s with equalKeys := false }).delta.entries
        = s.delta.entries := by
      rw [advanceDelta_entries]
    have hp1 : (advanceDelta { s with equalKeys := false }).base.pos
        = s.base.pos := by
      rw [advanceDelta_base]
    have hp2 : (advanceDelta { s with equalKeys := false }).delta.pos
        = s.delta.pos + 1 :=
      advanceDelta_pos_fwd _ (by exact hf) hD
    rw [updateCurrent]
    simp only [dif_neg hB, dif_pos hD, if_pos htomb]
    obtain ⟨i1, i2, i3, i4, i5, i6, i7, i8, i9⟩ :=
      ih (by rw [advanceDelta_forward]; exact hf)
        (by rw [he1]; exact hsb)
        (by rw [he1, hp1]; exact hwb)
        (by rw [he2, hp2]; omega)
    rw [hp1] at i1
    rw [he1] at i2
    rw [hp2] at i3
    rw [he2] at i4
    rw [hp2, he2] at i5
    rw [hp1, hp2, he1, he2] at i6
    rw [hp2, he1, he2] at i7
    rw [he2] at i8
    refine ⟨i1, i2, by omega, i4, ?_, ?_, ?_, i8, i9⟩
    · intro i hi1 hi2 hi
      by_cases hieq : i = s.delta.pos
      · subst hieq
        rw [← hde]
        exact htomb
      · exact i5 i (by omega) hi2 hi
    · intro j hj1 hj2 hj
      obtain ⟨i, hia, hib, hic, hid⟩ := i6 j hj1 hj2 hj
      exact ⟨i, by omega, hib, hic, hid⟩
    · intro hcb hbv i hi1 hi2 hi
      have : s.base.pos = s.base.entries.length := by omega
      omega
  | case7 s hB hD htomb =>
    intro hf hsb hwb hwd
    rw [updateCurrent]
    simp only [dif_neg hB, dif_pos hD, if_neg htomb]
    refine ⟨le_rfl, hwb, le_rfl, hwd, ?_, ?_, ?_, ?_, ?_⟩
    · intro i hi1 hi2 hi
      omega
    · intro j hj1 hj2 hj
      omega
    · intro hcb hbv i hi1 hi2 hi
      omega
    · intro hcb hdv
      rw [← deltaEntry_eq s hD]
      simp only [Bool.not_eq_true] at htomb
      exact htomb
    · intro _
      trivial
  | case8 s hB hD =>
    intro hf hsb hwb hwd
    rw [updateCurrent]
    simp only [dif_neg hB, dif_neg hD]
    refine ⟨le_rfl, hwb, le_rfl, hwd, ?_, ?_, ?_, ?_, ?_⟩
    · intro i hi1 hi2 hi
      omega
    · intro j hj1 hj2 hj
      omega
    · intro hcb hbv i hi1 hi2 hi
      omega
    · intro hcb hdv
      omega
    · intro hq
      cases hq

theorem sIter_prev_eq {α : Type} (it : SIter α)
    (h : it.pos < it.entries.length) :
    it.prev = ⟨it.entries, predPos it.entries.length it.pos⟩ := by
  unfold SIter.prev predPos
  rw [if_pos h]
  by_cases h0 : it.pos = 0
  · rw [if_pos h0, if_pos h0]
  · rw [if_neg h0, if_neg h0]

theorem sIter_seekToLast_eq {α : Type} (it : SIter α) :
    it.seekToLast
      = ⟨it.entries, predPos it.entries.length it.entries.length⟩ := by
  unfold SIter.seekToLast predPos
  by_cases h : it.entries.length = 0
  · rw [if_pos h]
    have h2 : it.entries.length - 1 = it.entries.length := by omega
    rw [h2]
  · rw [if_neg h]

/-- The trailing equal-keys recomputation of a direction change is a
no-op when the adjusted sides do not land on one key. -/
theorem adjustCheck_neg (s2 : BDI K V)
    (h : s2.delta.valid = false ∨ s2.deltaEntry.key ≠ s2.baseKey) :
    (if s2.delta.valid && s2.base.valid
        && decide (s2.deltaEntry.key = s2.baseKey)
     then { s2 with equalKeys := true } else s2) = s2 := by
  rcases h with h | h
  · rw [h]
    simp
  · simp [h]

/-- Prev() from a valid forward position: both cursors step to the
position one cut lower, the direction flips, and UpdateCurrent runs,
provided the key next to the flip differs from the current key (the
equal-keys recomputation then stays off). -/
theorem doPrev_of_fwd_valid (s : BDI K V) (hv : s.bdiValid = true)
    (hf : s.forward = true)
    (hwb : s.base.pos ≤ s.base.entries.length)
    (hwd : s.delta.pos ≤ s.delta.entries.length)
    (hneqB : s.currentAtBase = true →
      ∀ (h2 : predPos s.delta.entries.length s.delta.pos
          < s.delta.entries.length),
      (s.delta.entries[predPos s.delta.entries.length s.delta.pos]).key
        ≠ s.baseKey)
    (hneqD : s.currentAtBase = false →
      ∀ (h2 : predPos s.base.entries.length s.base.pos
          < s.base.entries.length),
      s.deltaEntry.key
        ≠ (s.base.entries[predPos s.base.entries.length s.base.pos]).1) :
    doPrev s = updateCurrent { s with
      forward := false, equalKeys := false,
      base := ⟨s.base.entries, predPos s.base.entries.length s.base.pos⟩,
      delta := ⟨s.delta.entries,
        predPos s.delta.entries.length s.delta.pos⟩ } := by
  cases hcb : s.currentAtBase with
  | true =>
    have hbv : s.base.pos < s.base.entries.length := by
      rw [bdiValid, hcb] at hv
      simp only [if_true] at hv
      rw [baseValid] at hv
      exact (sIterValid_iff s.base).mp hv
    have hbvb : s.base.valid = true := (sIterValid_iff s.base).mpr hbv
    have hcheck : ∀ hpd2 : predPos s.delta.entries.length s.delta.pos
          < s.delta.entries.length,
        decide ((deltaEntry { s with
          forward := false, currentAtBase := true, equalKeys := false,
          delta := (⟨s.delta.entries,
            predPos s.delta.entries.length s.delta.pos⟩ :
              SIter (DEntry K V)) }).key
          = baseKey { s with
            forward := false, currentAtBase := true, equalKeys := false,
            delta := (⟨s.delta.entries,
              predPos s.delta.entries.length s.delta.pos⟩ :
                SIter (DEntry K V)) }) = false := by
      intro hpd2
      refine decide_eq_false ?_
      have hdeq : deltaEntry { s with
          forward := false, currentAtBase := true, equalKeys := false,
          delta := (⟨s.delta.entries,
            predPos s.delta.entries.length s.delta.pos⟩ :
              SIter (DEntry K V)) }
          = s.delta.entries[predPos s.delta.entries.length s.delta.pos]
          := by
        rw [deltaEntry, SIter.cur]
        exact List.getD_eq_getElem _ default hpd2
      rw [hdeq]
      exact hneqB hcb hpd2
    have hfin : updateCurrent { s with
        forward := false, currentAtBase := true, equalKeys := false,
        base := s.base.prev,
        delta := (⟨s.delta.entries,
          predPos s.delta.entries.length s.delta.pos⟩ :
            SIter (DEntry K V)) }
        = updateCurrent { s with
          forward := false, currentAtBase := true, equalKeys := false,
          base := ⟨s.base.entries,
            predPos s.base.entries.length s.base.pos⟩,
          delta := ⟨s.delta.entries,
            predPos s.delta.entries.length s.delta.pos⟩ } := by
      rw [sIter_prev_eq s.base hbv]
    by_cases hdv : s.delta.pos < s.delta.entries.length
    · have hdvb : s.delta.valid = true := (sIterValid_iff s.delta).mpr hdv
      have hadj : prevAdjust s = { s with
          forward := false, currentAtBase := true, equalKeys := false,
          delta := ⟨s.delta.entries,
            predPos s.delta.entries.length s.delta.pos⟩ } := by
        unfold prevAdjust
        simp only [hv, if_true, hf]
        simp only [hbvb, hdvb, hcb, if_true]
        rw [advanceDelta]
        simp only [Bool.false_eq_true, if_false]
        rw [sIter_prev_eq s.delta hdv]
        by_cases hpd : predPos s.delta.entries.length s.delta.pos
            < s.delta.entries.length
        · simp only [hcheck hpd, Bool.and_false, Bool.false_eq_true,
            if_false]
        · have hlv : (⟨s.delta.entries,
              predPos s.delta.entries.length s.delta.pos⟩ :
                SIter (DEntry K V)).valid = false := by
            rw [SIter.valid]
            simp only [decide_eq_false_iff_not]
            exact hpd
          simp only [hlv, Bool.false_and, Bool.false_eq_true, if_false]
      rw [doPrev, hadj]
      rw [advance_atBase _ rfl rfl]
      rw [advanceBase]
      simp only [Bool.false_eq_true, if_false]
      exact hfin
    · have hdp : s.delta.pos = s.delta.entries.length := by omega
      have hdvb : s.delta.valid = false := by
        rw [SIter.valid]
        simp only [decide_eq_false_iff_not]
        exact hdv
      have hadj : prevAdjust s = { s with
          forward := false, currentAtBase := true, equalKeys := false,
          delta := ⟨s.delta.entries,
            predPos s.delta.entries.length s.delta.pos⟩ } := by
        unfold prevAdjust
        simp only [hv, if_true, hf]
        simp only [hbvb, hdvb, hcb, Bool.false_eq_true, if_false, if_true]
        rw [show SIter.seekToLast s.delta
            = (⟨s.delta.entries,
                predPos s.delta.entries.length s.delta.pos⟩ :
                  SIter (DEntry K V)) by
          rw [sIter_seekToLast_eq, hdp]]
        by_cases hpd : predPos s.delta.entries.length s.delta.pos
            < s.delta.entries.length
        · simp only [hcheck hpd, Bool.and_false, Bool.false_eq_true,
            if_false]
        · have hlv : (⟨s.delta.entries,
              predPos s.delta.entries.length s.delta.pos⟩ :
                SIter (DEntry K V)).valid = false := by
            rw [SIter.valid]
            simp only [decide_eq_false_iff_not]
            exact hpd
          simp only [hlv, Bool.false_and, Bool.false_eq_true, if_false]
      rw [doPrev, hadj]
      rw [advance_atBase _ rfl rfl]
      rw [advanceBase]
      simp only [Bool.false_eq_true, if_false]
      exact hfin
  | false =>
    have hdv : s.delta.pos < s.delta.entries.length := by
      rw [bdiValid, hcb] at hv
      simp only [Bool.false_eq_true, if_false] at hv
      rw [deltaValid] at hv
      exact (sIterValid_iff s.delta).mp hv
    have hdvb : s.delta.valid = true := (sIterValid_iff s.delta).mpr hdv
    have hcheck : ∀ hpb2 : predPos s.base.entries.length s.base.pos
          < s.base.entries.length,
        decide ((deltaEntry { s with
          forward := false, currentAtBase := false, equalKeys := false,
          base := (⟨s.base.entries,
            predPos s.base.entries.length s.base.pos⟩ :
              SIter (K × V)) }).key
          = baseKey { s with
            forward := false, currentAtBase := false, equalKeys := false,
            base := (⟨s.base.entries,
              predPos s.base.entries.length s.base.pos⟩ :
                SIter (K × V)) }) = false := by
      intro hpb2
      refine decide_eq_false ?_
      have hbkq : baseKey { s with
          forward := false, currentAtBase := false, equalKeys := false,
          base := (⟨s.base.entries,
            predPos s.base.entries.length s.base.pos⟩ :
              SIter (K × V)) }
          = (s.base.entries[predPos s.base.entries.length s.base.pos]).1
          := by
        rw [baseKey, SIter.cur]
        rw [List.getD_eq_getElem _ default hpb2]
      rw [hbkq]
      exact hneqD hcb hpb2
    have hfin : updateCurrent { s with
        forward := false, currentAtBase := false, equalKeys := false,
        base := (⟨s.base.entries,
          predPos s.base.entries.length s.base.pos⟩ : SIter (K × V)),
        delta := s.delta.prev }
        = updateCurrent { s with
          forward := false, currentAtBase := false, equalKeys := false,
          base := ⟨s.base.entries,
            predPos s.base.entries.length s.base.pos⟩,
          delta := ⟨s.delta.entries,
            predPos s.delta.entries.length s.delta.pos⟩ } := by
      rw [sIter_prev_eq s.delta hdv]
    by_cases hbv : s.base.pos < s.base.entries.length
    · have hbvb : s.base.valid = true := (sIterValid_iff s.base).mpr hbv
      have hadj : prevAdjust s = { s with
          forward := false, currentAtBase := false, equalKeys := false,
          base := ⟨s.base.entries,
            predPos s.base.entries.length s.base.pos⟩ } := by
        unfold prevAdjust
        simp only [hv, if_true, hf]
        simp only [hbvb, hdvb, hcb, Bool.false_eq_true, if_false, if_true]
        rw [advanceBase]
        simp only [Bool.false_eq_true, if_false]
        rw [sIter_prev_eq s.base hbv]
        by_cases hpb : predPos s.base.entries.length s.base.pos
            < s.base.entries.length
        · simp only [hcheck hpb, Bool.and_false, Bool.false_eq_true,
            if_false]
        · have hlv : (⟨s.base.entries,
              predPos s.base.entries.length s.base.pos⟩ :
                SIter (K × V)).valid = false := by
            rw [SIter.valid]
            simp only [decide_eq_false_iff_not]
            exact hpb
          simp only [hlv, Bool.and_false, Bool.false_and,
            Bool.false_eq_true, if_false]
      rw [doPrev, hadj]
      rw [advance_atDelta _ rfl rfl]
      rw [advanceDelta]
      simp only [Bool.false_eq_true, if_false]
      exact hfin
    · have hbp : s.base.pos = s.base.entries.length := by omega
      have hbvb : s.base.valid = false := by
        rw [SIter.valid]
        simp only [decide_eq_false_iff_not]
        exact hbv
      have hadj : prevAdjust s = { s with
          forward := false, currentAtBase := false, equalKeys := false,
          base := ⟨s.base.entries,
            predPos s.base.entries.length s.base.pos⟩ } := by
        unfold prevAdjust
        simp only [hv, if_true, hf]
        simp only [hbvb, hcb, Bool.false_eq_true, if_false]
        rw [show SIter.seekToLast s.base
            = (⟨s.base.entries,
                predPos s.base.entries.length s.base.pos⟩ :
                  SIter (K × V)) by
          rw [sIter_seekToLast_eq, hbp]]
        by_cases hpb : predPos s.base.entries.length s.base.pos
            < s.base.entries.length
        · simp only [hcheck hpb, Bool.and_false, Bool.false_eq_true,
            if_false]
        · have hlv : (⟨s.base.entries,
              predPos s.base.entries.length s.base.pos⟩ :
                SIter (K × V)).valid = false := by
            rw [SIter.valid]
            simp only [decide_eq_false_iff_not]
            exact hpb
          simp only [hlv, Bool.and_false, Bool.false_and,
            Bool.false_eq_true, if_false]
      rw [doPrev, hadj]
      rw [advance_atDelta _ rfl rfl]
      rw [advanceDelta]
      simp only [Bool.false_eq_true, if_false]
      exact hfin

/-- The cursor position whose consumed reverse-prefix is the suffix from
`cut`: one above the position, restarting at zero from the exhausted
reverse position.  Both Next() on a valid cursor and SeekToFirst() on an
exhausted one land on it. -/
def succPos (len p : Nat) : Nat := if p < len then p + 1 else 0

theorem succPos_predPos (len cut : Nat) (h : cut ≤ len) :
    succPos len (predPos len cut) = cut := by
  unfold succPos predPos
  by_cases hc : cut = 0
  · rw [if_pos hc, if_neg (by omega)]
    omega
  · rw [if_neg hc, if_pos (by omega)]
    omega

theorem sIter_next_eq {α : Type} (it : SIter α)
    (h : it.pos < it.entries.length) :
    it.next = ⟨it.entries, succPos it.entries.length it.pos⟩ := by
  unfold SIter.next succPos
  rw [if_pos h, if_pos h]

theorem sIter_seekToFirst_eq {α : Type} (it : SIter α)
    (h : ¬ it.pos < it.entries.length) :
    it.seekToFirst = ⟨it.entries, succPos it.entries.length it.pos⟩ := by
  unfold SIter.seekToFirst succPos
  rw [if_neg h]

/-- Next() from a valid backward position: both cursors step to the
position one cut higher, the direction flips, and UpdateCurrent runs,
provided the key next to the flip differs from the current key. -/
theorem doNext_of_bwd_valid (s : BDI K V) (hv : s.bdiValid = true)
    (hf : s.forward = false)
    (hwb : s.base.pos ≤ s.base.entries.length)
    (hwd : s.delta.pos ≤ s.delta.entries.length)
    (hneqB : s.currentAtBase = true →
      ∀ (h2 : succPos s.delta.entries.length s.delta.pos
          < s.delta.entries.length),
      (s.delta.entries[succPos s.delta.entries.length s.delta.pos]).key
        ≠ s.baseKey)
    (hneqD : s.currentAtBase = false →
      ∀ (h2 : succPos s.base.entries.length s.base.pos
          < s.base.entries.length),
      s.deltaEntry.key
        ≠ (s.base.entries[succPos s.base.entries.length s.base.pos]).1) :
    doNext s = updateCurrent { s with
      forward := true, equalKeys := false,
      base := ⟨s.base.entries, succPos s.base.entries.length s.base.pos⟩,
      delta := ⟨s.delta.entries,
        succPos s.delta.entries.length s.delta.pos⟩ } := by
  cases hcb : s.currentAtBase with
  | true =>
    have hbv : s.base.pos < s.base.entries.length := by
      rw [bdiValid, hcb] at hv
      simp only [if_true] at hv
      rw [baseValid] at hv
      exact (sIterValid_iff s.base).mp hv
    have hbvb : s.base.valid = true := (sIterValid_iff s.base).mpr hbv
    have hcheck : ∀ hpd2 : succPos s.delta.entries.length s.delta.pos
          < s.delta.entries.length,
        decide ((deltaEntry { s with
          forward := true, currentAtBase := true, equalKeys := false,
          delta := (⟨s.delta.entries,
            succPos s.delta.entries.length s.delta.pos⟩ :
              SIter (DEntry K V)) }).key
          = baseKey { s with
            forward := true, currentAtBase := true, equalKeys := false,
            delta := (⟨s.delta.entries,
              succPos s.delta.entries.length s.delta.pos⟩ :
                SIter (DEntry K V)) }) = false := by
      intro hpd2
      refine decide_eq_false ?_
      have hdeq : deltaEntry { s with
          forward := true, currentAtBase := true, equalKeys := false,
          delta := (⟨s.delta.entries,
            succPos s.delta.entries.length s.delta.pos⟩ :
              SIter (DEntry K V)) }
          = s.delta.entries[succPos s.delta.entries.length s.delta.pos]
          := by
        rw [deltaEntry, SIter.cur]
        exact List.getD_eq_getElem _ default hpd2
      rw [hdeq]
      exact hneqB hcb hpd2
    have hfin : updateCurrent { s with
        forward := true, currentAtBase := true, equalKeys := false,
        base := s.base.next,
        delta := (⟨s.delta.entries,
          succPos s.delta.entries.length s.delta.pos⟩ :
            SIter (DEntry K V)) }
        = updateCurrent { s with
          forward := true, currentAtBase := true, equalKeys := false,
          base := ⟨s.base.entries,
            succPos s.base.entries.length s.base.pos⟩,
          delta := ⟨s.delta.entries,
            succPos s.delta.entries.length s.delta.pos⟩ } := by
      rw [sIter_next_eq s.base hbv]
    by_cases hdv : s.delta.pos < s.delta.entries.length
    · have hdvb : s.delta.valid = true := (sIterValid_iff s.delta).mpr hdv
      have hadj : nextAdjust s = { s with
          forward := true, currentAtBase := true, equalKeys := false,
          delta := ⟨s.delta.entries,
            succPos s.delta.entries.length s.delta.pos⟩ } := by
        unfold nextAdjust
        simp only [hv, if_true, hf, Bool.false_eq_true, if_false]
        simp only [hbvb, hdvb, hcb, if_true]
        rw [advanceDelta]
        simp only [if_true]
        rw [sIter_next_eq s.delta hdv]
        by_cases hpd : succPos s.delta.entries.length s.delta.pos
            < s.delta.entries.length
        · simp only [hcheck hpd, Bool.and_false, Bool.false_eq_true,
            if_false]
        · have hlv : (⟨s.delta.entries,
              succPos s.delta.entries.length s.delta.pos⟩ :
                SIter (DEntry K V)).valid = false := by
            rw [SIter.valid]
            simp only [decide_eq_false_iff_not]
            exact hpd
          simp only [hlv, Bool.false_and, Bool.false_eq_true, if_false]
      rw [doNext, hadj]
      rw [advance_atBase _ rfl rfl]
      rw [advanceBase]
      simp only [if_true]
      exact hfin
    · have hdp : s.delta.pos = s.delta.entries.length := by omega
      have hdvb : s.delta.valid = false := by
        rw [SIter.valid]
        simp only [decide_eq_false_iff_not]
        exact hdv
      have hadj : nextAdjust s = { s with
          forward := true, currentAtBase := true, equalKeys := false,
          delta := ⟨s.delta.entries,
            succPos s.delta.entries.length s.delta.pos⟩ } := by
        unfold nextAdjust
        simp only [hv, if_true, hf, Bool.false_eq_true, if_false]
        simp only [hbvb, hdvb, hcb, if_false, if_true]
        rw [sIter_seekToFirst_eq s.delta hdv]
        by_cases hpd : succPos s.delta.entries.length s.delta.pos
            < s.delta.entries.length
        · simp only [hcheck hpd, Bool.and_false, Bool.false_eq_true,
            if_false]
        · have hlv : (⟨s.delta.entries,
              succPos s.delta.entries.length s.delta.pos⟩ :
                SIter (DEntry K V)).valid = false := by
            rw [SIter.valid]
            simp only [decide_eq_false_iff_not]
            exact hpd
          simp only [hlv, Bool.false_and, Bool.false_eq_true, if_false]
      rw [doNext, hadj]
      rw [advance_atBase _ rfl rfl]
      rw [advanceBase]
      simp only [if_true]
      exact hfin
  | false =>
    have hdv : s.delta.pos < s.delta.entries.length := by
      rw [bdiValid, hcb] at hv
      simp only [Bool.false_eq_true, if_false] at hv
      rw [deltaValid] at hv
      exact (sIterValid_iff s.delta).mp hv
    have hdvb : s.delta.valid = true := (sIterValid_iff s.delta).mpr hdv
    have hcheck : ∀ hpb2 : succPos s.base.entries.length s.base.pos
          < s.base.entries.length,
        decide ((deltaEntry { s with
          forward := true, currentAtBase := false, equalKeys := false,
          base := (⟨s.base.entries,
            succPos s.base.entries.length s.base.pos⟩ :
              SIter (K × V)) }).key
          = baseKey { s with
            forward := true, currentAtBase := false, equalKeys := false,
            base := (⟨s.base.entries,
              succPos s.base.entries.length s.base.pos⟩ :
                SIter (K × V)) }) = false := by
      intro hpb2
      refine decide_eq_false ?_
      have hbkq : baseKey { s with
          forward := true, currentAtBase := false, equalKeys := false,
          base := (⟨s.base.entries,
            succPos s.base.entries.length s.base.pos⟩ :
              SIter (K × V)) }
          = (s.base.entries[succPos s.base.entries.length s.base.pos]).1
          := by
        rw [baseKey, SIter.cur]
        rw [List.getD_eq_getElem _ default hpb2]
      rw [hbkq]
      exact hneqD hcb hpb2
    have hfin : updateCurrent { s with
        forward := true, currentAtBase := false, equalKeys := false,
        base := (⟨s.base.entries,
          succPos s.base.entries.length s.base.pos⟩ : SIter (K × V)),
        delta := s.delta.next }
        = updateCurrent { s with
          forward := true, currentAtBase := false, equalKeys := false,
          base := ⟨s.base.entries,
            succPos s.base.entries.length s.base.pos⟩,
          delta := ⟨s.delta.entries,
            succPos s.delta.entries.length s.delta.pos⟩ } := by
      rw [sIter_next_eq s.delta hdv]
    by_cases hbv : s.base.pos < s.base.entries.length
    · have hbvb : s.base.valid = true := (sIterValid_iff s.base).mpr hbv
      have hadj : nextAdjust s = { s with
          forward := true, currentAtBase := false, equalKeys := false,
          base := ⟨s.base.entries,
            succPos s.base.entries.length s.base.pos⟩ } := by
        unfold nextAdjust
        simp only [hv, if_true, hf, Bool.false_eq_true, if_false]
        simp only [hbvb, hdvb, hcb, if_false, if_true]
        rw [advanceBase]
        simp only [if_true]
        rw [sIter_next_eq s.base hbv]
        by_cases hpb : succPos s.base.entries.length s.base.pos
            < s.base.entries.length
        · simp only [hcheck hpb, Bool.and_false, Bool.false_eq_true,
            if_false]
        · have hlv : (⟨s.base.entries,
              succPos s.base.entries.length s.base.pos⟩ :
                SIter (K × V)).valid = false := by
            rw [SIter.valid]
            simp only [decide_eq_false_iff_not]
            exact hpb
          simp only [hlv, Bool.and_false, Bool.false_and,
            Bool.false_eq_true, if_false]
      rw [doNext, hadj]
      rw [advance_atDelta _ rfl rfl]
      rw [advanceDelta]
      simp only [if_true]
      exact hfin
    · have hbp : s.base.pos = s.base.entries.length := by omega
      have hbvb : s.base.valid = false := by
        rw [SIter.valid]
        simp only [decide_eq_false_iff_not]
        exact hbv
      have hadj : nextAdjust s = { s with
          forward := true, currentAtBase := false, equalKeys := false,
          base := ⟨s.base.entries,
            succPos s.base.entries.length s.base.pos⟩ } := by
        unfold nextAdjust
        simp only [hv, if_true, hf, Bool.false_eq_true, if_false]
        simp only [hbvb, hcb, if_false]
        rw [sIter_seekToFirst_eq s.base hbv]
        by_cases hpb : succPos s.base.entries.length s.base.pos
            < s.base.entries.length
        · simp only [hcheck hpb, Bool.and_false, Bool.false_eq_true,
            if_false]
        · have hlv : (⟨s.base.entries,
              succPos s.base.entries.length s.base.pos⟩ :
                SIter (K × V)).valid = false := by
            rw [SIter.valid]
            simp only [decide_eq_false_iff_not]
            exact hpb
          simp only [hlv, Bool.and_false, Bool.false_and,
            Bool.false_eq_true, if_false]
      rw [doNext, hadj]
      rw [advance_atDelta _ rfl rfl]
      rw [advanceDelta]
      simp only [if_true]
      exact hfin

/-- Running UpdateCurrent backward over a block of tombstones and the
base entries they mask lands in the same state as starting below the
block: the backward mirror of the forward skipping.  The positions are
given as cuts (consumed-prefix lengths); `c` and `st` are the untouched
pass-through fields. -/
theorem uc_rev_strip (bl : List (K × V)) (dl : List (DEntry K V))
    (hsb : bl.Pairwise (fun a b => a.1 < b.1))
    (hsd : dl.Pairwise (fun a b => a.key < b.key))
    (c st : Bool) (bpA dpA : Nat) :
    ∀ (n bp dp : Nat), (bp - bpA) + (dp - dpA) ≤ n →
    bpA ≤ bp → bp ≤ bl.length → dpA ≤ dp → dp ≤ dl.length →
    (∀ i, dpA ≤ i → i < dp → ∀ (hi : i < dl.length),
      (dl[i]).rtype.isTombstone = true) →
    (∀ j, bpA ≤ j → j < bp → ∀ (hj : j < bl.length),
      ∃ i, dpA ≤ i ∧ i < dp ∧ ∃ (hi : i < dl.length),
        (dl[i]).key = (bl[j]).1) →
    (∀ j, j < bpA → ∀ (hj : j < bl.length),
      ∀ i, dpA ≤ i → i < dp → ∀ (hi : i < dl.length),
      (bl[j]).1 < (dl[i]).key) →
    updateCurrent (⟨false, c, false, st, ⟨bl, predPos bl.length bp⟩,
      ⟨dl, predPos dl.length dp⟩⟩ : BDI K V)
    = updateCurrent (⟨false, c, false, st, ⟨bl, predPos bl.length bpA⟩,
      ⟨dl, predPos dl.length dpA⟩⟩ : BDI K V) := by
  intro n
  induction n with
  | zero =>
    intro bp dp hfuel h1 h2 h3 h4 _ _ _
    have hbp : bp = bpA := by omega
    have hdp : dp = dpA := by omega
    rw [hbp, hdp]
  | succ n ihn =>
    intro bp dp hfuel h1 h2 h3 h4 hT hM hO
    by_cases hdpe : dp = dpA
    · -- no tombstones left: the masked region must be empty too
      subst hdpe
      by_cases hbpe : bp = bpA
      · rw [hbpe]
      · exfalso
        obtain ⟨i, hia, hib, _, _⟩ := hM (bp - 1) (by omega) (by omega)
          (by omega)
        omega
    · -- a tombstone on top of the delta prefix
      have hdp1 : 1 ≤ dp := by omega
      have hdtop : predPos dl.length dp = dp - 1 := by
        unfold predPos
        rw [if_neg (by omega)]
      have hdvalid : predPos dl.length dp < dl.length := by omega
      have hdi : dp - 1 < dl.length := by omega
      have htomb : (dl[dp - 1]).rtype.isTombstone = true :=
        hT (dp - 1) (by omega) (by omega) hdi
      by_cases hbpe : bp = bpA
      · -- base prefix already stripped: only the delta moves
        subst hbpe
        by_cases hbp1 : 1 ≤ bp ∧ bp ≤ bl.length
        · -- base top valid and strictly below every tombstone key
          have hbtop : predPos bl.length bp = bp - 1 := by
            unfold predPos
            rw [if_neg (by omega)]
          have hbj : bp - 1 < bl.length := by omega
          have hbvalid : predPos bl.length bp < bl.length := by omega
          have hkey : (bl[bp - 1]).1 < (dl[dp - 1]).key :=
            hO (bp - 1) (by omega) hbj (dp - 1) (by omega) (by omega) hdi
          rw [updateCurrent]
          rw [dif_pos (by dsimp only; exact hbvalid)]
          rw [dif_pos (by dsimp only; exact hdvalid)]
          rw [if_pos (by
            refine (signedCmp_le_zero_bwd rfl).mpr ?_
            rw [baseKey, deltaEntry, SIter.cur, SIter.cur]
            dsimp only
            rw [List.getD_eq_getElem bl default (by rw [hbtop]; exact hbj),
              List.getD_eq_getElem dl default (by rw [hdtop]; exact hdi)]
            simp only [hbtop, hdtop]
            exact le_of_lt hkey)]
          rw [if_pos (by
            rw [deltaEntry, SIter.cur]
            dsimp only
            rw [List.getD_eq_getElem dl default (by rw [hdtop]; exact hdi)]
            simp only [hdtop]
            exact htomb)]
          rw [if_neg (by
            rw [signedCmp_eq_zero]
            rw [baseKey, deltaEntry, SIter.cur, SIter.cur]
            dsimp only
            rw [List.getD_eq_getElem bl default (by rw [hbtop]; exact hbj),
              List.getD_eq_getElem dl default (by rw [hdtop]; exact hdi)]
            simp only [hbtop, hdtop]
            exact ne_of_gt hkey)]
          rw [advanceDelta]
          dsimp only
          simp only [Bool.false_eq_true, if_false]
          rw [sIter_prev_predPos dl dp hdp1 h4]
          rw [ihn bp (dp - 1) (by omega) h1 h2 (by omega) (by omega)
            (fun i ha hb hi => hT i ha (by omega) hi)
            (fun j ha hb hj => absurd hb (by omega))
            (fun j ha hj i hb hc hi => hO j ha hj i hb (by omega) hi)]
        · -- base side invalid: plain tombstone skip without a base
          have hbinv : ¬ predPos bl.length bp < bl.length := by
            unfold predPos
            rcases Nat.eq_zero_or_pos bp with h0 | h0
            · rw [if_pos h0]
              omega
            · rw [if_neg (by omega)]
              omega
          rw [updateCurrent]
          rw [dif_neg (by dsimp only; exact hbinv)]
          rw [dif_pos (by dsimp only; exact hdvalid)]
          rw [if_pos (by
            rw [deltaEntry, SIter.cur]
            dsimp only
            rw [List.getD_eq_getElem dl default (by rw [hdtop]; exact hdi)]
            simp only [hdtop]
            exact htomb)]
          rw [advanceDelta]
          dsimp only
          simp only [Bool.false_eq_true, if_false]
          rw [sIter_prev_predPos dl dp hdp1 h4]
          rw [ihn bp (dp - 1) (by omega) h1 h2 (by omega) (by omega)
            (fun i ha hb hi => hT i ha (by omega) hi)
            (fun j ha hb hj => absurd hb (by omega))
            (fun j ha hj i hb hc hi => hO j ha hj i hb (by omega) hi)]
      · -- a masked base entry on top of the base prefix
        have hbp1 : 1 ≤ bp := by omega
        have hbtop : predPos bl.length bp = bp - 1 := by
          unfold predPos
          rw [if_neg (by omega)]
        have hbj : bp - 1 < bl.length := by omega
        have hbvalid : predPos bl.length bp < bl.length := by omega
        obtain ⟨im, hima, himb, himh, himk⟩ := hM (bp - 1) (by omega)
          (by omega) hbj
        by_cases him : im = dp - 1
        · -- the mask is the top tombstone: keys equal, both sides step
          subst him
          have hkeyeq : (dl[dp - 1]).key = (bl[bp - 1]).1 := himk
          rw [updateCurrent]
          rw [dif_pos (by dsimp only; exact hbvalid)]
          rw [dif_pos (by dsimp only; exact hdvalid)]
          rw [if_pos (by
            refine (signedCmp_le_zero_bwd rfl).mpr ?_
            rw [baseKey, deltaEntry, SIter.cur, SIter.cur]
            dsimp only
            rw [List.getD_eq_getElem bl default (by rw [hbtop]; exact hbj),
              List.getD_eq_getElem dl default (by rw [hdtop]; exact hdi)]
            simp only [hbtop, hdtop]
            rw [hkeyeq])]
          rw [if_pos (by
            rw [deltaEntry, SIter.cur]
            dsimp only
            rw [List.getD_eq_getElem dl default (by rw [hdtop]; exact hdi)]
            simp only [hdtop]
            exact htomb)]
          rw [if_pos (by
            rw [signedCmp_eq_zero]
            rw [baseKey, deltaEntry, SIter.cur, SIter.cur]
            dsimp only
            rw [List.getD_eq_getElem bl default (by rw [hbtop]; exact hbj),
              List.getD_eq_getElem dl default (by rw [hdtop]; exact hdi)]
            simp only [hbtop, hdtop]
            exact hkeyeq)]
          rw [advanceDelta]
          dsimp only
          simp only [Bool.false_eq_true, if_false]
          rw [sIter_prev_predPos dl dp hdp1 h4]
          rw [advanceBase]
          dsimp only
          simp only [Bool.false_eq_true, if_false]
          rw [sIter_prev_predPos bl bp hbp1 h2]
          rw [updateCurrent_eqKeys (⟨false, c, false, st,
            ⟨bl, predPos bl.length (bp - 1)⟩,
            ⟨dl, predPos dl.length (dp - 1)⟩⟩ : BDI K V) true]
          rw [ihn (bp - 1) (dp - 1) (by omega) (by omega) (by omega)
            (by omega) (by omega)
            (fun i ha hb hi => hT i ha (by omega) hi)
            ?_ (fun j ha hj i hb hc hi => hO j ha hj i hb (by omega) hi)]
          intro j ha hb hj
          obtain ⟨i2, h2a, h2b, h2h, h2k⟩ := hM j ha (by omega) hj
          refine ⟨i2, h2a, ?_, h2h, h2k⟩
          by_cases hieq : i2 = dp - 1
          · exfalso
            subst hieq
            have hlt : (bl[j]).1 < (bl[bp - 1]).1 :=
              pairwise_key_strict hsb (by omega) hbj
            have heq2 : (bl[j]).1 = (bl[bp - 1]).1 :=
              Eq.trans h2k.symm hkeyeq
            exact lt_irrefl _ (lt_of_lt_of_eq hlt heq2.symm)
          · omega
        · -- the mask lies deeper: the top tombstone is strictly larger
          have himlt : im < dp - 1 := by omega
          have hkey : (bl[bp - 1]).1 < (dl[dp - 1]).key := by
            rw [← himk]
            exact pairwise_dkey_strict hsd himlt hdi
          rw [updateCurrent]
          rw [dif_pos (by dsimp only; exact hbvalid)]
          rw [dif_pos (by dsimp only; exact hdvalid)]
          rw [if_pos (by
            refine (signedCmp_le_zero_bwd rfl).mpr ?_
            rw [baseKey, deltaEntry, SIter.cur, SIter.cur]
            dsimp only
            rw [List.getD_eq_getElem bl default (by rw [hbtop]; exact hbj),
              List.getD_eq_getElem dl default (by rw [hdtop]; exact hdi)]
            simp only [hbtop, hdtop]
            exact le_of_lt hkey)]
          rw [if_pos (by
            rw [deltaEntry, SIter.cur]
            dsimp only
            rw [List.getD_eq_getElem dl default (by rw [hdtop]; exact hdi)]
            simp only [hdtop]
            exact htomb)]
          rw [if_neg (by
            rw [signedCmp_eq_zero]
            rw [baseKey, deltaEntry, SIter.cur, SIter.cur]
            dsimp only
            rw [List.getD_eq_getElem bl default (by rw [hbtop]; exact hbj),
              List.getD_eq_getElem dl default (by rw [hdtop]; exact hdi)]
            simp only [hbtop, hdtop]
            exact ne_of_gt hkey)]
          rw [advanceDelta]
          dsimp only
          simp only [Bool.false_eq_true, if_false]
          rw [sIter_prev_predPos dl dp hdp1 h4]
          rw [ihn bp (dp - 1) (by omega) h1 h2 (by omega) (by omega)
            (fun i ha hb hi => hT i ha (by omega) hi)
            ?_ (fun j ha hj i hb hc hi => hO j ha hj i hb (by omega) hi)]
          intro j ha hb hj
          obtain ⟨i2, h2a, h2b, h2h, h2k⟩ := hM j ha hb hj
          refine ⟨i2, h2a, ?_, h2h, h2k⟩
          by_cases hieq : i2 = dp - 1
          · exfalso
            subst hieq
            have hle : (bl[j]).1 ≤ (bl[bp - 1]).1 :=
              pairwise_key_mono hsb (by omega) hbj
            have hchain : (dl[dp - 1]).key ≤ (bl[bp - 1]).1 :=
              le_of_eq_of_le h2k hle
            exact lt_irrefl _ (lt_of_le_of_lt hchain hkey)
          · omega

/-- Head of a backward UpdateCurrent that settles on the base: with the
base entry at `bps` on top and every remaining delta key strictly
smaller, the iterator exposes that base entry. -/
theorem uc_rev_head_base (bl : List (K × V)) (dl : List (DEntry K V))
    (c st : Bool) (bps dpA : Nat) (hb : bps < bl.length)
    (hlt : ∀ (h2 : predPos dl.length dpA < dl.length),
      (dl[predPos dl.length dpA]).key < (bl[bps]).1) :
    (updateCurrent (⟨false, c, false, st,
        ⟨bl, predPos bl.length (bps + 1)⟩,
        ⟨dl, predPos dl.length dpA⟩⟩ : BDI K V)).bdiValid = true ∧
    (updateCurrent (⟨false, c, false, st,
        ⟨bl, predPos bl.length (bps + 1)⟩,
        ⟨dl, predPos dl.length dpA⟩⟩ : BDI K V)).curKey = (bl[bps]).1 ∧
    (updateCurrent (⟨false, c, false, st,
        ⟨bl, predPos bl.length (bps + 1)⟩,
        ⟨dl, predPos dl.length dpA⟩⟩ : BDI K V)).curValue = (bl[bps]).2 := by
  have hbtop : predPos bl.length (bps + 1) = bps := by
    unfold predPos
    rw [if_neg (by omega)]
    omega
  rw [hbtop]
  by_cases hdv : predPos dl.length dpA < dl.length
  · rw [updateCurrent]
    rw [dif_pos (by dsimp only; exact hb)]
    rw [dif_pos (by dsimp only; exact hdv)]
    rw [if_neg (by
      rw [signedCmp_le_zero_bwd rfl]
      rw [baseKey, deltaEntry, SIter.cur, SIter.cur]
      dsimp only
      rw [List.getD_eq_getElem bl default hb,
        List.getD_eq_getElem dl default hdv]
      exact not_le_of_gt (hlt hdv))]
    refine ⟨?_, ?_, ?_⟩
    · rw [bdiValid]
      dsimp only
      rw [if_pos rfl, baseValid]
      exact (sIterValid_iff _).mpr hb
    · rw [curKey]
      dsimp only
      rw [if_pos rfl, baseKey, SIter.cur]
      dsimp only
      rw [List.getD_eq_getElem bl default hb]
    · rw [curValue]
      dsimp only
      rw [if_pos rfl, SIter.cur]
      dsimp only
      rw [List.getD_eq_getElem bl default hb]
  · rw [updateCurrent]
    rw [dif_pos (by dsimp only; exact hb)]
    rw [dif_neg (by dsimp only; exact hdv)]
    refine ⟨?_, ?_, ?_⟩
    · rw [bdiValid]
      dsimp only
      rw [if_pos rfl, baseValid]
      exact (sIterValid_iff _).mpr hb
    · rw [curKey]
      dsimp only
      rw [if_pos rfl, baseKey, SIter.cur]
      dsimp only
      rw [List.getD_eq_getElem bl default hb]
    · rw [curValue]
      dsimp only
      rw [if_pos rfl, SIter.cur]
      dsimp only
      rw [List.getD_eq_getElem bl default hb]

/-- Head of a backward UpdateCurrent that settles on the delta: with a
live (non-tombstone) delta entry at `dps` on top and the base top, when
valid, not above it, the iterator exposes that delta entry. -/
theorem uc_rev_head_delta (bl : List (K × V)) (dl : List (DEntry K V))
    (c st : Bool) (bpA dps : Nat) (hd : dps < dl.length)
    (hnt : (dl[dps]).rtype.isTombstone = false)
    (hle : ∀ (h2 : predPos bl.length bpA < bl.length),
      (bl[predPos bl.length bpA]).1 ≤ (dl[dps]).key) :
    (updateCurrent (⟨false, c, false, st,
        ⟨bl, predPos bl.length bpA⟩,
        ⟨dl, predPos dl.length (dps + 1)⟩⟩ : BDI K V)).bdiValid = true ∧
    (updateCurrent (⟨false, c, false, st,
        ⟨bl, predPos bl.length bpA⟩,
        ⟨dl, predPos dl.length (dps + 1)⟩⟩ : BDI K V)).curKey
      = (dl[dps]).key ∧
    (updateCurrent (⟨false, c, false, st,
        ⟨bl, predPos bl.length bpA⟩,
        ⟨dl, predPos dl.length (dps + 1)⟩⟩ : BDI K V)).curValue
      = (dl[dps]).value := by
  have hdtop : predPos dl.length (dps + 1) = dps := by
    unfold predPos
    rw [if_neg (by omega)]
    omega
  rw [hdtop]
  by_cases hbv : predPos bl.length bpA < bl.length
  · rw [updateCurrent]
    rw [dif_pos (by dsimp only; exact hbv)]
    rw [dif_pos (by dsimp only; exact hd)]
    rw [if_pos (by
      rw [signedCmp_le_zero_bwd rfl]
      rw [baseKey, deltaEntry, SIter.cur, SIter.cur]
      dsimp only
      rw [List.getD_eq_getElem bl default hbv,
        List.getD_eq_getElem dl default hd]
      exact hle hbv)]
    rw [if_neg (by
      rw [deltaEntry, SIter.cur]
      dsimp only
      rw [List.getD_eq_getElem dl default hd]
      simp only [hnt]
      exact Bool.false_ne_true)]
    refine ⟨?_, ?_, ?_⟩
    · rw [bdiValid]
      dsimp only
      rw [if_neg (by simp), deltaValid]
      exact (sIterValid_iff _).mpr hd
    · rw [curKey]
      dsimp only
      rw [if_neg (by simp), deltaEntry, SIter.cur]
      dsimp only
      rw [List.getD_eq_getElem dl default hd]
    · rw [curValue]
      dsimp only
      rw [if_neg (by simp), deltaEntry, SIter.cur]
      dsimp only
      rw [List.getD_eq_getElem dl default hd]
  · rw [updateCurrent]
    rw [dif_neg (by dsimp only; exact hbv)]
    rw [dif_pos (by dsimp only; exact hd)]
    rw [if_neg (by
      rw [deltaEntry, SIter.cur]
      dsimp only
      rw [List.getD_eq_getElem dl default hd]
      simp only [hnt]
      exact Bool.false_ne_true)]
    refine ⟨?_, ?_, ?_⟩
    · rw [bdiValid]
      dsimp only
      rw [if_neg (by simp), deltaValid]
      exact (sIterValid_iff _).mpr hd
    · rw [curKey]
      dsimp only
      rw [if_neg (by simp), deltaEntry, SIter.cur]
      dsimp only
      rw [List.getD_eq_getElem dl default hd]
    · rw [curValue]
      dsimp only
      rw [if_neg (by simp), deltaEntry, SIter.cur]
      dsimp only
      rw [List.getD_eq_getElem dl default hd]

/-- Core of the forward round trip: starting Next() from any state whose
cursors sit at cuts (bpA, dpA) separating the keys at or below the
previously exposed (K0, V0) from those strictly above, if the Next()
lands on a valid position then Prev() returns to exposing (K0, V0). -/
theorem roundtrip_core (bl : List (K × V)) (dl : List (DEntry K V))
    (hsb : bl.Pairwise (fun a b => a.1 < b.1))
    (hsd : dl.Pairwise (fun a b => a.key < b.key))
    (bpA dpA : Nat) (K0 : K) (V0 : V) (cb eqk st0 : Bool)
    (hbA : bpA ≤ bl.length) (hdA : dpA ≤ dl.length)
    (ha : ∀ j, j < bpA → ∀ (hj : j < bl.length), (bl[j]).1 ≤ K0)
    (he : ∀ j, bpA ≤ j → ∀ (hj : j < bl.length), K0 < (bl[j]).1)
    (hc : ∀ i, i < dpA → ∀ (hi : i < dl.length), (dl[i]).key ≤ K0)
    (hb : ∀ i, dpA ≤ i → ∀ (hi : i < dl.length), K0 < (dl[i]).key)
    (hhead : ∀ (c st : Bool),
      (updateCurrent (⟨false, c, false, st,
          ⟨bl, predPos bl.length bpA⟩,
          ⟨dl, predPos dl.length dpA⟩⟩ : BDI K V)).bdiValid = true ∧
      (updateCurrent (⟨false, c, false, st,
          ⟨bl, predPos bl.length bpA⟩,
          ⟨dl, predPos dl.length dpA⟩⟩ : BDI K V)).curKey = K0 ∧
      (updateCurrent (⟨false, c, false, st,
          ⟨bl, predPos bl.length bpA⟩,
          ⟨dl, predPos dl.length dpA⟩⟩ : BDI K V)).curValue = V0)
    (hv1 : (updateCurrent (⟨true, cb, eqk, st0, ⟨bl, bpA⟩,
        ⟨dl, dpA⟩⟩ : BDI K V)).bdiValid = true) :
    (doPrev (updateCurrent (⟨true, cb, eqk, st0, ⟨bl, bpA⟩,
        ⟨dl, dpA⟩⟩ : BDI K V))).bdiValid = true ∧
    (doPrev (updateCurrent (⟨true, cb, eqk, st0, ⟨bl, bpA⟩,
        ⟨dl, dpA⟩⟩ : BDI K V))).curKey = K0 ∧
    (doPrev (updateCurrent (⟨true, cb, eqk, st0, ⟨bl, bpA⟩,
        ⟨dl, dpA⟩⟩ : BDI K V))).curValue = V0 := by
  obtain ⟨b1, b2, b3, b4, b5, b6, b7, b8, b9⟩ :=
    updateCurrent_char_fwd (⟨true, cb, eqk, st0, ⟨bl, bpA⟩,
      ⟨dl, dpA⟩⟩ : BDI K V) rfl hsb hbA hdA
  obtain ⟨g1, g2, g3, g4⟩ := updateCurrent_fields
    (⟨true, cb, eqk, st0, ⟨bl, bpA⟩, ⟨dl, dpA⟩⟩ : BDI K V)
  dsimp only at b1 b2 b3 b4 b5 b6 b7 b8 b9 g1 g2 g3 g4
  set s1 := updateCurrent (⟨true, cb, eqk, st0, ⟨bl, bpA⟩,
    ⟨dl, dpA⟩⟩ : BDI K V) with hs1
  -- the two keys next to the direction flip differ from the current key
  have hneqB : s1.currentAtBase = true →
      ∀ (h2 : predPos s1.delta.entries.length s1.delta.pos
          < s1.delta.entries.length),
      (s1.delta.entries[predPos s1.delta.entries.length
        s1.delta.pos]).key ≠ s1.baseKey := by
    intro hcb1 h2
    have hbp1v : s1.base.pos < bl.length := by
      rw [bdiValid, hcb1] at hv1
      simp only [if_true] at hv1
      rw [baseValid] at hv1
      have := (sIterValid_iff s1.base).mp hv1
      rw [g3] at this
      exact this
    have hbk1 : s1.baseKey = (bl[s1.base.pos]).1 := by
      rw [baseKey_eq s1 (by rw [g3]; exact hbp1v)]
      rw [List.getElem_of_eq g3 _]
    simp only [g4] at h2 ⊢
    rw [hbk1]
    by_cases hdp10 : s1.delta.pos = 0
    · exfalso
      rw [hdp10] at h2
      unfold predPos at h2
      rw [if_pos rfl] at h2
      exact lt_irrefl _ h2
    · have hpp : predPos dl.length s1.delta.pos = s1.delta.pos - 1 := by
        unfold predPos
        rw [if_neg hdp10]
      simp only [hpp] at h2 ⊢
      by_cases hreg : dpA ≤ s1.delta.pos - 1
      · exact ne_of_lt (b7 hcb1 hbp1v (s1.delta.pos - 1) hreg
          (by omega) h2)
      · have hdp1A : s1.delta.pos = dpA := by omega
        refine ne_of_lt (lt_of_le_of_lt (hc (s1.delta.pos - 1)
          (by omega) h2) (he s1.base.pos b1 hbp1v))
  have hneqD : s1.currentAtBase = false →
      ∀ (h2 : predPos s1.base.entries.length s1.base.pos
          < s1.base.entries.length),
      s1.deltaEntry.key
        ≠ (s1.base.entries[predPos s1.base.entries.length
            s1.base.pos]).1 := by
    intro hcb1 h2
    have hdp1v : s1.delta.pos < dl.length := by
      rw [bdiValid, hcb1] at hv1
      simp only [Bool.false_eq_true, if_false] at hv1
      rw [deltaValid] at hv1
      have := (sIterValid_iff s1.delta).mp hv1
      rw [g4] at this
      exact this
    have hdk1 : s1.deltaEntry = dl[s1.delta.pos] := by
      rw [deltaEntry_eq s1 (by rw [g4]; exact hdp1v)]
      rw [List.getElem_of_eq g4 _]
    simp only [g3] at h2 ⊢
    rw [hdk1]
    by_cases hbp10 : s1.base.pos = 0
    · exfalso
      rw [hbp10] at h2
      unfold predPos at h2
      rw [if_pos rfl] at h2
      exact lt_irrefl _ h2
    · have hpp : predPos bl.length s1.base.pos = s1.base.pos - 1 := by
        unfold predPos
        rw [if_neg hbp10]
      simp only [hpp] at h2 ⊢
      by_cases hreg : bpA ≤ s1.base.pos - 1
      · obtain ⟨i2, h2a, h2b, h2h, h2k⟩ := b6 (s1.base.pos - 1) hreg
          (by omega) h2
        refine fun hcc => ?_
        have hlt : (dl[i2]).key < (dl[s1.delta.pos]).key :=
          pairwise_dkey_strict hsd h2b hdp1v
        rw [h2k, ← hcc] at hlt
        exact lt_irrefl _ hlt
      · have hbp1A : s1.base.pos = bpA := by omega
        refine ne_of_gt (lt_of_le_of_lt (ha (s1.base.pos - 1)
          (by omega) h2) (hb s1.delta.pos b3 hdp1v))
  have hprev := doPrev_of_fwd_valid s1 hv1 g1
    (by rw [g3]; exact b2) (by rw [g4]; exact b4) hneqB hneqD
  rw [hprev]
  have hconv : ({ s1 with
      forward := false, equalKeys := false,
      base := ⟨s1.base.entries,
        predPos s1.base.entries.length s1.base.pos⟩,
      delta := ⟨s1.delta.entries,
        predPos s1.delta.entries.length s1.delta.pos⟩ } : BDI K V)
      = (⟨false, s1.currentAtBase, false, s1.statusOK,
          ⟨bl, predPos bl.length s1.base.pos⟩,
          ⟨dl, predPos dl.length s1.delta.pos⟩⟩ : BDI K V) := by
    rw [g3, g4]
  rw [hconv]
  have hstrip := uc_rev_strip bl dl hsb hsd s1.currentAtBase s1.statusOK
    bpA dpA ((s1.base.pos - bpA) + (s1.delta.pos - dpA))
    s1.base.pos s1.delta.pos le_rfl b1 b2 b3 b4 b5 b6
    (fun j hj hjl i hia hib hi =>
      lt_of_le_of_lt (ha j hj hjl) (hb i hia hi))
  rw [hstrip]
  exact hhead s1.currentAtBase s1.statusOK

/-- Forward round trip after Seek(k): when the seek lands on a valid
entry and Next() lands on a valid entry, Prev() returns to a valid state
exposing the entry the seek had found. -/
theorem seek_next_prev_roundtrip (bl : List (K × V)) (dl : List (DEntry K V))
    (hsb : bl.Pairwise (fun a b => a.1 < b.1))
    (hsd : dl.Pairwise (fun a b => a.key < b.key)) (k : K)
    (hv0 : (doSeek k (mkBDI bl dl)).bdiValid = true)
    (hv1 : (doNext (doSeek k (mkBDI bl dl))).bdiValid = true) :
    (doPrev (doNext (doSeek k (mkBDI bl dl)))).bdiValid = true ∧
    (doPrev (doNext (doSeek k (mkBDI bl dl)))).curKey
      = (doSeek k (mkBDI bl dl)).curKey ∧
    (doPrev (doNext (doSeek k (mkBDI bl dl)))).curValue
      = (doSeek k (mkBDI bl dl)).curValue := by
  have F0 : doSeek k (mkBDI bl dl)
      = updateCurrent (⟨true, true, false, true,
          ⟨bl, bl.findIdx (fun a => decide (k ≤ a.1))⟩,
          ⟨dl, dl.findIdx (fun e => decide (k ≤ e.key))⟩⟩ : BDI K V) := rfl
  have hchar := updateCurrent_char_fwd (⟨true, true, false, true,
      ⟨bl, bl.findIdx (fun a => decide (k ≤ a.1))⟩,
      ⟨dl, dl.findIdx (fun e => decide (k ≤ e.key))⟩⟩ : BDI K V)
    rfl hsb (by dsimp only; exact List.findIdx_le_length _)
    (by dsimp only; exact List.findIdx_le_length _)
  have hflds := updateCurrent_fields (⟨true, true, false, true,
      ⟨bl, bl.findIdx (fun a => decide (k ≤ a.1))⟩,
      ⟨dl, dl.findIdx (fun e => decide (k ≤ e.key))⟩⟩ : BDI K V)
  have hinv := invariant_updateCurrent (⟨true, true, false, true,
      ⟨bl, bl.findIdx (fun a => decide (k ≤ a.1))⟩,
      ⟨dl, dl.findIdx (fun e => decide (k ≤ e.key))⟩⟩ : BDI K V)
  obtain ⟨a1, a2, a3, a4, a5, a6, a7, a8, a9⟩ := hchar
  obtain ⟨f1, f2, f3, f4⟩ := hflds
  obtain ⟨inv1, inv2⟩ := hinv
  dsimp only at a1 a2 a3 a4 a5 a6 a7 a8 a9 f1 f2 f3 f4
  rw [F0] at hv0 hv1 ⊢
  set s0 := updateCurrent (⟨true, true, false, true,
      ⟨bl, bl.findIdx (fun a => decide (k ≤ a.1))⟩,
      ⟨dl, dl.findIdx (fun e => decide (k ≤ e.key))⟩⟩ : BDI K V) with hs0
  set bp0 := bl.findIdx (fun a => decide (k ≤ a.1)) with hbp0
  set dp0 := dl.findIdx (fun e => decide (k ≤ e.key)) with hdp0
  have FIb1 : ∀ j, j < bp0 → ∀ (hj : j < bl.length), (bl[j]).1 < k := by
    intro j hj hjl
    rw [hbp0] at hj
    have h2 := List.not_of_lt_findIdx hj
    simp only [decide_eq_false_iff_not, not_le] at h2
    exact h2
  have FIb2 : ∀ (h : bp0 < bl.length), k ≤ (bl[bp0]).1 := by
    intro h
    have h2 := @List.findIdx_getElem _ (fun a => decide (k ≤ a.1)) bl
      (by rw [← hbp0]; exact h)
    simp only [decide_eq_true_eq] at h2
    simp only [← hbp0] at h2
    exact h2
  have FId1 : ∀ i, i < dp0 → ∀ (hi : i < dl.length), (dl[i]).key < k := by
    intro i hi hil
    rw [hdp0] at hi
    have h2 := List.not_of_lt_findIdx hi
    simp only [decide_eq_false_iff_not, not_le] at h2
    exact h2
  have FId2 : ∀ (h : dp0 < dl.length), k ≤ (dl[dp0]).key := by
    intro h
    have h2 := @List.findIdx_getElem _ (fun e => decide (k ≤ e.key)) dl
      (by rw [← hdp0]; exact h)
    simp only [decide_eq_true_eq] at h2
    simp only [← hdp0] at h2
    exact h2
  have hblt : s0.base = (⟨bl, s0.base.pos⟩ : SIter (K × V)) := by
    rw [← f3]
  have hdlt : s0.delta = (⟨dl, s0.delta.pos⟩ : SIter (DEntry K V)) := by
    rw [← f4]
  by_cases heq0 : s0.equalKeys = true
  · -- the seek settled on equal keys: Next() advances both sides
    have hcbE : s0.currentAtBase = false := a9 heq0
    obtain ⟨hbvb, hdvb, hkeq⟩ := inv2.mp heq0
    have hbv0 : s0.base.pos < bl.length := by
      have h2 := (sIterValid_iff s0.base).mp hbvb
      rw [f3] at h2
      exact h2
    have hdv0 : s0.delta.pos < dl.length := by
      have h2 := (sIterValid_iff s0.delta).mp hdvb
      rw [f4] at h2
      exact h2
    have hbk : s0.baseKey = (bl[s0.base.pos]).1 := by
      rw [baseKey_eq s0 (by rw [f3]; exact hbv0)]
      rw [List.getElem_of_eq f3 _]
    have hde : s0.deltaEntry = dl[s0.delta.pos] := by
      rw [deltaEntry_eq s0 (by rw [f4]; exact hdv0)]
      rw [List.getElem_of_eq f4 _]
    have hKB : (dl[s0.delta.pos]).key = (bl[s0.base.pos]).1 := by
      rw [← hde, ← hbk]
      exact hkeq
    have hbn : s0.base.next = (⟨bl, s0.base.pos + 1⟩ : SIter (K × V)) := by
      rw [sIter_next_eq s0.base (by rw [f3]; exact hbv0)]
      rw [f3]
      unfold succPos
      rw [if_pos hbv0]
    have hdnx : s0.delta.next
        = (⟨dl, s0.delta.pos + 1⟩ : SIter (DEntry K V)) := by
      rw [sIter_next_eq s0.delta (by rw [f4]; exact hdv0)]
      rw [f4]
      unfold succPos
      rw [if_pos hdv0]
    have hstep : doNext s0 = updateCurrent (⟨true, s0.currentAtBase,
        s0.equalKeys, s0.statusOK, ⟨bl, s0.base.pos + 1⟩,
        ⟨dl, s0.delta.pos + 1⟩⟩ : BDI K V) := by
      rw [doNext_of_valid_fwd s0 hv0 f1, advance_equal s0 heq0]
      have hAB : advanceDelta (advanceBase s0) = (⟨true, s0.currentAtBase,
          s0.equalKeys, s0.statusOK, ⟨bl, s0.base.pos + 1⟩,
          ⟨dl, s0.delta.pos + 1⟩⟩ : BDI K V) := by
        show (⟨s0.forward, s0.currentAtBase, s0.equalKeys, s0.statusOK,
            if s0.forward = true then s0.base.next else s0.base.prev,
            if s0.forward = true then s0.delta.next else s0.delta.prev⟩
              : BDI K V) = _
        rw [f1, if_pos rfl, if_pos rfl, hbn, hdnx]
      rw [hAB]
    rw [hstep] at hv1 ⊢
    have haE : ∀ j, j < s0.base.pos + 1 → ∀ (hj : j < bl.length),
        (bl[j]).1 ≤ (dl[s0.delta.pos]).key := by
      intro j hj hjl
      rw [hKB]
      exact pairwise_key_mono hsb (by omega) hbv0
    have heE : ∀ j, s0.base.pos + 1 ≤ j → ∀ (hj : j < bl.length),
        (dl[s0.delta.pos]).key < (bl[j]).1 := by
      intro j hj hjl
      rw [hKB]
      exact pairwise_key_strict hsb (by omega) hjl
    have hcE : ∀ i, i < s0.delta.pos + 1 → ∀ (hi : i < dl.length),
        (dl[i]).key ≤ (dl[s0.delta.pos]).key := by
      intro i hi hil
      exact pairwise_dkey_mono hsd (by omega) hdv0
    have hbE : ∀ i, s0.delta.pos + 1 ≤ i → ∀ (hi : i < dl.length),
        (dl[s0.delta.pos]).key < (dl[i]).key := by
      intro i hi hil
      exact pairwise_dkey_strict hsd (by omega) hil
    have hheadE : ∀ (c st : Bool),
        (updateCurrent (⟨false, c, false, st,
            ⟨bl, predPos bl.length (s0.base.pos + 1)⟩,
            ⟨dl, predPos dl.length (s0.delta.pos + 1)⟩⟩
              : BDI K V)).bdiValid = true ∧
        (updateCurrent (⟨false, c, false, st,
            ⟨bl, predPos bl.length (s0.base.pos + 1)⟩,
            ⟨dl, predPos dl.length (s0.delta.pos + 1)⟩⟩
              : BDI K V)).curKey = (dl[s0.delta.pos]).key ∧
        (updateCurrent (⟨false, c, false, st,
            ⟨bl, predPos bl.length (s0.base.pos + 1)⟩,
            ⟨dl, predPos dl.length (s0.delta.pos + 1)⟩⟩
              : BDI K V)).curValue = (dl[s0.delta.pos]).value := by
      intro c st
      refine uc_rev_head_delta bl dl c st (s0.base.pos + 1) s0.delta.pos
        hdv0 (a8 hcbE hdv0) ?_
      intro h2
      have hpp : predPos bl.length (s0.base.pos + 1) = s0.base.pos := by
        unfold predPos
        rw [if_neg (by omega)]
        omega
      simp only [hpp] at h2 ⊢
      rw [hKB]
    have hcore := roundtrip_core bl dl hsb hsd (s0.base.pos + 1)
      (s0.delta.pos + 1) ((dl[s0.delta.pos]).key) ((dl[s0.delta.pos]).value)
      s0.currentAtBase s0.equalKeys s0.statusOK
      (by omega) (by omega) haE heE hcE hbE hheadE hv1
    refine ⟨hcore.1, ?_, ?_⟩
    · rw [hcore.2.1]
      rw [curKey, if_neg (by rw [hcbE]; exact Bool.false_ne_true), hde]
    · rw [hcore.2.2]
      rw [curValue, if_neg (by rw [hcbE]; exact Bool.false_ne_true), hde]
  · simp only [Bool.not_eq_true] at heq0
    by_cases hcb0 : s0.currentAtBase = true
    · -- the seek settled on the base: Next() advances the base side
      have hbv0 : s0.base.pos < bl.length := by
        have h := hv0
        rw [bdiValid, hcb0] at h
        simp only [if_true] at h
        rw [baseValid] at h
        have h2 := (sIterValid_iff s0.base).mp h
        rw [f3] at h2
        exact h2
      have hkK0 : k ≤ (bl[s0.base.pos]).1 :=
        le_trans (FIb2 (lt_of_le_of_lt a1 hbv0))
          (pairwise_key_mono hsb a1 hbv0)
      have hbn : s0.base.next = (⟨bl, s0.base.pos + 1⟩ : SIter (K × V)) := by
        rw [sIter_next_eq s0.base (by rw [f3]; exact hbv0)]
        rw [f3]
        unfold succPos
        rw [if_pos hbv0]
      have hstep : doNext s0 = updateCurrent (⟨true, s0.currentAtBase,
          s0.equalKeys, s0.statusOK, ⟨bl, s0.base.pos + 1⟩,
          ⟨dl, s0.delta.pos⟩⟩ : BDI K V) := by
        rw [doNext_of_valid_fwd s0 hv0 f1, advance_atBase s0 heq0 hcb0]
        have hAB : advanceBase s0 = (⟨true, s0.currentAtBase,
            s0.equalKeys, s0.statusOK, ⟨bl, s0.base.pos + 1⟩,
            ⟨dl, s0.delta.pos⟩⟩ : BDI K V) := by
          show (⟨s0.forward, s0.currentAtBase, s0.equalKeys, s0.statusOK,
              if s0.forward = true then s0.base.next else s0.base.prev,
              s0.delta⟩ : BDI K V) = _
          rw [f1, if_pos rfl, hbn, hdlt]
        rw [hAB]
      rw [hstep] at hv1 ⊢
      have haB : ∀ j, j < s0.base.pos + 1 → ∀ (hj : j < bl.length),
          (bl[j]).1 ≤ (bl[s0.base.pos]).1 := by
        intro j hj hjl
        exact pairwise_key_mono hsb (by omega) hbv0
      have heB : ∀ j, s0.base.pos + 1 ≤ j → ∀ (hj : j < bl.length),
          (bl[s0.base.pos]).1 < (bl[j]).1 := by
        intro j hj hjl
        exact pairwise_key_strict hsb (by omega) hjl
      have hcB : ∀ i, i < s0.delta.pos → ∀ (hi : i < dl.length),
          (dl[i]).key ≤ (bl[s0.base.pos]).1 := by
        intro i hilt hi
        by_cases hge : dp0 ≤ i
        · exact le_of_lt (a7 hcb0 hbv0 i hge hilt hi)
        · push_neg at hge
          exact le_of_lt (lt_of_lt_of_le (FId1 i hge hi) hkK0)
      have hbB : ∀ i, s0.delta.pos ≤ i → ∀ (hi : i < dl.length),
          (bl[s0.base.pos]).1 < (dl[i]).key := by
        intro i hge hi
        have hdp : s0.delta.pos < dl.length := lt_of_le_of_lt hge hi
        have hbvb : s0.base.valid = true := by
          rw [sIterValid_iff, f3]
          exact hbv0
        have hdvb : s0.delta.valid = true := by
          rw [sIterValid_iff, f4]
          exact hdp
        have h5 := ((inv1 hbvb hdvb).1 f1).1 hcb0
        have hbk : s0.baseKey = (bl[s0.base.pos]).1 := by
          rw [baseKey_eq s0 (by rw [f3]; exact hbv0)]
          rw [List.getElem_of_eq f3 _]
        have hde : s0.deltaEntry = dl[s0.delta.pos] := by
          rw [deltaEntry_eq s0 (by rw [f4]; exact hdp)]
          rw [List.getElem_of_eq f4 _]
        rw [hbk, hde] at h5
        exact lt_of_lt_of_le h5 (pairwise_dkey_mono hsd hge hi)
      have hheadB : ∀ (c st : Bool),
          (updateCurrent (⟨false, c, false, st,
              ⟨bl, predPos bl.length (s0.base.pos + 1)⟩,
              ⟨dl, predPos dl.length s0.delta.pos⟩⟩
                : BDI K V)).bdiValid = true ∧
          (updateCurrent (⟨false, c, false, st,
              ⟨bl, predPos bl.length (s0.base.pos + 1)⟩,
              ⟨dl, predPos dl.length s0.delta.pos⟩⟩
                : BDI K V)).curKey = (bl[s0.base.pos]).1 ∧
          (updateCurrent (⟨false, c, false, st,
              ⟨bl, predPos bl.length (s0.base.pos + 1)⟩,
              ⟨dl, predPos dl.length s0.delta.pos⟩⟩
                : BDI K V)).curValue = (bl[s0.base.pos]).2 := by
        intro c st
        refine uc_rev_head_base bl dl c st s0.base.pos s0.delta.pos hbv0 ?_
        intro h2
        by_cases hdp00 : s0.delta.pos = 0
        · exfalso
          rw [hdp00] at h2
          unfold predPos at h2
          rw [if_pos rfl] at h2
          exact lt_irrefl _ h2
        · have hpp : predPos dl.length s0.delta.pos = s0.delta.pos - 1 := by
            unfold predPos
            rw [if_neg hdp00]
          simp only [hpp] at h2 ⊢
          by_cases hge : dp0 ≤ s0.delta.pos - 1
          · exact a7 hcb0 hbv0 (s0.delta.pos - 1) hge (by omega) h2
          · exact lt_of_lt_of_le (FId1 (s0.delta.pos - 1) (by omega) h2)
              hkK0
      have hcore := roundtrip_core bl dl hsb hsd (s0.base.pos + 1)
        s0.delta.pos ((bl[s0.base.pos]).1) ((bl[s0.base.pos]).2)
        s0.currentAtBase s0.equalKeys s0.statusOK
        (by omega) a4 haB heB hcB hbB hheadB hv1
      refine ⟨hcore.1, ?_, ?_⟩
      · rw [hcore.2.1]
        rw [curKey, if_pos hcb0]
        rw [baseKey_eq s0 (by rw [f3]; exact hbv0)]
        rw [List.getElem_of_eq f3 _]
      · rw [hcore.2.2]
        rw [curValue, if_pos hcb0]
        rw [sIter_cur_eq s0.base (by rw [f3]; exact hbv0)]
        rw [List.getElem_of_eq f3 _]
    · -- the seek settled on a live delta entry: Next() advances the delta
      simp only [Bool.not_eq_true] at hcb0
      have hdv0 : s0.delta.pos < dl.length := by
        have h := hv0
        rw [bdiValid, hcb0] at h
        simp only [Bool.false_eq_true, if_false] at h
        rw [deltaValid] at h
        have h2 := (sIterValid_iff s0.delta).mp h
        rw [f4] at h2
        exact h2
      have hde : s0.deltaEntry = dl[s0.delta.pos] := by
        rw [deltaEntry_eq s0 (by rw [f4]; exact hdv0)]
        rw [List.getElem_of_eq f4 _]
      have hkK0 : k ≤ (dl[s0.delta.pos]).key :=
        le_trans (FId2 (lt_of_le_of_lt a3 hdv0))
          (pairwise_dkey_mono hsd a3 hdv0)
      have hKltB : ∀ (hbv : s0.base.pos < bl.length),
          (dl[s0.delta.pos]).key < (bl[s0.base.pos]).1 := by
        intro hbv
        have hbvb : s0.base.valid = true := by
          rw [sIterValid_iff, f3]
          exact hbv
        have hdvb : s0.delta.valid = true := by
          rw [sIterValid_iff, f4]
          exact hdv0
        have h5 := ((inv1 hbvb hdvb).1 f1).2 hcb0
        have h6 : s0.deltaEntry.key ≠ s0.baseKey := by
          intro hcc
          have h7 := inv2.mpr ⟨hbvb, hdvb, hcc⟩
          rw [heq0] at h7
          exact Bool.false_ne_true h7
        have hbk : s0.baseKey = (bl[s0.base.pos]).1 := by
          rw [baseKey_eq s0 (by rw [f3]; exact hbv)]
          rw [List.getElem_of_eq f3 _]
        rw [hbk, hde] at h5 h6
        exact lt_of_le_of_ne h5 h6
      have hdnx : s0.delta.next
          = (⟨dl, s0.delta.pos + 1⟩ : SIter (DEntry K V)) := by
        rw [sIter_next_eq s0.delta (by rw [f4]; exact hdv0)]
        rw [f4]
        unfold succPos
        rw [if_pos hdv0]
      have hstep : doNext s0 = updateCurrent (⟨true, s0.currentAtBase,
          s0.equalKeys, s0.statusOK, ⟨bl, s0.base.pos⟩,
          ⟨dl, s0.delta.pos + 1⟩⟩ : BDI K V) := by
        rw [doNext_of_valid_fwd s0 hv0 f1, advance_atDelta s0 heq0 hcb0]
        have hAB : advanceDelta s0 = (⟨true, s0.currentAtBase,
            s0.equalKeys, s0.statusOK, ⟨bl, s0.base.pos⟩,
            ⟨dl, s0.delta.pos + 1⟩⟩ : BDI K V) := by
          show (⟨s0.forward, s0.currentAtBase, s0.equalKeys, s0.statusOK,
              s0.base,
              if s0.forward = true then s0.delta.next else s0.delta.prev⟩
                : BDI K V) = _
          rw [f1, if_pos rfl, hblt, hdnx]
        rw [hAB]
      rw [hstep] at hv1 ⊢
      have haD : ∀ j, j < s0.base.pos → ∀ (hj : j < bl.length),
          (bl[j]).1 ≤ (dl[s0.delta.pos]).key := by
        intro j hj hjl
        by_cases hge : bp0 ≤ j
        · obtain ⟨i, hia, hib, hi, hkk⟩ := a6 j hge hj hjl
          refine le_of_lt ?_
          calc (bl[j]).1 = (dl[i]).key := hkk.symm
            _ < (dl[s0.delta.pos]).key := pairwise_dkey_strict hsd hib hdv0
        · push_neg at hge
          exact le_of_lt (lt_of_lt_of_le (FIb1 j hge hjl) hkK0)
      have heD : ∀ j, s0.base.pos ≤ j → ∀ (hj : j < bl.length),
          (dl[s0.delta.pos]).key < (bl[j]).1 := by
        intro j hge hjl
        have hbv : s0.base.pos < bl.length := lt_of_le_of_lt hge hjl
        exact lt_of_lt_of_le (hKltB hbv) (pairwise_key_mono hsb hge hjl)
      have hcD : ∀ i, i < s0.delta.pos + 1 → ∀ (hi : i < dl.length),
          (dl[i]).key ≤ (dl[s0.delta.pos]).key := by
        intro i hi hil
        exact pairwise_dkey_mono hsd (by omega) hdv0
      have hbD : ∀ i, s0.delta.pos + 1 ≤ i → ∀ (hi : i < dl.length),
          (dl[s0.delta.pos]).key < (dl[i]).key := by
        intro i hi hil
        exact pairwise_dkey_strict hsd (by omega) hil
      have hheadD : ∀ (c st : Bool),
          (updateCurrent (⟨false, c, false, st,
              ⟨bl, predPos bl.length s0.base.pos⟩,
              ⟨dl, predPos dl.length (s0.delta.pos + 1)⟩⟩
                : BDI K V)).bdiValid = true ∧
          (updateCurrent (⟨false, c, false, st,
              ⟨bl, predPos bl.length s0.base.pos⟩,
              ⟨dl, predPos dl.length (s0.delta.pos + 1)⟩⟩
                : BDI K V)).curKey = (dl[s0.delta.pos]).key ∧
          (updateCurrent (⟨false, c, false, st,
              ⟨bl, predPos bl.length s0.base.pos⟩,
              ⟨dl, predPos dl.length (s0.delta.pos + 1)⟩⟩
                : BDI K V)).curValue = (dl[s0.delta.pos]).value := by
        intro c st
        refine uc_rev_head_delta bl dl c st s0.base.pos s0.delta.pos
          hdv0 (a8 hcb0 hdv0) ?_
        intro h2
        by_cases hbp00 : s0.base.pos = 0
        · exfalso
          rw [hbp00] at h2
          unfold predPos at h2
          rw [if_pos rfl] at h2
          exact lt_irrefl _ h2
        · have hpp : predPos bl.length s0.base.pos = s0.base.pos - 1 := by
            unfold predPos
            rw [if_neg hbp00]
          simp only [hpp] at h2 ⊢
          by_cases hge : bp0 ≤ s0.base.pos - 1
          · obtain ⟨i, hia, hib, hi, hkk⟩ :=
              a6 (s0.base.pos - 1) hge (by omega) h2
            refine le_of_lt ?_
            calc (bl[s0.base.pos - 1]).1 = (dl[i]).key := hkk.symm
              _ < (dl[s0.delta.pos]).key :=
                pairwise_dkey_strict hsd hib hdv0
          · exact le_of_lt (lt_of_lt_of_le
              (FIb1 (s0.base.pos - 1) (by omega) h2) hkK0)
      have hcore := roundtrip_core bl dl hsb hsd s0.base.pos
        (s0.delta.pos + 1) ((dl[s0.delta.pos]).key)
        ((dl[s0.delta.pos]).value)
        s0.currentAtBase s0.equalKeys s0.statusOK
        a2 (by omega) haD heD hcD hbD hheadD hv1
      refine ⟨hcore.1, ?_, ?_⟩
      · rw [hcore.2.1]
        rw [curKey, if_neg (by rw [hcb0]; exact Bool.false_ne_true), hde]
      · rw [hcore.2.2]
        rw [curValue, if_neg (by rw [hcb0]; exact Bool.false_ne_true), hde]

theorem cutOf_lt_eq (len p : Nat) (h : p < len) : cutOf len p = p + 1 := by
  unfold cutOf
  rw [if_neg (by omega)]

theorem cutOf_prev_eq (len p : Nat) (h : p < len) :
    cutOf len (predPos len p) = p := by
  unfold cutOf predPos
  by_cases h0 : p = 0
  · rw [if_pos h0, if_pos rfl]
    omega
  · rw [if_neg h0, if_neg (by omega)]
    omega

theorem advanceDelta_pos_bwd (s : BDI K V) (hf : s.forward = false)
    (h : s.delta.pos < s.delta.entries.length) :
    (advanceDelta s).delta.pos
      = predPos s.delta.entries.length s.delta.pos := by
  unfold advanceDelta
  rw [hf]
  simp only [Bool.false_eq_true, if_false]
  rw [sIter_prev_eq s.delta h]

theorem advanceBase_pos_bwd (s : BDI K V) (hf : s.forward = false)
    (h : s.base.pos < s.base.entries.length) :
    (advanceBase s).base.pos
      = predPos s.base.entries.length s.base.pos := by
  unfold advanceBase
  rw [hf]
  simp only [Bool.false_eq_true, if_false]
  rw [sIter_prev_eq s.base h]

/-- Prev() on a valid backward iterator is just Advance(). -/
theorem doPrev_of_valid_bwd (t : BDI K V) (hv : t.bdiValid = true)
    (hf : t.forward = false) : doPrev t = advance t := by
  unfold doPrev prevAdjust
  simp only [hv, if_true, hf, Bool.false_eq_true, if_false]

/-- What one backward run of UpdateCurrent does: the mirror image of the
forward characterisation, with consumed-prefix cuts in place of
positions.  Both cuts only move down and stay in range, every skipped
delta entry is a tombstone, every skipped base entry is masked by a
skipped delta entry of the same key, the skipped delta keys stay above
the key the iterator settles on when it settles on the base, a
settled-on delta entry is never a tombstone, and equal keys imply the
delta side. -/
theorem updateCurrent_char_bwd (s : BDI K V) :
    s.forward = false →
    s.base.entries.Pairwise (fun a b => a.1 < b.1) →
    s.base.pos ≤ s.base.entries.length →
    s.delta.pos ≤ s.delta.entries.length →
    ((updateCurrent s).base.pos ≤ s.base.entries.length ∧
     cutOf s.base.entries.length (updateCurrent s).base.pos
       ≤ cutOf s.base.entries.length s.base.pos ∧
     (updateCurrent s).delta.pos ≤ s.delta.entries.length ∧
     cutOf s.delta.entries.length (updateCurrent s).delta.pos
       ≤ cutOf s.delta.entries.length s.delta.pos ∧
     (∀ i, cutOf s.delta.entries.length (updateCurrent s).delta.pos ≤ i →
       i < cutOf s.delta.entries.length s.delta.pos →
       ∀ (hi : i < s.delta.entries.length),
       (s.delta.entries[i]).rtype.isTombstone = true) ∧
     (∀ j, cutOf s.base.entries.length (updateCurrent s).base.pos ≤ j →
       j < cutOf s.base.entries.length s.base.pos →
       ∀ (hj : j < s.base.entries.length),
       ∃ i, cutOf s.delta.entries.length (updateCurrent s).delta.pos ≤ i ∧
         i < cutOf s.delta.entries.length s.delta.pos ∧
         ∃ (hi : i < s.delta.entries.length),
         (s.delta.entries[i]).key = (s.base.entries[j]).1) ∧
     ((updateCurrent s).currentAtBase = true →
       ∀ (hbv : (updateCurrent s).base.pos < s.base.entries.length),
       ∀ i, cutOf s.delta.entries.length (updateCurrent s).delta.pos ≤ i →
       i < cutOf s.delta.entries.length s.delta.pos →
       ∀ (hi : i < s.delta.entries.length),
       (s.base.entries[(updateCurrent s).base.pos]).1
         < (s.delta.entries[i]).key) ∧
     ((updateCurrent s).currentAtBase = false →
       ∀ (hdv : (updateCurrent s).delta.pos < s.delta.entries.length),
       (s.delta.entries[(updateCurrent s).delta.pos]).rtype.isTombstone
         = false) ∧
     ((updateCurrent s).equalKeys = true →
       (updateCurrent s).currentAtBase = false)) := by
  induction s using updateCurrent.induct with
  | case1 s hB hD hle htomb heq ih =>
    intro hf hsb hwb hwd
    have hde : s.deltaEntry = s.delta.entries[s.delta.pos] :=
      deltaEntry_eq s hD
    have hbk : s.baseKey = (s.base.entries[s.base.pos]).1 := baseKey_eq s hB
    have hfX : (advanceDelta { s with equalKeys := true }).forward
        = false := by
      rw [advanceDelta_forward]
      exact hf
    have he1 : (advanceBase (advanceDelta { s with equalKeys := true
        })).base.entries = s.base.entries := by
      rw [advanceBase_entries, advanceDelta_base]
    have he2 : (advanceBase (advanceDelta { s with equalKeys := true
        })).delta.entries = s.delta.entries := by
      rw [advanceBase_delta, advanceDelta_entries]
    have hp1 : (advanceBase (advanceDelta { s with equalKeys := true
        })).base.pos = predPos s.base.entries.length s.base.pos := by
      rw [advanceBase_pos_bwd _ (by rw [advanceDelta_forward]; exact hf)
        (by rw [advanceDelta_base]; exact hB)]
      rw [advanceDelta_base]
    have hp2 : (advanceBase (advanceDelta { s with equalKeys := true
        })).delta.pos = predPos s.delta.entries.length s.delta.pos := by
      rw [advanceBase_delta]
      exact advanceDelta_pos_bwd _ (by exact hf) hD
    have hcp : cutOf s.base.entries.length
        (predPos s.base.entries.length s.base.pos) = s.base.pos :=
      cutOf_prev_eq _ _ hB
    have hcd : cutOf s.delta.entries.length
        (predPos s.delta.entries.length s.delta.pos) = s.delta.pos :=
      cutOf_prev_eq _ _ hD
    have hcb2 : cutOf s.base.entries.length s.base.pos = s.base.pos + 1 :=
      cutOf_lt_eq _ _ hB
    have hcd2 : cutOf s.delta.entries.length s.delta.pos
        = s.delta.pos + 1 := cutOf_lt_eq _ _ hD
    rw [updateCurrent]
    simp only [dif_pos hB, dif_pos hD, if_pos hle, if_pos htomb, if_pos heq]
    obtain ⟨i1, i2, i3, i4, i5, i6, i7, i8, i9⟩ :=
      ih (by rw [advanceBase_forward]; exact hfX)
        (by rw [he1]; exact hsb)
        (by rw [he1, hp1]; unfold predPos; split <;> omega)
        (by rw [he2, hp2]; unfold predPos; split <;> omega)
    rw [he1] at i1
    rw [he1, hp1, hcp] at i2
    rw [he2] at i3
    rw [he2, hp2, hcd] at i4
    rw [he2, hp2, hcd] at i5
    rw [he1, he2, hp1, hp2, hcp, hcd] at i6
    rw [he1, he2, hp2, hcd] at i7
    rw [he2] at i8
    refine ⟨i1, by omega, i3, by omega, ?_, ?_, ?_, i8, i9⟩
    · intro i hi1 hi2 hi
      by_cases hieq : i = s.delta.pos
      · subst hieq
        rw [← hde]
        exact htomb
      · exact i5 i hi1 (by omega) hi
    · intro j hj1 hj2 hj
      by_cases hjeq : j = s.base.pos
      · subst hjeq
        refine ⟨s.delta.pos, i4, by omega, hD, ?_⟩
        have := signedCmp_eq_zero.mp heq
        rw [hde, hbk] at this
        exact this
      · obtain ⟨i, hia, hib, hic, hid⟩ := i6 j hj1 (by omega) hj
        exact ⟨i, hia, by omega, hic, hid⟩
    · intro hcb hbv i hi1 hi2 hi
      by_cases hieq : i = s.delta.pos
      · subst hieq
        have hkey := signedCmp_eq_zero.mp heq
        rw [hde, hbk] at hkey
        rw [hkey]
        have hcx := cutOf_lt_eq s.base.entries.length _ hbv
        exact pairwise_key_strict hsb (by omega) hB
      · exact i7 hcb hbv i hi1 (by omega) hi
  | case2 s hB hD hle htomb hne ih =>
    intro hf hsb hwb hwd
    have hde : s.deltaEntry = s.delta.entries[s.delta.pos] :=
      deltaEntry_eq s hD
    have hbk : s.baseKey = (s.base.entries[s.base.pos]).1 := baseKey_eq s hB
    have he1 : (advanceDelta { s with equalKeys := false }).base.entries
        = s.base.entries := by
      rw [advanceDelta_base]
    have he2 : (advanceDelta { s with equalKeys := false }).delta.entries
        = s.delta.entries := by
      rw [advanceDelta_entries]
    have hp1 : (advanceDelta { s with equalKeys := false }).base.pos
        = s.base.pos := by
      rw [advanceDelta_base]
    have hp2 : (advanceDelta { s with equalKeys := false }).delta.pos
        = predPos s.delta.entries.length s.delta.pos :=
      advanceDelta_pos_bwd _ (by exact hf) hD
    have hcd : cutOf s.delta.entries.length
        (predPos s.delta.entries.length s.delta.pos) = s.delta.pos :=
      cutOf_prev_eq _ _ hD
    have hcd2 : cutOf s.delta.entries.length s.delta.pos
        = s.delta.pos + 1 := cutOf_lt_eq _ _ hD
    have hcb2 : cutOf s.base.entries.length s.base.pos = s.base.pos + 1 :=
      cutOf_lt_eq _ _ hB
    have hdgt : s.baseKey < s.deltaEntry.key := by
      rcases lt_or_eq_of_le ((signedCmp_le_zero_bwd hf).mp hle) with h | h
      · exact h
      · exact absurd (signedCmp_eq_zero.mpr h.symm) hne
    rw [updateCurrent]
    simp only [dif_pos hB, dif_pos hD, if_pos hle, if_pos htomb, if_neg hne]
    obtain ⟨i1, i2, i3, i4, i5, i6, i7, i8, i9⟩ :=
      ih (by rw [advanceDelta_forward]; exact hf)
        (by rw [he1]; exact hsb)
        (by rw [he1, hp1]; exact hwb)
        (by rw [he2, hp2]; unfold predPos; split <;> omega)
    rw [he1] at i1
    rw [he1, hp1] at i2
    rw [he2] at i3
    rw [he2, hp2, hcd] at i4
    rw [he2, hp2, hcd] at i5
    rw [he1, he2, hp1, hp2, hcd] at i6
    rw [he1, he2, hp2, hcd] at i7
    rw [he2] at i8
    rw [hde, hbk] at hdgt
    refine ⟨i1, i2, i3, by omega, ?_, ?_, ?_, i8, i9⟩
    · intro i hi1 hi2 hi
      by_cases hieq : i = s.delta.pos
      · subst hieq
        rw [← hde]
        exact htomb
      · exact i5 i hi1 (by omega) hi
    · intro j hj1 hj2 hj
      obtain ⟨i, hia, hib, hic, hid⟩ := i6 j hj1 hj2 hj
      exact ⟨i, hia, by omega, hic, hid⟩
    · intro hcb hbv i hi1 hi2 hi
      by_cases hieq : i = s.delta.pos
      · subst hieq
        have hcx := cutOf_lt_eq s.base.entries.length _ hbv
        calc (s.base.entries[(updateCurrent (advanceDelta { s with
              equalKeys := false })).base.pos]).1
            ≤ (s.base.entries[s.base.pos]).1 :=
              pairwise_key_mono hsb (by omega) hB
          _ < (s.delta.entries[s.delta.pos]).key := hdgt
      · exact i7 hcb hbv i hi1 (by omega) hi
  | case3 s hB hD hle htomb =>
    intro hf hsb hwb hwd
    rw [updateCurrent]
    simp only [dif_pos hB, dif_pos hD, if_pos hle, if_neg htomb]
    refine ⟨hwb, le_rfl, hwd, le_rfl, ?_, ?_, ?_, ?_, ?_⟩
    · intro i hi1 hi2 hi
      omega
    · intro j hj1 hj2 hj
      omega
    · intro hcb hbv i hi1 hi2 hi
      omega
    · intro hcb hdv
      rw [← deltaEntry_eq s hD]
      simp only [Bool.not_eq_true] at htomb
      exact htomb
    · intro _
      trivial
  | case4 s hB hD hgt =>
    intro hf hsb hwb hwd
    rw [updateCurrent]
    simp only [dif_pos hB, dif_pos hD, if_neg hgt]
    refine ⟨hwb, le_rfl, hwd, le_rfl, ?_, ?_, ?_, ?_, ?_⟩
    · intro i hi1 hi2 hi
      omega
    · intro j hj1 hj2 hj
      omega
    · intro hcb hbv i hi1 hi2 hi
      omega
    · intro hcb hdv
      cases hcb
    · intro hq
      cases hq
  | case5 s hB hD =>
    intro hf hsb hwb hwd
    rw [updateCurrent]
    simp only [dif_pos hB, dif_neg hD]
    refine ⟨hwb, le_rfl, hwd, le_rfl, ?_, ?_, ?_, ?_, ?_⟩
    · intro i hi1 hi2 hi
      omega
    · intro j hj1 hj2 hj
      omega
    · intro hcb hbv i hi1 hi2 hi
      omega
    · intro hcb hdv
      cases hcb
    · intro hq
      cases hq
  | case6 s hB hD htomb ih =>
    intro hf hsb hwb hwd
    have hde : s.deltaEntry = s.delta.entries[s.delta.pos] :=
      deltaEntry_eq s hD
    have he1 : (advanceDelta { s with equalKeys := false }).base.entries
        = s.base.entries := by
      rw [advanceDelta_base]
    have he2 : (advanceDelta { s with equalKeys := false }).delta.entries
        = s.delta.entries := by
      rw [advanceDelta_entries]
    have hp1 : (advanceDelta { s with equalKeys := false }).base.pos
        = s.base.pos := by
      rw [advanceDelta_base]
    have hp2 : (advanceDelta { s with equalKeys := false }).delta.pos
        = predPos s.delta.entries.length s.delta.pos :=
      advanceDelta_pos_bwd _ (by exact hf) hD
    have hcd : cutOf s.delta.entries.length
        (predPos s.delta.entries.length s.delta.pos) = s.delta.pos :=
      cutOf_prev_eq _ _ hD
    have hcd2 : cutOf s.delta.entries.length s.delta.pos
        = s.delta.pos + 1 := cutOf_lt_eq _ _ hD
    have hbl : s.base.pos = s.base.entries.length := by omega
    have h0 : cutOf s.base.entries.length s.base.entries.length = 0 := by
      unfold cutOf
      rw [if_pos rfl]
    rw [updateCurrent]
    simp only [dif_neg hB, dif_pos hD, if_pos htomb]
    obtain ⟨i1, i2, i3, i4, i5, i6, i7, i8, i9⟩ :=
      ih (by rw [advanceDelta_forward]; exact hf)
        (by rw [he1]; exact hsb)
        (by rw [he1, hp1]; exact hwb)
        (by rw [he2, hp2]; unfold predPos; split <;> omega)
    rw [he1] at i1
    rw [he1, hp1] at i2
    rw [he2] at i3
    rw [he2, hp2, hcd] at i4
    rw [he2, hp2, hcd] at i5
    rw [he1, he2, hp1, hp2, hcd] at i6
    rw [he1, he2, hp2, hcd] at i7
    rw [he2] at i8
    refine ⟨i1, i2, i3, by omega, ?_, ?_, ?_, i8, i9⟩
    · intro i hi1 hi2 hi
      by_cases hieq : i = s.delta.pos
      · subst hieq
        rw [← hde]
        exact htomb
      · exact i5 i hi1 (by omega) hi
    · intro j hj1 hj2 hj
      obtain ⟨i, hia, hib, hic, hid⟩ := i6 j hj1 hj2 hj
      exact ⟨i, hia, by omega, hic, hid⟩
    · intro hcb hbv i hi1 hi2 hi
      exfalso
      have i2x := i2
      rw [hbl, h0] at i2x
      have hcx := cutOf_lt_eq s.base.entries.length _ hbv
      omega
  | case7 s hB hD htomb =>
    intro hf hsb hwb hwd
    rw [updateCurrent]
    simp only [dif_neg hB, dif_pos hD, if_neg htomb]
    refine ⟨hwb, le_rfl, hwd, le_rfl, ?_, ?_, ?_, ?_, ?_⟩
    · intro i hi1 hi2 hi
      omega
    · intro j hj1 hj2 hj
      omega
    · intro hcb hbv i hi1 hi2 hi
      omega
    · intro hcb hdv
      rw [← deltaEntry_eq s hD]
      simp only [Bool.not_eq_true] at htomb
      exact htomb
    · intro _
      trivial
  | case8 s hB hD =>
    intro hf hsb hwb hwd
    rw [updateCurrent]
    simp only [dif_neg hB, dif_neg hD]
    refine ⟨hwb, le_rfl, hwd, le_rfl, ?_, ?_, ?_, ?_, ?_⟩
    · intro i hi1 hi2 hi
      omega
    · intro j hj1 hj2 hj
      omega
    · intro hcb hbv i hi1 hi2 hi
      omega
    · intro hcb hdv
      omega
    · intro hq
      cases hq

theorem sIter_next_pos_eq {α : Type} (l : List α) (p : Nat)
    (h : p < l.length) : SIter.next ⟨l, p⟩ = ⟨l, p + 1⟩ := by
  unfold SIter.next
  dsimp only
  rw [if_pos h]

/-- Running UpdateCurrent forward over a block of tombstones and the base
entries they mask lands in the same state as starting above the block:
the forward mirror of uc_rev_strip, with plain positions. -/
theorem uc_fwd_strip (bl : List (K × V)) (dl : List (DEntry K V))
    (hsb : bl.Pairwise (fun a b => a.1 < b.1))
    (hsd : dl.Pairwise (fun a b => a.key < b.key))
    (c st : Bool) (bpA dpA : Nat) :
    ∀ (n bp dp : Nat), (bpA - bp) + (dpA - dp) ≤ n →
    bp ≤ bpA → bpA ≤ bl.length → dp ≤ dpA → dpA ≤ dl.length →
    (∀ i, dp ≤ i → i < dpA → ∀ (hi : i < dl.length),
      (dl[i]).rtype.isTombstone = true) →
    (∀ j, bp ≤ j → j < bpA → ∀ (hj : j < bl.length),
      ∃ i, dp ≤ i ∧ i < dpA ∧ ∃ (hi : i < dl.length),
        (dl[i]).key = (bl[j]).1) →
    (∀ j, bpA ≤ j → ∀ (hj : j < bl.length),
      ∀ i, dp ≤ i → i < dpA → ∀ (hi : i < dl.length),
      (dl[i]).key < (bl[j]).1) →
    updateCurrent (⟨true, c, false, st, ⟨bl, bp⟩,
      ⟨dl, dp⟩⟩ : BDI K V)
    = updateCurrent (⟨true, c, false, st, ⟨bl, bpA⟩,
      ⟨dl, dpA⟩⟩ : BDI K V) := by
  intro n
  induction n with
  | zero =>
    intro bp dp hfuel h1 h2 h3 h4 _ _ _
    have hbp : bp = bpA := by omega
    have hdp : dp = dpA := by omega
    rw [hbp, hdp]
  | succ n ihn =>
    intro bp dp hfuel h1 h2 h3 h4 hT hM hO
    by_cases hdpe : dp = dpA
    · -- no tombstones left: the masked region must be empty too
      subst hdpe
      by_cases hbpe : bp = bpA
      · rw [hbpe]
      · exfalso
        obtain ⟨i, hia, hib, _, _⟩ := hM bp le_rfl (by omega) (by omega)
        omega
    · -- a tombstone at the head of the remaining delta block
      have hdi : dp < dl.length := by omega
      have htomb : (dl[dp]).rtype.isTombstone = true :=
        hT dp le_rfl (by omega) hdi
      by_cases hbpe : bp = bpA
      · -- base already at its final cut: only the delta moves
        subst hbpe
        by_cases hbv : bp < bl.length
        · have hkey : (dl[dp]).key < (bl[bp]).1 :=
            hO bp le_rfl hbv dp le_rfl (by omega) hdi
          rw [updateCurrent]
          rw [dif_pos (by dsimp only; exact hbv)]
          rw [dif_pos (by dsimp only; exact hdi)]
          rw [if_pos (by
            refine (signedCmp_le_zero_fwd rfl).mpr ?_
            rw [baseKey, deltaEntry, SIter.cur, SIter.cur]
            dsimp only
            rw [List.getD_eq_getElem bl default hbv,
              List.getD_eq_getElem dl default hdi]
            exact le_of_lt hkey)]
          rw [if_pos (by
            rw [deltaEntry, SIter.cur]
            dsimp only
            rw [List.getD_eq_getElem dl default hdi]
            exact htomb)]
          rw [if_neg (by
            rw [signedCmp_eq_zero]
            rw [baseKey, deltaEntry, SIter.cur, SIter.cur]
            dsimp only
            rw [List.getD_eq_getElem bl default hbv,
              List.getD_eq_getElem dl default hdi]
            exact ne_of_lt hkey)]
          rw [advanceDelta]
          dsimp only
          simp only [if_true]
          rw [sIter_next_pos_eq dl dp hdi]
          rw [ihn bp (dp + 1) (by omega) le_rfl h2 (by omega) h4
            (fun i ha hb hi => hT i (by omega) hb hi)
            (fun j ha hb hj => absurd hb (by omega))
            (fun j ha hj i hb hc hi => hO j ha hj i (by omega) hc hi)]
        · rw [updateCurrent]
          rw [dif_neg (by dsimp only; exact hbv)]
          rw [dif_pos (by dsimp only; exact hdi)]
          rw [if_pos (by
            rw [deltaEntry, SIter.cur]
            dsimp only
            rw [List.getD_eq_getElem dl default hdi]
            exact htomb)]
          rw [advanceDelta]
          dsimp only
          simp only [if_true]
          rw [sIter_next_pos_eq dl dp hdi]
          rw [ihn bp (dp + 1) (by omega) le_rfl h2 (by omega) h4
            (fun i ha hb hi => hT i (by omega) hb hi)
            (fun j ha hb hj => absurd hb (by omega))
            (fun j ha hj i hb hc hi => hO j ha hj i (by omega) hc hi)]
      · -- a masked base entry at the head of the base block
        have hbj : bp < bl.length := by omega
        obtain ⟨im, hima, himb, himh, himk⟩ := hM bp le_rfl (by omega) hbj
        by_cases him : im = dp
        · -- the mask is the head tombstone: keys equal, both sides step
          subst him
          rw [updateCurrent]
          rw [dif_pos (by dsimp only; exact hbj)]
          rw [dif_pos (by dsimp only; exact hdi)]
          rw [if_pos (by
            refine (signedCmp_le_zero_fwd rfl).mpr ?_
            rw [baseKey, deltaEntry, SIter.cur, SIter.cur]
            dsimp only
            rw [List.getD_eq_getElem bl default hbj,
              List.getD_eq_getElem dl default hdi]
            exact le_of_eq himk)]
          rw [if_pos (by
            rw [deltaEntry, SIter.cur]
            dsimp only
            rw [List.getD_eq_getElem dl default hdi]
            exact htomb)]
          rw [if_pos (by
            rw [signedCmp_eq_zero]
            rw [baseKey, deltaEntry, SIter.cur, SIter.cur]
            dsimp only
            rw [List.getD_eq_getElem bl default hbj,
              List.getD_eq_getElem dl default hdi]
            exact himk)]
          rw [advanceDelta]
          dsimp only
          simp only [if_true]
          rw [sIter_next_pos_eq dl im hdi]
          rw [advanceBase]
          dsimp only
          simp only [if_true]
          rw [sIter_next_pos_eq bl bp hbj]
          rw [updateCurrent_eqKeys (⟨true, c, false, st,
            ⟨bl, bp + 1⟩, ⟨dl, im + 1⟩⟩ : BDI K V) true]
          rw [ihn (bp + 1) (im + 1) (by omega) (by omega) h2 (by omega) h4
            (fun i ha hb hi => hT i (by omega) hb hi)
            ?_ (fun j ha hj i hb hc hi => hO j ha hj i (by omega) hc hi)]
          intro j ha hb hj
          obtain ⟨i2, h2a, h2b, h2h, h2k⟩ := hM j (by omega) hb hj
          refine ⟨i2, ?_, h2b, h2h, h2k⟩
          by_cases hieq : i2 = im
          · exfalso
            subst hieq
            have hlt : (bl[bp]).1 < (bl[j]).1 :=
              pairwise_key_strict hsb (by omega) hj
            have heq2 : (bl[bp]).1 = (bl[j]).1 :=
              Eq.trans himk.symm h2k
            exact lt_irrefl _ (lt_of_lt_of_eq hlt heq2.symm)
          · omega
        · -- the mask lies deeper: the head tombstone is strictly smaller
          have himlt : dp < im := by omega
          have hkey : (dl[dp]).key < (bl[bp]).1 := by
            rw [← himk]
            exact pairwise_dkey_strict hsd himlt himh
          rw [updateCurrent]
          rw [dif_pos (by dsimp only; exact hbj)]
          rw [dif_pos (by dsimp only; exact hdi)]
          rw [if_pos (by
            refine (signedCmp_le_zero_fwd rfl).mpr ?_
            rw [baseKey, deltaEntry, SIter.cur, SIter.cur]
            dsimp only
            rw [List.getD_eq_getElem bl default hbj,
              List.getD_eq_getElem dl default hdi]
            exact le_of_lt hkey)]
          rw [if_pos (by
            rw [deltaEntry, SIter.cur]
            dsimp only
            rw [List.getD_eq_getElem dl default hdi]
            exact htomb)]
          rw [if_neg (by
            rw [signedCmp_eq_zero]
            rw [baseKey, deltaEntry, SIter.cur, SIter.cur]
            dsimp only
            rw [List.getD_eq_getElem bl default hbj,
              List.getD_eq_getElem dl default hdi]
            exact ne_of_lt hkey)]
          rw [advanceDelta]
          dsimp only
          simp only [if_true]
          rw [sIter_next_pos_eq dl dp hdi]
          rw [ihn bp (dp + 1) (by omega) h1 h2 (by omega) h4
            (fun i ha hb hi => hT i (by omega) hb hi)
            ?_ (fun j ha hj i hb hc hi => hO j ha hj i (by omega) hc hi)]
          intro j ha hb hj
          obtain ⟨i2, h2a, h2b, h2h, h2k⟩ := hM j ha hb hj
          refine ⟨i2, ?_, h2b, h2h, h2k⟩
          by_cases hieq : i2 = dp
          · exfalso
            subst hieq
            have hle2 : (bl[bp]).1 ≤ (bl[j]).1 :=
              pairwise_key_mono hsb ha hj
            have hchain : (dl[i2]).key < (bl[j]).1 :=
              lt_of_lt_of_le hkey hle2
            exact lt_irrefl _ (lt_of_lt_of_eq hchain h2k.symm)
          · omega

/-- Head of a forward UpdateCurrent that settles on the base: with the
base entry at `bps` on top and every remaining delta key strictly
larger, the iterator exposes that base entry. -/
theorem uc_fwd_head_base (bl : List (K × V)) (dl : List (DEntry K V))
    (c st : Bool) (bps dpA : Nat) (hb : bps < bl.length)
    (hlt : ∀ (h2 : dpA < dl.length), (bl[bps]).1 < (dl[dpA]).key) :
    (updateCurrent (⟨true, c, false, st, ⟨bl, bps⟩,
        ⟨dl, dpA⟩⟩ : BDI K V)).bdiValid = true ∧
    (updateCurrent (⟨true, c, false, st, ⟨bl, bps⟩,
        ⟨dl, dpA⟩⟩ : BDI K V)).curKey = (bl[bps]).1 ∧
    (updateCurrent (⟨true, c, false, st, ⟨bl, bps⟩,
        ⟨dl, dpA⟩⟩ : BDI K V)).curValue = (bl[bps]).2 := by
  by_cases hdv : dpA < dl.length
  · rw [updateCurrent]
    rw [dif_pos (by dsimp only; exact hb)]
    rw [dif_pos (by dsimp only; exact hdv)]
    rw [if_neg (by
      rw [signedCmp_le_zero_fwd rfl]
      rw [baseKey, deltaEntry, SIter.cur, SIter.cur]
      dsimp only
      rw [List.getD_eq_getElem bl default hb,
        List.getD_eq_getElem dl default hdv]
      exact not_le_of_gt (hlt hdv))]
    refine ⟨?_, ?_, ?_⟩
    · rw [bdiValid]
      dsimp only
      rw [if_pos rfl, baseValid]
      exact (sIterValid_iff _).mpr hb
    · rw [curKey]
      dsimp only
      rw [if_pos rfl, baseKey, SIter.cur]
      dsimp only
      rw [List.getD_eq_getElem bl default hb]
    · rw [curValue]
      dsimp only
      rw [if_pos rfl, SIter.cur]
      dsimp only
      rw [List.getD_eq_getElem bl default hb]
  · rw [updateCurrent]
    rw [dif_pos (by dsimp only; exact hb)]
    rw [dif_neg (by dsimp only; exact hdv)]
    refine ⟨?_, ?_, ?_⟩
    · rw [bdiValid]
      dsimp only
      rw [if_pos rfl, baseValid]
      exact (sIterValid_iff _).mpr hb
    · rw [curKey]
      dsimp only
      rw [if_pos rfl, baseKey, SIter.cur]
      dsimp only
      rw [List.getD_eq_getElem bl default hb]
    · rw [curValue]
      dsimp only
      rw [if_pos rfl, SIter.cur]
      dsimp only
      rw [List.getD_eq_getElem bl default hb]

/-- Head of a forward UpdateCurrent that settles on the delta: with a
live (non-tombstone) delta entry at `dps` on top and the base top, when
valid, not below it, the iterator exposes that delta entry. -/
theorem uc_fwd_head_delta (bl : List (K × V)) (dl : List (DEntry K V))
    (c st : Bool) (bpA dps : Nat) (hd : dps < dl.length)
    (hnt : (dl[dps]).rtype.isTombstone = false)
    (hle : ∀ (h2 : bpA < bl.length), (dl[dps]).key ≤ (bl[bpA]).1) :
    (updateCurrent (⟨true, c, false, st, ⟨bl, bpA⟩,
        ⟨dl, dps⟩⟩ : BDI K V)).bdiValid = true ∧
    (updateCurrent (⟨true, c, false, st, ⟨bl, bpA⟩,
        ⟨dl, dps⟩⟩ : BDI K V)).curKey = (dl[dps]).key ∧
    (updateCurrent (⟨true, c, false, st, ⟨bl, bpA⟩,
        ⟨dl, dps⟩⟩ : BDI K V)).curValue = (dl[dps]).value := by
  by_cases hbv : bpA < bl.length
  · rw [updateCurrent]
    rw [dif_pos (by dsimp only; exact hbv)]
    rw [dif_pos (by dsimp only; exact hd)]
    rw [if_pos (by
      refine (signedCmp_le_zero_fwd rfl).mpr ?_
      rw [baseKey, deltaEntry, SIter.cur, SIter.cur]
      dsimp only
      rw [List.getD_eq_getElem bl default hbv,
        List.getD_eq_getElem dl default hd]
      exact hle hbv)]
    rw [if_neg (by
      rw [deltaEntry, SIter.cur]
      dsimp only
      rw [List.getD_eq_getElem dl default hd]
      simp only [hnt]
      exact Bool.false_ne_true)]
    refine ⟨?_, ?_, ?_⟩
    · rw [bdiValid]
      dsimp only
      rw [if_neg (by simp), deltaValid]
      exact (sIterValid_iff _).mpr hd
    · rw [curKey]
      dsimp only
      rw [if_neg (by simp), deltaEntry, SIter.cur]
      dsimp only
      rw [List.getD_eq_getElem dl default hd]
    · rw [curValue]
      dsimp only
      rw [if_neg (by simp), deltaEntry, SIter.cur]
      dsimp only
      rw [List.getD_eq_getElem dl default hd]
  · rw [updateCurrent]
    rw [dif_neg (by dsimp only; exact hbv)]
    rw [dif_pos (by dsimp only; exact hd)]
    rw [if_neg (by
      rw [deltaEntry, SIter.cur]
      dsimp only
      rw [List.getD_eq_getElem dl default hd]
      simp only [hnt]
      exact Bool.false_ne_true)]
    refine ⟨?_, ?_, ?_⟩
    · rw [bdiValid]
      dsimp only
      rw [if_neg (by simp), deltaValid]
      exact (sIterValid_iff _).mpr hd
    · rw [curKey]
      dsimp only
      rw [if_neg (by simp), deltaEntry, SIter.cur]
      dsimp only
      rw [List.getD_eq_getElem dl default hd]
    · rw [curValue]
      dsimp only
      rw [if_neg (by simp), deltaEntry, SIter.cur]
      dsimp only
      rw [List.getD_eq_getElem dl default hd]

theorem succPos_eq_cutOf (len p : Nat) (h : p ≤ len) :
    succPos len p = cutOf len p := by
  unfold succPos cutOf
  by_cases hp : p < len
  · rw [if_pos hp, if_neg (by omega)]
  · rw [if_neg hp, if_pos (by omega)]

/-- Core of the backward round trip: starting Prev() from any backward
state whose cursors sit at cuts (cbA, cdA) separating the keys strictly
below the previously exposed (K0, V0) from those at or above it, if the
Prev() lands on a valid position then Next() returns to exposing
(K0, V0). -/
theorem roundtrip_core_bwd (bl : List (K × V)) (dl : List (DEntry K V))
    (hsb : bl.Pairwise (fun a b => a.1 < b.1))
    (hsd : dl.Pairwise (fun a b => a.key < b.key))
    (cbA cdA : Nat) (K0 : K) (V0 : V) (cb eqk st0 : Bool)
    (hbA : cbA ≤ bl.length) (hdA : cdA ≤ dl.length)
    (ha : ∀ j, j < cbA → ∀ (hj : j < bl.length), (bl[j]).1 < K0)
    (he : ∀ j, cbA ≤ j → ∀ (hj : j < bl.length), K0 ≤ (bl[j]).1)
    (hc : ∀ i, i < cdA → ∀ (hi : i < dl.length), (dl[i]).key < K0)
    (hb : ∀ i, cdA ≤ i → ∀ (hi : i < dl.length), K0 ≤ (dl[i]).key)
    (hhead : ∀ (c st : Bool),
      (updateCurrent (⟨true, c, false, st, ⟨bl, cbA⟩,
          ⟨dl, cdA⟩⟩ : BDI K V)).bdiValid = true ∧
      (updateCurrent (⟨true, c, false, st, ⟨bl, cbA⟩,
          ⟨dl, cdA⟩⟩ : BDI K V)).curKey = K0 ∧
      (updateCurrent (⟨true, c, false, st, ⟨bl, cbA⟩,
          ⟨dl, cdA⟩⟩ : BDI K V)).curValue = V0)
    (hv1 : (updateCurrent (⟨false, cb, eqk, st0,
        ⟨bl, predPos bl.length cbA⟩,
        ⟨dl, predPos dl.length cdA⟩⟩ : BDI K V)).bdiValid = true) :
    (doNext (updateCurrent (⟨false, cb, eqk, st0,
        ⟨bl, predPos bl.length cbA⟩,
        ⟨dl, predPos dl.length cdA⟩⟩ : BDI K V))).bdiValid = true ∧
    (doNext (updateCurrent (⟨false, cb, eqk, st0,
        ⟨bl, predPos bl.length cbA⟩,
        ⟨dl, predPos dl.length cdA⟩⟩ : BDI K V))).curKey = K0 ∧
    (doNext (updateCurrent (⟨false, cb, eqk, st0,
        ⟨bl, predPos bl.length cbA⟩,
        ⟨dl, predPos dl.length cdA⟩⟩ : BDI K V))).curValue = V0 := by
  have hchar := updateCurrent_char_bwd (⟨false, cb, eqk, st0,
      ⟨bl, predPos bl.length cbA⟩,
      ⟨dl, predPos dl.length cdA⟩⟩ : BDI K V)
    rfl hsb (by dsimp only; exact predPos_le _ _ hbA)
    (by dsimp only; exact predPos_le _ _ hdA)
  have hflds := updateCurrent_fields (⟨false, cb, eqk, st0,
      ⟨bl, predPos bl.length cbA⟩,
      ⟨dl, predPos dl.length cdA⟩⟩ : BDI K V)
  obtain ⟨b1, b2, b3, b4, b5, b6, b7, b8, b9⟩ := hchar
  obtain ⟨g1, g2, g3, g4⟩ := hflds
  dsimp only at b1 b2 b3 b4 b5 b6 b7 b8 b9 g1 g2 g3 g4
  have hcgb : cutOf bl.length (predPos bl.length cbA) = cbA :=
    cutOf_predPos _ _ hbA
  have hcgd : cutOf dl.length (predPos dl.length cdA) = cdA :=
    cutOf_predPos _ _ hdA
  rw [hcgb] at b2
  rw [hcgd] at b4 b5 b7
  rw [hcgb, hcgd] at b6
  set s1 := updateCurrent (⟨false, cb, eqk, st0,
    ⟨bl, predPos bl.length cbA⟩,
    ⟨dl, predPos dl.length cdA⟩⟩ : BDI K V) with hs1
  have hscb : succPos bl.length s1.base.pos
      = cutOf bl.length s1.base.pos := succPos_eq_cutOf _ _ b1
  have hscd : succPos dl.length s1.delta.pos
      = cutOf dl.length s1.delta.pos := succPos_eq_cutOf _ _ b3
  -- the two keys next to the direction flip differ from the current key
  have hneqB : s1.currentAtBase = true →
      ∀ (h2 : succPos s1.delta.entries.length s1.delta.pos
          < s1.delta.entries.length),
      (s1.delta.entries[succPos s1.delta.entries.length
        s1.delta.pos]).key ≠ s1.baseKey := by
    intro hcb1 h2
    have hbp1v : s1.base.pos < bl.length := by
      rw [bdiValid, hcb1] at hv1
      simp only [if_true] at hv1
      rw [baseValid] at hv1
      have h3 := (sIterValid_iff s1.base).mp hv1
      rw [g3] at h3
      exact h3
    have hbk1 : s1.baseKey = (bl[s1.base.pos]).1 := by
      rw [baseKey_eq s1 (by rw [g3]; exact hbp1v)]
      rw [List.getElem_of_eq g3 _]
    simp only [g4] at h2 ⊢
    simp only [hscd] at h2 ⊢
    rw [hbk1]
    by_cases hreg : cutOf dl.length s1.delta.pos < cdA
    · exact ne_of_gt (b7 hcb1 hbp1v (cutOf dl.length s1.delta.pos)
        le_rfl hreg h2)
    · have hcx := cutOf_lt_eq bl.length _ hbp1v
      refine ne_of_gt (lt_of_lt_of_le
        (ha s1.base.pos (by omega) hbp1v)
        (hb (cutOf dl.length s1.delta.pos) (by omega) h2))
  have hneqD : s1.currentAtBase = false →
      ∀ (h2 : succPos s1.base.entries.length s1.base.pos
          < s1.base.entries.length),
      s1.deltaEntry.key
        ≠ (s1.base.entries[succPos s1.base.entries.length
            s1.base.pos]).1 := by
    intro hcb1 h2
    have hdp1v : s1.delta.pos < dl.length := by
      rw [bdiValid, hcb1] at hv1
      simp only [Bool.false_eq_true, if_false] at hv1
      rw [deltaValid] at hv1
      have h3 := (sIterValid_iff s1.delta).mp hv1
      rw [g4] at h3
      exact h3
    have hdk1 : s1.deltaEntry = dl[s1.delta.pos] := by
      rw [deltaEntry_eq s1 (by rw [g4]; exact hdp1v)]
      rw [List.getElem_of_eq g4 _]
    simp only [g3] at h2 ⊢
    simp only [hscb] at h2 ⊢
    rw [hdk1]
    have hdx := cutOf_lt_eq dl.length _ hdp1v
    by_cases hreg : cutOf bl.length s1.base.pos < cbA
    · obtain ⟨i2, h2a, h2b, h2h, h2k⟩ := b6 (cutOf bl.length s1.base.pos)
        le_rfl hreg h2
      refine fun hcc => ?_
      have hlt : (dl[s1.delta.pos]).key < (dl[i2]).key :=
        pairwise_dkey_strict hsd (by omega) h2h
      rw [h2k, ← hcc] at hlt
      exact lt_irrefl _ hlt
    · refine ne_of_lt (lt_of_lt_of_le
        (hc s1.delta.pos (by omega) hdp1v)
        (he (cutOf bl.length s1.base.pos) (by omega) h2))
  have hnext := doNext_of_bwd_valid s1 hv1 g1
    (by rw [g3]; exact b1) (by rw [g4]; exact b3) hneqB hneqD
  rw [hnext]
  have hconv : ({ s1 with
      forward := true, equalKeys := false,
      base := ⟨s1.base.entries,
        succPos s1.base.entries.length s1.base.pos⟩,
      delta := ⟨s1.delta.entries,
        succPos s1.delta.entries.length s1.delta.pos⟩ } : BDI K V)
      = (⟨true, s1.currentAtBase, false, s1.statusOK,
          ⟨bl, cutOf bl.length s1.base.pos⟩,
          ⟨dl, cutOf dl.length s1.delta.pos⟩⟩ : BDI K V) := by
    rw [g3, g4, hscb, hscd]
  rw [hconv]
  have hcutb : cutOf bl.length s1.base.pos ≤ bl.length := by
    unfold cutOf
    split <;> omega
  have hcutd : cutOf dl.length s1.delta.pos ≤ dl.length := by
    unfold cutOf
    split <;> omega
  have hstrip := uc_fwd_strip bl dl hsb hsd s1.currentAtBase s1.statusOK
    cbA cdA ((cbA - cutOf bl.length s1.base.pos)
      + (cdA - cutOf dl.length s1.delta.pos))
    (cutOf bl.length s1.base.pos) (cutOf dl.length s1.delta.pos)
    le_rfl b2 hbA b4 hdA b5 b6
    (fun j hj hjl i hia hib hi =>
      lt_of_lt_of_le (hc i hib hi) (he j hj hjl))
  rw [hstrip]
  exact hhead s1.currentAtBase s1.statusOK

/-- Backward round trip after SeekForPrev(k): when the seek lands on a
valid entry and Prev() lands on a valid entry, Next() returns to a valid
state exposing the entry the seek had found. -/
theorem seekforprev_prev_next_roundtrip (bl : List (K × V))
    (dl : List (DEntry K V))
    (hsb : bl.Pairwise (fun a b => a.1 < b.1))
    (hsd : dl.Pairwise (fun a b => a.key < b.key)) (k : K)
    (hv0 : (doSeekForPrev k (mkBDI bl dl)).bdiValid = true)
    (hv1 : (doPrev (doSeekForPrev k (mkBDI bl dl))).bdiValid = true) :
    (doNext (doPrev (doSeekForPrev k (mkBDI bl dl)))).bdiValid = true ∧
    (doNext (doPrev (doSeekForPrev k (mkBDI bl dl)))).curKey
      = (doSeekForPrev k (mkBDI bl dl)).curKey ∧
    (doNext (doPrev (doSeekForPrev k (mkBDI bl dl)))).curValue
      = (doSeekForPrev k (mkBDI bl dl)).curValue := by
  have F0 : doSeekForPrev k (mkBDI bl dl)
      = updateCurrent (⟨false, true, false, true,
          ⟨bl, predPos bl.length
            (bl.findIdx (fun a => decide (k < a.1)))⟩,
          ⟨dl, predPos dl.length
            (dl.findIdx (fun e => decide (k < e.key)))⟩⟩ : BDI K V) := rfl
  have hchar := updateCurrent_char_bwd (⟨false, true, false, true,
      ⟨bl, predPos bl.length
        (bl.findIdx (fun a => decide (k < a.1)))⟩,
      ⟨dl, predPos dl.length
        (dl.findIdx (fun e => decide (k < e.key)))⟩⟩ : BDI K V)
    rfl hsb
    (by dsimp only; exact predPos_le _ _ (List.findIdx_le_length _))
    (by dsimp only; exact predPos_le _ _ (List.findIdx_le_length _))
  have hflds := updateCurrent_fields (⟨false, true, false, true,
      ⟨bl, predPos bl.length
        (bl.findIdx (fun a => decide (k < a.1)))⟩,
      ⟨dl, predPos dl.length
        (dl.findIdx (fun e => decide (k < e.key)))⟩⟩ : BDI K V)
  have hinv := invariant_updateCurrent (⟨false, true, false, true,
      ⟨bl, predPos bl.length
        (bl.findIdx (fun a => decide (k < a.1)))⟩,
      ⟨dl, predPos dl.length
        (dl.findIdx (fun e => decide (k < e.key)))⟩⟩ : BDI K V)
  obtain ⟨a1, a2, a3, a4, a5, a6, a7, a8, a9⟩ := hchar
  obtain ⟨f1, f2, f3, f4⟩ := hflds
  obtain ⟨inv1, inv2⟩ := hinv
  dsimp only at a1 a2 a3 a4 a5 a6 a7 a8 a9 f1 f2 f3 f4
  rw [F0] at hv0 hv1 ⊢
  set s0 := updateCurrent (⟨false, true, false, true,
      ⟨bl, predPos bl.length
        (bl.findIdx (fun a => decide (k < a.1)))⟩,
      ⟨dl, predPos dl.length
        (dl.findIdx (fun e => decide (k < e.key)))⟩⟩ : BDI K V) with hs0
  set cb0 := bl.findIdx (fun a => decide (k < a.1)) with hcb0def
  set cd0 := dl.findIdx (fun e => decide (k < e.key)) with hcd0def
  have hcb0le : cb0 ≤ bl.length := by
    rw [hcb0def]
    exact List.findIdx_le_length _
  have hcd0le : cd0 ≤ dl.length := by
    rw [hcd0def]
    exact List.findIdx_le_length _
  have hcga : cutOf bl.length (predPos bl.length cb0) = cb0 :=
    cutOf_predPos _ _ hcb0le
  have hcgd : cutOf dl.length (predPos dl.length cd0) = cd0 :=
    cutOf_predPos _ _ hcd0le
  rw [hcga] at a2
  rw [hcgd] at a4 a5 a7
  rw [hcga, hcgd] at a6
  have FIb1 : ∀ j, j < cb0 → ∀ (hj : j < bl.length), (bl[j]).1 ≤ k := by
    intro j hj hjl
    rw [hcb0def] at hj
    have h2 := List.not_of_lt_findIdx hj
    simp only [decide_eq_false_iff_not, not_lt] at h2
    exact h2
  have FIb2 : ∀ (h : cb0 < bl.length), k < (bl[cb0]).1 := by
    intro h
    have h2 := @List.findIdx_getElem _ (fun a => decide (k < a.1)) bl
      (by rw [← hcb0def]; exact h)
    simp only [decide_eq_true_eq] at h2
    simp only [← hcb0def] at h2
    exact h2
  have FId1 : ∀ i, i < cd0 → ∀ (hi : i < dl.length), (dl[i]).key ≤ k := by
    intro i hi hil
    rw [hcd0def] at hi
    have h2 := List.not_of_lt_findIdx hi
    simp only [decide_eq_false_iff_not, not_lt] at h2
    exact h2
  have FId2 : ∀ (h : cd0 < dl.length), k < (dl[cd0]).key := by
    intro h
    have h2 := @List.findIdx_getElem _ (fun e => decide (k < e.key)) dl
      (by rw [← hcd0def]; exact h)
    simp only [decide_eq_true_eq] at h2
    simp only [← hcd0def] at h2
    exact h2
  have hbX : s0.base = (⟨bl, predPos bl.length
      (cutOf bl.length s0.base.pos)⟩ : SIter (K × V)) := by
    rw [predPos_cutOf _ _ a1, ← f3]
  have hdX : s0.delta = (⟨dl, predPos dl.length
      (cutOf dl.length s0.delta.pos)⟩ : SIter (DEntry K V)) := by
    rw [predPos_cutOf _ _ a3, ← f4]
  by_cases heq0 : s0.equalKeys = true
  · -- the seek settled on equal keys: Prev() steps both sides down
    have hcbE : s0.currentAtBase = false := a9 heq0
    obtain ⟨hbvb, hdvb, hkeq⟩ := inv2.mp heq0
    have hbv0 : s0.base.pos < bl.length := by
      have h2 := (sIterValid_iff s0.base).mp hbvb
      rw [f3] at h2
      exact h2
    have hdv0 : s0.delta.pos < dl.length := by
      have h2 := (sIterValid_iff s0.delta).mp hdvb
      rw [f4] at h2
      exact h2
    have hbk : s0.baseKey = (bl[s0.base.pos]).1 := by
      rw [baseKey_eq s0 (by rw [f3]; exact hbv0)]
      rw [List.getElem_of_eq f3 _]
    have hde : s0.deltaEntry = dl[s0.delta.pos] := by
      rw [deltaEntry_eq s0 (by rw [f4]; exact hdv0)]
      rw [List.getElem_of_eq f4 _]
    have hKB : (dl[s0.delta.pos]).key = (bl[s0.base.pos]).1 := by
      rw [← hde, ← hbk]
      exact hkeq
    have hbprev : s0.base.prev
        = (⟨bl, predPos bl.length s0.base.pos⟩ : SIter (K × V)) := by
      rw [sIter_prev_eq s0.base (by rw [f3]; exact hbv0)]
      rw [f3]
    have hdprev : s0.delta.prev
        = (⟨dl, predPos dl.length s0.delta.pos⟩
            : SIter (DEntry K V)) := by
      rw [sIter_prev_eq s0.delta (by rw [f4]; exact hdv0)]
      rw [f4]
    have hstep : doPrev s0 = updateCurrent (⟨false, s0.currentAtBase,
        s0.equalKeys, s0.statusOK,
        ⟨bl, predPos bl.length s0.base.pos⟩,
        ⟨dl, predPos dl.length s0.delta.pos⟩⟩ : BDI K V) := by
      rw [doPrev_of_valid_bwd s0 hv0 f1, advance_equal s0 heq0]
      have hAB : advanceDelta (advanceBase s0) = (⟨false,
          s0.currentAtBase, s0.equalKeys, s0.statusOK,
          ⟨bl, predPos bl.length s0.base.pos⟩,
          ⟨dl, predPos dl.length s0.delta.pos⟩⟩ : BDI K V) := by
        show (⟨s0.forward, s0.currentAtBase, s0.equalKeys, s0.statusOK,
            if s0.forward = true then s0.base.next else s0.base.prev,
            if s0.forward = true then s0.delta.next else s0.delta.prev⟩
              : BDI K V) = _
        rw [f1, if_neg Bool.false_ne_true, if_neg Bool.false_ne_true,
          hbprev, hdprev]
      rw [hAB]
    rw [hstep] at hv1 ⊢
    have haE : ∀ j, j < s0.base.pos → ∀ (hj : j < bl.length),
        (bl[j]).1 < (dl[s0.delta.pos]).key := by
      intro j hj hjl
      rw [hKB]
      exact pairwise_key_strict hsb hj hbv0
    have heE : ∀ j, s0.base.pos ≤ j → ∀ (hj : j < bl.length),
        (dl[s0.delta.pos]).key ≤ (bl[j]).1 := by
      intro j hj hjl
      rw [hKB]
      exact pairwise_key_mono hsb hj hjl
    have hcE : ∀ i, i < s0.delta.pos → ∀ (hi : i < dl.length),
        (dl[i]).key < (dl[s0.delta.pos]).key := by
      intro i hi hil
      exact pairwise_dkey_strict hsd hi hdv0
    have hbE : ∀ i, s0.delta.pos ≤ i → ∀ (hi : i < dl.length),
        (dl[s0.delta.pos]).key ≤ (dl[i]).key := by
      intro i hi hil
      exact pairwise_dkey_mono hsd hi hil
    have hheadE : ∀ (c st : Bool),
        (updateCurrent (⟨true, c, false, st,
            ⟨bl, s0.base.pos⟩,
            ⟨dl, s0.delta.pos⟩⟩ : BDI K V)).bdiValid = true ∧
        (updateCurrent (⟨true, c, false, st,
            ⟨bl, s0.base.pos⟩,
            ⟨dl, s0.delta.pos⟩⟩ : BDI K V)).curKey
          = (dl[s0.delta.pos]).key ∧
        (updateCurrent (⟨true, c, false, st,
            ⟨bl, s0.base.pos⟩,
            ⟨dl, s0.delta.pos⟩⟩ : BDI K V)).curValue
          = (dl[s0.delta.pos]).value := by
      intro c st
      refine uc_fwd_head_delta bl dl c st s0.base.pos s0.delta.pos
        hdv0 (a8 hcbE hdv0) ?_
      intro h2
      exact le_of_eq hKB
    have hcore := roundtrip_core_bwd bl dl hsb hsd s0.base.pos
      s0.delta.pos ((dl[s0.delta.pos]).key) ((dl[s0.delta.pos]).value)
      s0.currentAtBase s0.equalKeys s0.statusOK
      (by omega) (by omega) haE heE hcE hbE hheadE hv1
    refine ⟨hcore.1, ?_, ?_⟩
    · rw [hcore.2.1]
      rw [curKey, if_neg (by rw [hcbE]; exact Bool.false_ne_true), hde]
    · rw [hcore.2.2]
      rw [curValue, if_neg (by rw [hcbE]; exact Bool.false_ne_true), hde]
  · simp only [Bool.not_eq_true] at heq0
    by_cases hcb0 : s0.currentAtBase = true
    · -- the seek settled on the base: Prev() steps the base side down
      have hbv0 : s0.base.pos < bl.length := by
        have h := hv0
        rw [bdiValid, hcb0] at h
        simp only [if_true] at h
        rw [baseValid] at h
        have h2 := (sIterValid_iff s0.base).mp h
        rw [f3] at h2
        exact h2
      have hcx0 : cutOf bl.length s0.base.pos = s0.base.pos + 1 :=
        cutOf_lt_eq _ _ hbv0
      have hKk : (bl[s0.base.pos]).1 ≤ k :=
        FIb1 s0.base.pos (by omega) hbv0
      have hbk : s0.baseKey = (bl[s0.base.pos]).1 := by
        rw [baseKey_eq s0 (by rw [f3]; exact hbv0)]
        rw [List.getElem_of_eq f3 _]
      have hbprev : s0.base.prev
          = (⟨bl, predPos bl.length s0.base.pos⟩ : SIter (K × V)) := by
        rw [sIter_prev_eq s0.base (by rw [f3]; exact hbv0)]
        rw [f3]
      have hstep : doPrev s0 = updateCurrent (⟨false, s0.currentAtBase,
          s0.equalKeys, s0.statusOK,
          ⟨bl, predPos bl.length s0.base.pos⟩,
          ⟨dl, predPos dl.length
            (cutOf dl.length s0.delta.pos)⟩⟩ : BDI K V) := by
        rw [doPrev_of_valid_bwd s0 hv0 f1, advance_atBase s0 heq0 hcb0]
        have hAB : advanceBase s0 = (⟨false, s0.currentAtBase,
            s0.equalKeys, s0.statusOK,
            ⟨bl, predPos bl.length s0.base.pos⟩,
            ⟨dl, predPos dl.length
              (cutOf dl.length s0.delta.pos)⟩⟩ : BDI K V) := by
          show (⟨s0.forward, s0.currentAtBase, s0.equalKeys, s0.statusOK,
              if s0.forward = true then s0.base.next else s0.base.prev,
              s0.delta⟩ : BDI K V) = _
          rw [f1, if_neg Bool.false_ne_true, hbprev]
          conv_lhs => rw [hdX]
        rw [hAB]
      rw [hstep] at hv1 ⊢
      have haB : ∀ j, j < s0.base.pos → ∀ (hj : j < bl.length),
          (bl[j]).1 < (bl[s0.base.pos]).1 := by
        intro j hj hjl
        exact pairwise_key_strict hsb hj hbv0
      have heB : ∀ j, s0.base.pos ≤ j → ∀ (hj : j < bl.length),
          (bl[s0.base.pos]).1 ≤ (bl[j]).1 := by
        intro j hj hjl
        exact pairwise_key_mono hsb hj hjl
      have hcB : ∀ i, i < cutOf dl.length s0.delta.pos →
          ∀ (hi : i < dl.length),
          (dl[i]).key < (bl[s0.base.pos]).1 := by
        intro i hilt hi
        have hdv : s0.delta.pos < dl.length := by
          rcases Nat.lt_or_ge s0.delta.pos dl.length with hx | hx
          · exact hx
          · exfalso
            have hdd : s0.delta.pos = dl.length := by omega
            have h0 : cutOf dl.length s0.delta.pos = 0 := by
              rw [hdd]
              unfold cutOf
              rw [if_pos rfl]
            omega
        have hdx0 : cutOf dl.length s0.delta.pos = s0.delta.pos + 1 :=
          cutOf_lt_eq _ _ hdv
        have hbvb : s0.base.valid = true := by
          rw [sIterValid_iff, f3]
          exact hbv0
        have hdvb : s0.delta.valid = true := by
          rw [sIterValid_iff, f4]
          exact hdv
        have h5 := ((inv1 hbvb hdvb).2 f1).1 hcb0
        have hde : s0.deltaEntry = dl[s0.delta.pos] := by
          rw [deltaEntry_eq s0 (by rw [f4]; exact hdv)]
          rw [List.getElem_of_eq f4 _]
        rw [hde, hbk] at h5
        exact lt_of_le_of_lt (pairwise_dkey_mono hsd (by omega) hdv) h5
      have hbB : ∀ i, cutOf dl.length s0.delta.pos ≤ i →
          ∀ (hi : i < dl.length),
          (bl[s0.base.pos]).1 ≤ (dl[i]).key := by
        intro i hge hi
        by_cases hreg : i < cd0
        · exact le_of_lt (a7 hcb0 hbv0 i hge hreg hi)
        · push_neg at hreg
          exact le_of_lt (lt_of_le_of_lt hKk (lt_of_lt_of_le
            (FId2 (by omega)) (pairwise_dkey_mono hsd hreg hi)))
      have hheadB : ∀ (c st : Bool),
          (updateCurrent (⟨true, c, false, st,
              ⟨bl, s0.base.pos⟩,
              ⟨dl, cutOf dl.length s0.delta.pos⟩⟩
                : BDI K V)).bdiValid = true ∧
          (updateCurrent (⟨true, c, false, st,
              ⟨bl, s0.base.pos⟩,
              ⟨dl, cutOf dl.length s0.delta.pos⟩⟩
                : BDI K V)).curKey = (bl[s0.base.pos]).1 ∧
          (updateCurrent (⟨true, c, false, st,
              ⟨bl, s0.base.pos⟩,
              ⟨dl, cutOf dl.length s0.delta.pos⟩⟩
                : BDI K V)).curValue = (bl[s0.base.pos]).2 := by
        intro c st
        refine uc_fwd_head_base bl dl c st s0.base.pos
          (cutOf dl.length s0.delta.pos) hbv0 ?_
        intro h2
        by_cases hreg : cutOf dl.length s0.delta.pos < cd0
        · exact a7 hcb0 hbv0 (cutOf dl.length s0.delta.pos)
            le_rfl hreg h2
        · push_neg at hreg
          exact lt_of_le_of_lt hKk (lt_of_lt_of_le
            (FId2 (by omega)) (pairwise_dkey_mono hsd hreg h2))
      have hcore := roundtrip_core_bwd bl dl hsb hsd s0.base.pos
        (cutOf dl.length s0.delta.pos)
        ((bl[s0.base.pos]).1) ((bl[s0.base.pos]).2)
        s0.currentAtBase s0.equalKeys s0.statusOK
        (by omega) (by unfold cutOf; split <;> omega)
        haB heB hcB hbB hheadB hv1
      refine ⟨hcore.1, ?_, ?_⟩
      · rw [hcore.2.1]
        rw [curKey, if_pos hcb0]
        rw [baseKey_eq s0 (by rw [f3]; exact hbv0)]
        rw [List.getElem_of_eq f3 _]
      · rw [hcore.2.2]
        rw [curValue, if_pos hcb0]
        rw [sIter_cur_eq s0.base (by rw [f3]; exact hbv0)]
        rw [List.getElem_of_eq f3 _]
    · -- the seek settled on a live delta entry: Prev() steps the delta
      simp only [Bool.not_eq_true] at hcb0
      have hdv0 : s0.delta.pos < dl.length := by
        have h := hv0
        rw [bdiValid, hcb0] at h
        simp only [Bool.false_eq_true, if_false] at h
        rw [deltaValid] at h
        have h2 := (sIterValid_iff s0.delta).mp h
        rw [f4] at h2
        exact h2
      have hdx0 : cutOf dl.length s0.delta.pos = s0.delta.pos + 1 :=
        cutOf_lt_eq _ _ hdv0
      have hde : s0.deltaEntry = dl[s0.delta.pos] := by
        rw [deltaEntry_eq s0 (by rw [f4]; exact hdv0)]
        rw [List.getElem_of_eq f4 _]
      have hKk : (dl[s0.delta.pos]).key ≤ k :=
        FId1 s0.delta.pos (by omega) hdv0
      have hBltK : ∀ (hbv : s0.base.pos < bl.length),
          (bl[s0.base.pos]).1 < (dl[s0.delta.pos]).key := by
        intro hbv
        have hbvb : s0.base.valid = true := by
          rw [sIterValid_iff, f3]
          exact hbv
        have hdvb : s0.delta.valid = true := by
          rw [sIterValid_iff, f4]
          exact hdv0
        have h5 := ((inv1 hbvb hdvb).2 f1).2 hcb0
        have h6 : s0.deltaEntry.key ≠ s0.baseKey := by
          intro hcc
          have h7 := inv2.mpr ⟨hbvb, hdvb, hcc⟩
          rw [heq0] at h7
          exact Bool.false_ne_true h7
        have hbk : s0.baseKey = (bl[s0.base.pos]).1 := by
          rw [baseKey_eq s0 (by rw [f3]; exact hbv)]
          rw [List.getElem_of_eq f3 _]
        rw [hbk, hde] at h5 h6
        exact lt_of_le_of_ne h5 (fun hcc => h6 hcc.symm)
      have hdprev : s0.delta.prev
          = (⟨dl, predPos dl.length s0.delta.pos⟩
              : SIter (DEntry K V)) := by
        rw [sIter_prev_eq s0.delta (by rw [f4]; exact hdv0)]
        rw [f4]
      have hstep : doPrev s0 = updateCurrent (⟨false, s0.currentAtBase,
          s0.equalKeys, s0.statusOK,
          ⟨bl, predPos bl.length (cutOf bl.length s0.base.pos)⟩,
          ⟨dl, predPos dl.length s0.delta.pos⟩⟩ : BDI K V) := by
        rw [doPrev_of_valid_bwd s0 hv0 f1, advance_atDelta s0 heq0 hcb0]
        have hAB : advanceDelta s0 = (⟨false, s0.currentAtBase,
            s0.equalKeys, s0.statusOK,
            ⟨bl, predPos bl.length (cutOf bl.length s0.base.pos)⟩,
            ⟨dl, predPos dl.length s0.delta.pos⟩⟩ : BDI K V) := by
          show (⟨s0.forward, s0.currentAtBase, s0.equalKeys, s0.statusOK,
              s0.base,
              if s0.forward = true then s0.delta.next else s0.delta.prev⟩
                : BDI K V) = _
          rw [f1, if_neg Bool.false_ne_true, hdprev]
          conv_lhs => rw [hbX]
        rw [hAB]
      rw [hstep] at hv1 ⊢
      have haD : ∀ j, j < cutOf bl.length s0.base.pos →
          ∀ (hj : j < bl.length),
          (bl[j]).1 < (dl[s0.delta.pos]).key := by
        intro j hjlt hjl
        have hbv : s0.base.pos < bl.length := by
          rcases Nat.lt_or_ge s0.base.pos bl.length with hx | hx
          · exact hx
          · exfalso
            have hdd : s0.base.pos = bl.length := by omega
            have h0 : cutOf bl.length s0.base.pos = 0 := by
              rw [hdd]
              unfold cutOf
              rw [if_pos rfl]
            omega
        have hbx0 : cutOf bl.length s0.base.pos = s0.base.pos + 1 :=
          cutOf_lt_eq _ _ hbv
        exact lt_of_le_of_lt (pairwise_key_mono hsb (by omega) hbv)
          (hBltK hbv)
      have heD : ∀ j, cutOf bl.length s0.base.pos ≤ j →
          ∀ (hj : j < bl.length),
          (dl[s0.delta.pos]).key ≤ (bl[j]).1 := by
        intro j hge hjl
        by_cases hreg : j < cb0
        · obtain ⟨i, hia, hib, hi, hkk⟩ := a6 j hge hreg hjl
          refine le_of_lt ?_
          calc (dl[s0.delta.pos]).key < (dl[i]).key :=
              pairwise_dkey_strict hsd (by omega) hi
            _ = (bl[j]).1 := hkk
        · push_neg at hreg
          exact le_of_lt (lt_of_le_of_lt hKk (lt_of_lt_of_le
            (FIb2 (by omega)) (pairwise_key_mono hsb hreg hjl)))
      have hcD : ∀ i, i < s0.delta.pos → ∀ (hi : i < dl.length),
          (dl[i]).key < (dl[s0.delta.pos]).key := by
        intro i hi hil
        exact pairwise_dkey_strict hsd hi hdv0
      have hbD : ∀ i, s0.delta.pos ≤ i → ∀ (hi : i < dl.length),
          (dl[s0.delta.pos]).key ≤ (dl[i]).key := by
        intro i hi hil
        exact pairwise_dkey_mono hsd hi hil
      have hheadD : ∀ (c st : Bool),
          (updateCurrent (⟨true, c, false, st,
              ⟨bl, cutOf bl.length s0.base.pos⟩,
              ⟨dl, s0.delta.pos⟩⟩ : BDI K V)).bdiValid = true ∧
          (updateCurrent (⟨true, c, false, st,
              ⟨bl, cutOf bl.length s0.base.pos⟩,
              ⟨dl, s0.delta.pos⟩⟩ : BDI K V)).curKey
            = (dl[s0.delta.pos]).key ∧
          (updateCurrent (⟨true, c, false, st,
              ⟨bl, cutOf bl.length s0.base.pos⟩,
              ⟨dl, s0.delta.pos⟩⟩ : BDI K V)).curValue
            = (dl[s0.delta.pos]).value := by
        intro c st
        refine uc_fwd_head_delta bl dl c st
          (cutOf bl.length s0.base.pos) s0.delta.pos
          hdv0 (a8 hcb0 hdv0) ?_
        intro h2
        by_cases hreg : cutOf bl.length s0.base.pos < cb0
        · obtain ⟨i, hia, hib, hi, hkk⟩ := a6
            (cutOf bl.length s0.base.pos) le_rfl hreg h2
          refine le_of_lt ?_
          calc (dl[s0.delta.pos]).key < (dl[i]).key :=
              pairwise_dkey_strict hsd (by omega) hi
            _ = (bl[cutOf bl.length s0.base.pos]).1 := hkk
        · push_neg at hreg
          exact le_of_lt (lt_of_le_of_lt hKk (lt_of_lt_of_le
            (FIb2 (by omega)) (pairwise_key_mono hsb hreg h2)))
      have hcore := roundtrip_core_bwd bl dl hsb hsd
        (cutOf bl.length s0.base.pos) s0.delta.pos
        ((dl[s0.delta.pos]).key) ((dl[s0.delta.pos]).value)
        s0.currentAtBase s0.equalKeys s0.statusOK
        (by unfold cutOf; split <;> omega) (by omega)
        haD heD hcD hbD hheadD hv1
      refine ⟨hcore.1, ?_, ?_⟩
      · rw [hcore.2.1]
        rw [curKey, if_neg (by rw [hcb0]; exact Bool.false_ne_true), hde]
      · rw [hcore.2.2]
        rw [curValue, if_neg (by rw [hcb0]; exact Bool.false_ne_true), hde]

/-- Claim C3 (amended): over sorted base and delta entry lists, from any
valid position reached by Seek(k), when Next() again lands on a valid
position, Prev() returns to the position the seek had found, exposing
the same key and value; symmetrically, from any valid position reached
by SeekForPrev(k), when Prev() lands on a valid position, Next() returns
to it.  The provisos that the inner step stays valid are the amendment:
without them the claim fails, as the recorded counterexample shows. -/
theorem c3_next_prev_roundtrip (bl : List (K × V))
    (dl : List (DEntry K V))
    (hsb : bl.Pairwise (fun a b => a.1 < b.1))
    (hsd : dl.Pairwise (fun a b => a.key < b.key)) (k : K) :
    ((doSeek k (mkBDI bl dl)).bdiValid = true →
      (doNext (doSeek k (mkBDI bl dl))).bdiValid = true →
      (doPrev (doNext (doSeek k (mkBDI bl dl)))).bdiValid = true ∧
      (doPrev (doNext (doSeek k (mkBDI bl dl)))).curKey
        = (doSeek k (mkBDI bl dl)).curKey ∧
      (doPrev (doNext (doSeek k (mkBDI bl dl)))).curValue
        = (doSeek k (mkBDI bl dl)).curValue) ∧
    ((doSeekForPrev k (mkBDI bl dl)).bdiValid = true →
      (doPrev (doSeekForPrev k (mkBDI bl dl))).bdiValid = true →
      (doNext (doPrev (doSeekForPrev k (mkBDI bl dl)))).bdiValid = true ∧
      (doNext (doPrev (doSeekForPrev k (mkBDI bl dl)))).curKey
        = (doSeekForPrev k (mkBDI bl dl)).curKey ∧
      (doNext (doPrev (doSeekForPrev k (mkBDI bl dl)))).curValue
        = (doSeekForPrev k (mkBDI bl dl)).curValue) :=
  ⟨fun hv0 hv1 => seek_next_prev_roundtrip bl dl hsb hsd k hv0 hv1,
   fun hv0 hv1 => seekforprev_prev_next_roundtrip bl dl hsb hsd k hv0 hv1⟩

/-- Witness for c3_next_prev_roundtrip at the direction-flip scenario of
the spec: base keys 1 and 3, a batch put at key 2, seeks at key 2. -/
theorem c3_next_prev_roundtrip_witness :
    (([((1 : Nat), (10 : Nat)), (3, 30)].Pairwise
        (fun a b => a.1 < b.1))
      ∧ (([⟨2, RecType.putRec, 20⟩] : List (DEntry Nat Nat)).Pairwise
          (fun a b => a.key < b.key)))
    ∧ (((doSeek 2 (mkBDI [((1 : Nat), (10 : Nat)), (3, 30)]
          ([⟨2, RecType.putRec, 20⟩]
            : List (DEntry Nat Nat)))).bdiValid = true →
        (doNext (doSeek 2 (mkBDI [((1 : Nat), (10 : Nat)), (3, 30)]
          ([⟨2, RecType.putRec, 20⟩]
            : List (DEntry Nat Nat))))).bdiValid = true →
        (doPrev (doNext (doSeek 2 (mkBDI
          [((1 : Nat), (10 : Nat)), (3, 30)]
          ([⟨2, RecType.putRec, 20⟩]
            : List (DEntry Nat Nat)))))).bdiValid = true ∧
        (doPrev (doNext (doSeek 2 (mkBDI
          [((1 : Nat), (10 : Nat)), (3, 30)]
          ([⟨2, RecType.putRec, 20⟩]
            : List (DEntry Nat Nat)))))).curKey
          = (doSeek 2 (mkBDI [((1 : Nat), (10 : Nat)), (3, 30)]
            ([⟨2, RecType.putRec, 20⟩]
              : List (DEntry Nat Nat)))).curKey ∧
        (doPrev (doNext (doSeek 2 (mkBDI
          [((1 : Nat), (10 : Nat)), (3, 30)]
          ([⟨2, RecType.putRec, 20⟩]
            : List (DEntry Nat Nat)))))).curValue
          = (doSeek 2 (mkBDI [((1 : Nat), (10 : Nat)), (3, 30)]
            ([⟨2, RecType.putRec, 20⟩]
              : List (DEntry Nat Nat)))).curValue) ∧
      ((doSeekForPrev 2 (mkBDI [((1 : Nat), (10 : Nat)), (3, 30)]
          ([⟨2, RecType.putRec, 20⟩]
            : List (DEntry Nat Nat)))).bdiValid = true →
        (doPrev (doSeekForPrev 2 (mkBDI
          [((1 : Nat), (10 : Nat)), (3, 30)]
          ([⟨2, RecType.putRec, 20⟩]
            : List (DEntry Nat Nat))))).bdiValid = true →
        (doNext (doPrev (doSeekForPrev 2 (mkBDI
          [((1 : Nat), (10 : Nat)), (3, 30)]
          ([⟨2, RecType.putRec, 20⟩]
            : List (DEntry Nat Nat)))))).bdiValid = true ∧
        (doNext (doPrev (doSeekForPrev 2 (mkBDI
          [((1 : Nat), (10 : Nat)), (3, 30)]
          ([⟨2, RecType.putRec, 20⟩]
            : List (DEntry Nat Nat)))))).curKey
          = (doSeekForPrev 2 (mkBDI [((1 : Nat), (10 : Nat)), (3, 30)]
            ([⟨2, RecType.putRec, 20⟩]
              : List (DEntry Nat Nat)))).curKey ∧
        (doNext (doPrev (doSeekForPrev 2 (mkBDI
          [((1 : Nat), (10 : Nat)), (3, 30)]
          ([⟨2, RecType.putRec, 20⟩]
            : List (DEntry Nat Nat)))))).curValue
          = (doSeekForPrev 2 (mkBDI [((1 : Nat), (10 : Nat)), (3, 30)]
            ([⟨2, RecType.putRec, 20⟩]
              : List (DEntry Nat Nat)))).curValue)) :=
  ⟨⟨by decide, by decide⟩,
    c3_next_prev_roundtrip _ _ (by decide) (by decide) 2⟩

/-- The original, unconditional direction-reversal claim fails: over the
one-entry base and the empty batch, Seek(0) lands on a valid entry with
key 0, but Next() exhausts the iterator and the following Prev() leaves
it invalid instead of returning to the entry the seek had found. -/
theorem c3_roundtrip_counterexample :
    (doSeek 0 (mkBDI [((0 : Nat), (0 : Nat))]
      ([] : List (DEntry Nat Nat)))).bdiValid = true ∧
    (doSeek 0 (mkBDI [((0 : Nat), (0 : Nat))]
      ([] : List (DEntry Nat Nat)))).curKey = 0 ∧
    (doPrev (doNext (doSeek 0 (mkBDI [((0 : Nat), (0 : Nat))]
      ([] : List (DEntry Nat Nat)))))).bdiValid = false := by
  refine ⟨?_, ?_, ?_⟩ <;>
    simp [doSeek, doNext, doPrev, mkBDI, updateCurrent, advance,
      nextAdjust, prevAdjust, advanceBase, advanceDelta, bdiValid,
      baseValid, deltaValid, curKey, baseKey, deltaEntry, signedCmp,
      cmpInt, SIter.seek, SIter.next, SIter.prev, SIter.seekToFirst,
      SIter.seekToLast, SIter.cur, SIter.valid, predPos, succPos,
      List.findIdx_cons, List.findIdx_nil]

end RoundTrip

end BDI

/-
  Part 2 models the indexed write batch itself: the append-only record
  log of the underlying WriteBatch, the secondary index
  (WriteBatchWithIndex::Rep), the overwrite-mode update-in-place policy,
  Collapse, ReBuildIndex, save points and the point lookups.  The wire
  format of the log is external to this repository (spec section 4.1);
  only record boundaries, offsets and decoded fields matter here, so a
  record is a structure and its encoded length a fixed positive function
  of its fields.
-/

namespace Batch

/-- Tags of records in the write batch log. -/
inductive Tag where
  | putTag
  | deleteTag
  | singleDeleteTag
  | deleteRangeTag
  | mergeTag
  | logDataTag
  | beginPrepareTag
  | endPrepareTag
  | commitTag
  | rollbackTag
  | noopTag
  deriving DecidableEq, Repr

/-- The five key-bearing record types that participate in the index. -/
def Tag.keyBearing : Tag → Bool
  | .putTag => true
  | .deleteTag => true
  | .singleDeleteTag => true
  | .deleteRangeTag => true
  | .mergeTag => true
  | _ => false

/-- One decoded record of the log.  For DeleteRange the key is the begin
key and the value the end key; for LogData the value is the blob. -/
structure Rec where
  tag : Tag
  cf : Nat
  key : List Nat
  value : List Nat
  deriving DecidableEq, Repr

/-- Encoded byte length of a record: tag byte, column id when not the
default column, and length-prefixed key and value when present.  Always
positive. -/
def encLen (r : Rec) : Nat :=
  1 + (if r.cf = 0 then 0 else 1)
    + (if r.tag.keyBearing then 1 + r.key.length else 0)
    + (match r.tag with
       | .putTag => 1 + r.value.length
       | .mergeTag => 1 + r.value.length
       | .deleteRangeTag => 1 + r.value.length
       | .logDataTag => 1 + r.value.length
       | _ => 0)

/-- WriteBatchInternal::kHeader, the fixed header before the first
record. -/
def kHeader : Nat := 12

/-- Current byte size of the log. -/
def dataSize (recs : List Rec) : Nat := kHeader + (recs.map encLen).sum

/-- Offsets at which the records of a log start, from a given offset. -/
def offsetsFrom : Nat → List Rec → List Nat
  | _, [] => []
  | o, r :: rs => o :: offsetsFrom (o + encLen r) rs

/-- Offsets of the records of the log. -/
def recOffsets (recs : List Rec) : List Nat := offsetsFrom kHeader recs

/-- Decode the record that starts at a byte offset, walking from a given
starting offset; none when no record starts exactly there. -/
def recAt : List Rec → Nat → Nat → Option Rec
  | [], _, _ => none
  | r :: rs, o, target =>
    if target = o then some r else recAt rs (o + encLen r) target

/-- ReadableWriteBatch::GetEntryFromDataOffset: decode the record at a
byte offset of the current log. -/
def getEntryFromDataOffset (recs : List Rec) (off : Nat) : Option Rec :=
  recAt recs kHeader off

/-- WriteBatchIndexEntry: column id, user key and the offset of the
record it points to.  The source stores the key as an offset and length
into the log; while the log is append-only that slice always denotes the
key the entry was inserted with, which is what this field holds. -/
structure IndexEntry where
  cf : Nat
  key : List Nat
  offset : Nat
  deriving DecidableEq, Repr

/-- Status results of batch operations. -/
inductive BatchStatus where
  | ok
  | notFound
  | corruption
  | notSupportedStatus
  | mergeInProgressStatus
  | errorStatus
  deriving DecidableEq, Repr

/-- WriteBatchWithIndex::Rep together with the underlying WriteBatch:
the decoded record log with its count and save-point stack, the index
entries in insertion order, the obsolete offsets, and the options. -/
structure WB where
  recs : List Rec
  count : Nat
  savePoints : List (Nat × Nat)
  index : List IndexEntry
  obsolete : List Nat
  overwrite : Bool
  allowDupMerge : Bool
  lastEntryOffset : Nat
  deriving DecidableEq, Repr

/-- A fresh batch. -/
def mkWB (overwrite : Bool) (allowDupMerge : Bool) : WB :=
  { recs := [], count := 0, savePoints := [], index := [], obsolete := [],
    overwrite := overwrite, allowDupMerge := allowDupMerge,
    lastEntryOffset := 0 }

/-- Rep::SetLastEntryOffset. -/
def setLastEntryOffset (s : WB) : WB :=
  { s with lastEntryOffset := dataSize s.recs }

/-- Rep::UpdateExistingEntryWithCfId: in overwrite mode, find the live
entry for the key, push its offset on the obsolete list and redirect it
in place to the record at last_entry_offset. -/
def updateExisting (cfid : Nat) (k : List Nat) (s : WB) : Bool × WB :=
  if s.overwrite = false then (false, s)
  else
    match s.index.find? (fun e => e.cf = cfid && e.key = k) with
    | none => (false, s)
    | some e =>
      (true,
        { s with
          obsolete := s.obsolete ++ [e.offset],
          index := s.index.map (fun e2 =>
            if e2.cf = cfid && e2.key = k then
              { e2 with offset := s.lastEntryOffset }
            else e2) })

/-- Rep::AddNewEntry: allocate a fresh entry for the record at
last_entry_offset and insert it. -/
def addNewEntry (cfid : Nat) (k : List Nat) (s : WB) : WB :=
  { s with index := s.index ++ [⟨cfid, k, s.lastEntryOffset⟩] }

/-- Rep::AddOrUpdateIndex. -/
def addOrUpdateIndex (cfid : Nat) (k : List Nat) (s : WB) : WB :=
  match updateExisting cfid k s with
  | (true, s2) => s2
  | (false, s2) => addNewEntry cfid k s2

/-- Append one record to the underlying write batch. -/
def appendRec (r : Rec) (s : WB) : WB :=
  { s with
    recs := s.recs ++ [r],
    count := s.count + (if r.tag.keyBearing then 1 else 0) }

/-- WriteBatchWithIndex::Put. -/
def putOp (cf : Nat) (k v : List Nat) (s : WB) : WB :=
  let s0 := setLastEntryOffset s
  addOrUpdateIndex cf k (appendRec ⟨.putTag, cf, k, v⟩ s0)

/-- WriteBatchWithIndex::Delete. -/
def deleteOp (cf : Nat) (k : List Nat) (s : WB) : WB :=
  let s0 := setLastEntryOffset s
  addOrUpdateIndex cf k (appendRec ⟨.deleteTag, cf, k, []⟩ s0)

/-- WriteBatchWithIndex::SingleDelete. -/
def singleDeleteOp (cf : Nat) (k : List Nat) (s : WB) : WB :=
  let s0 := setLastEntryOffset s
  addOrUpdateIndex cf k (appendRec ⟨.singleDeleteTag, cf, k, []⟩ s0)

/-- WriteBatchWithIndex::DeleteRange, indexed under the begin key. -/
def deleteRangeOp (cf : Nat) (b e : List Nat) (s : WB) : WB :=
  let s0 := setLastEntryOffset s
  addOrUpdateIndex cf b (appendRec ⟨.deleteRangeTag, cf, b, e⟩ s0)

/-- WriteBatchWithIndex::PutLogData: append only, no index update. -/
def putLogDataOp (blob : List Nat) (s : WB) : WB :=
  appendRec ⟨.logDataTag, 0, [], blob⟩ s

/-- WriteBatchWithIndex::Merge: append and index like a put, but in
overwrite mode a duplicate key (detected by obsolete_offsets growing)
fails with NotSupported unless allow_dup_merge_ is set.  The state
changes are kept even on failure, as in the source. -/
def mergeOp (cf : Nat) (k v : List Nat) (s : WB) : BatchStatus × WB :=
  let s0 := setLastEntryOffset s
  let s1 := appendRec ⟨.mergeTag, cf, k, v⟩ s0
  let before := s1.obsolete.length
  let s2 := addOrUpdateIndex cf k s1
  if s.allowDupMerge = false ∧ s2.obsolete.length ≠ before then
    (.notSupportedStatus, s2)
  else (.ok, s2)

/-- WriteBatchWithIndex::SetSavePoint, delegating to the log. -/
def setSavePoint (s : WB) : WB :=
  { s with savePoints := (s.recs.length, s.count) :: s.savePoints }

/-- WriteBatch::RollbackToSavePoint: truncate the log to the save point;
NotFound when no save point is active. -/
def rollbackWriteBatch (s : WB) : BatchStatus × WB :=
  match s.savePoints with
  | [] => (.notFound, s)
  | (n, c) :: rest =>
    (.ok, { s with recs := s.recs.take n, count := c, savePoints := rest })

/-- Rep::ClearIndex. -/
def clearIndex (s : WB) : WB :=
  { s with index := [], lastEntryOffset := 0 }

/-- The walk of Rep::ReBuildIndex: for every key-bearing record set
last_entry_offset to the record's offset and add or update the index;
skip the control records; count the key-bearing ones. -/
def reBuildWalk : List Rec → Nat → WB → Nat × WB
  | [], _, s => (0, s)
  | r :: rs, off, s =>
    if r.tag.keyBearing then
      let s2 := addOrUpdateIndex r.cf r.key { s with lastEntryOffset := off }
      let res := reBuildWalk rs (off + encLen r) s2
      (res.1 + 1, res.2)
    else
      let res := reBuildWalk rs (off + encLen r) s
      (res.1, res.2)

/-- Rep::ReBuildIndex: clear the index, walk the log re-adding every
key-bearing record, and require the found count to match the log's
declared count. -/
def reBuildIndex (s : WB) : BatchStatus × WB :=
  let s0 := clearIndex s
  if s0.count = 0 then (.ok, s0)
  else
    let res := reBuildWalk s0.recs kHeader s0
    if res.1 = res.2.count then (.ok, res.2) else (.corruption, res.2)

/-- WriteBatchWithIndex::RollbackToSavePoint: delegate to the log and,
on success, rebuild the index from scratch and clear the obsolete
offsets. -/
def rollbackToSavePoint (s : WB) : BatchStatus × WB :=
  let rb := rollbackWriteBatch s
  if rb.1 = .ok then
    let res := reBuildIndex rb.2
    (res.1, { res.2 with obsolete := [] })
  else rb

/-- The walk of WriteBatchWithIndex::Collapse over the records: on every
iteration the front of the obsolete list is read and compared with the
record's offset; a match consumes both, anything else copies the record
and counts it when key-bearing.  The source reads front() even when the
vector has become empty, which is undefined behaviour in C++; the model
reads the sentinel 0 there, which matches no record offset, so the
record is copied, which is what the unchanged heap memory makes the
compiled code do in practice.  The boolean result records whether a
front-of-empty read happened. -/
def collapseWalk : List Rec → Nat → List Nat →
    List Rec × Nat × List Nat × Bool
  | [], _, obs => ([], 0, obs, false)
  | r :: rs, off, obs =>
    let ubHere := obs.isEmpty
    if obs.headD 0 = off then
      let res := collapseWalk rs (off + encLen r) (obs.drop 1)
      (res.1, res.2.1, res.2.2.1, ubHere || res.2.2.2)
    else
      let res := collapseWalk rs (off + encLen r) obs
      (r :: res.1, res.2.1 + (if r.tag.keyBearing then 1 else 0), res.2.2.1,
        ubHere || res.2.2.2)

/-- WriteBatchWithIndex::Collapse: false and no-op on an empty obsolete
list; otherwise sort the obsolete offsets, rewrite the log keeping the
records the walk copies, and set the count to the surviving key-bearing
records. -/
def collapse (s : WB) : Bool × WB :=
  if s.obsolete.length = 0 then (false, s)
  else
    let res := collapseWalk s.recs kHeader (List.insertionSort (fun a b => a ≤ b) s.obsolete)
    (true, { s with recs := res.1, count := res.2.1, obsolete := res.2.2.1 })

/-- Whether a run of Collapse reads the front of the obsolete vector
while it is empty (the undefined behaviour of the source). -/
def collapseReadsFrontOfEmpty (s : WB) : Bool :=
  if s.obsolete.length = 0 then false
  else (collapseWalk s.recs kHeader (List.insertionSort (fun a b => a ≤ b) s.obsolete)).2.2.2

/-- Result of the internal point lookup. -/
inductive GetResult where
  | found (v : List Nat)
  | deleted
  | notFoundRes
  | mergeInProgressRes (operands : List (List Nat))
  | errorRes
  deriving DecidableEq, Repr

/-- The scan of the internal point lookup over the entries for the key,
newest first: decode each entry's record from the current log at the
entry's offset, stop on a decoded key that no longer matches, and
resolve per record type. -/
def getScan (s : WB) (k : List Nat) :
    List IndexEntry → List (List Nat) → GetResult
  | [], ops => if ops.isEmpty then .notFoundRes
    else .mergeInProgressRes ops.reverse
  | e :: es, ops =>
    match getEntryFromDataOffset s.recs e.offset with
    | none => .errorRes
    | some r =>
      if r.key ≠ k then
        (if ops.isEmpty then .notFoundRes else .mergeInProgressRes ops.reverse)
      else
        match r.tag with
        | .putTag => .found r.value
        | .deleteTag => .deleted
        | .singleDeleteTag => .deleted
        | .mergeTag => getScan s k es (r.value :: ops)
        | _ => .errorRes

/-- Modelled from the spec: WriteBatchWithIndexInternal::GetFromBatch
(write_batch_with_index_internal.cc is not under src/).  Spec section
4.6: scan the batch's entries for the column and key from newest to
oldest, offset-descending; the first tombstone yields Deleted, the
first Put yields Found, Merge records accumulate operands; reaching the
oldest entry yields MergeInProgress when operands were collected, else
NotFound.  Entries are located through the index and their records
decoded from the current log at the entry's recorded offset, as
WBWIIteratorImpl::Entry() does. -/
def getFromBatchRaw (s : WB) (cf : Nat) (k : List Nat) : GetResult :=
  getScan s k ((s.index.filter (fun e => e.cf = cf && e.key = k)).reverse) []

/-- WriteBatchWithIndex::GetFromBatch: map the internal result onto a
status and an optional value. -/
def getFromBatch (s : WB) (cf : Nat) (k : List Nat) :
    BatchStatus × Option (List Nat) :=
  match getFromBatchRaw s cf k with
  | .found v => (.ok, some v)
  | .deleted => (.notFound, none)
  | .notFoundRes => (.notFound, none)
  | .mergeInProgressRes _ => (.mergeInProgressStatus, none)
  | .errorRes => (.errorStatus, none)

/-- Byte-string order used by the default comparator. -/
def lexLe : List Nat → List Nat → Bool
  | [], _ => true
  | _ :: _, [] => false
  | a :: as, b :: bs =>
    if a < b then true else if b < a then false else lexLe as bs

/-- Insertion into a key-ascending delta entry list. -/
def insertDelta (e : WBWI.DEntry (List Nat) (List Nat)) :
    List (WBWI.DEntry (List Nat) (List Nat)) →
    List (WBWI.DEntry (List Nat) (List Nat))
  | [] => [e]
  | d :: ds =>
    if lexLe e.key d.key then e :: d :: ds else d :: insertDelta e ds

/-- Map a log record type onto a delta entry type. -/
def tagToRecType : Tag → Option WBWI.RecType
  | .putTag => some .putRec
  | .deleteTag => some .deleteRec
  | .singleDeleteTag => some .singleDeleteRec
  | .deleteRangeTag => some .deleteRangeRec
  | .mergeTag => some .mergeRec
  | _ => none

/-- The delta entries a WBWIIteratorImpl for a column yields, in index
(key) order: every index entry of the column, decoded from the log. -/
def deltaEntriesFor (s : WB) (cf : Nat) :
    List (WBWI.DEntry (List Nat) (List Nat)) :=
  (s.index.filter (fun e => e.cf = cf)).foldr
    (fun e acc =>
      match getEntryFromDataOffset s.recs e.offset with
      | none => acc
      | some r =>
        match tagToRecType r.tag with
        | none => acc
        | some rt => insertDelta ⟨e.key, rt, r.value⟩ acc)
    []

/-- Result of WriteBatchWithIndex::NewIteratorWithBase: a handle for the
merged iterator, or a null handle together with the debug-fatal
assertion when the batch is not in overwrite mode. -/
structure NewIterResult where
  handle : Option (WBWI.BDI (List Nat) (List Nat))
  assertFailed : Bool

/-- WriteBatchWithIndex::NewIteratorWithBase: in non-overwrite mode
assert(false) and return a null handle; otherwise construct the
BaseDeltaIterator over the base iterator and the batch's iterator for
the column. -/
def newIteratorWithBase (s : WB) (base : List (List Nat × List Nat))
    (cf : Nat) : NewIterResult :=
  if s.overwrite = false then ⟨none, true⟩
  else ⟨some (WBWI.BDI.mkBDI base (deltaEntriesFor s cf)), false⟩

/-! Reference form of the collapse walk: keep exactly the records whose
offsets are not listed among the obsolete offsets. -/

/-- The records of a log whose offsets, counted from a starting offset,
are not in the given list. -/
def dropObsolete (obs : List Nat) : List Rec → Nat → List Rec
  | [], _ => []
  | r :: rs, off =>
    if off ∈ obs then dropObsolete obs rs (off + encLen r)
    else r :: dropObsolete obs rs (off + encLen r)

/-- The newest record for a column and key, scanning a log suffix. -/
def lastRecFor (cf : Nat) (k : List Nat) : List Rec → Option Rec
  | [] => none
  | r :: rs =>
    match lastRecFor cf k rs with
    | some x => some x
    | none =>
      if r.tag.keyBearing = true ∧ r.cf = cf ∧ r.key = k then some r
      else none

/-- The newest record for a column and key together with its offset,
scanning a log suffix whose first record starts at the given offset. -/
def lastMatch (cf : Nat) (k : List Nat) : List Rec → Nat → Option (Nat × Rec)
  | [], _ => none
  | r :: rs, off =>
    match lastMatch cf k rs (off + encLen r) with
    | some x => some x
    | none =>
      if r.tag.keyBearing = true ∧ r.cf = cf ∧ r.key = k then some (off, r)
      else none

/-- The point-lookup result a single record resolves to when it is the
newest record of its key. -/
def tagResult (r : Rec) : GetResult :=
  match r.tag with
  | .putTag => .found r.value
  | .deleteTag => .deleted
  | .singleDeleteTag => .deleted
  | .mergeTag => .mergeInProgressRes [r.value]
  | _ => .errorRes

/-- Reference form of the index maintained by AddOrUpdateIndex: walk the
records accumulating index entries, in overwrite mode redirecting the
live entry of a re-written key to the newer record. -/
def buildIndex (ov : Bool) : List Rec → Nat → List IndexEntry → List IndexEntry
  | [], _, acc => acc
  | r :: rs, off, acc =>
    if r.tag.keyBearing = true then
      let acc2 :=
        if ov = true then
          match acc.find? (fun e => e.cf = r.cf && e.key = r.key) with
          | some _ => acc.map (fun e2 =>
              if e2.cf = r.cf && e2.key = r.key then { e2 with offset := off }
              else e2)
          | none => acc ++ [⟨r.cf, r.key, off⟩]
        else acc ++ [⟨r.cf, r.key, off⟩]
      buildIndex ov rs (off + encLen r) acc2
    else buildIndex ov rs (off + encLen r) acc

end Batch

namespace Batch

/-! Properties of the record log and of the collapse walk. -/

theorem encLen_pos (r : Rec) : 0 < encLen r := by
  unfold encLen; omega

theorem offsetsFrom_lower (l : List Rec) :
    ∀ (a : Nat), ∀ x ∈ offsetsFrom a l, a ≤ x := by
  induction l with
  | nil => intro a x hx; simp [offsetsFrom] at hx
  | cons r rs ih =>
    intro a x hx
    rw [offsetsFrom] at hx
    rcases List.mem_cons.mp hx with h | h
    · omega
    · have := ih (a + encLen r) x h
      omega

theorem dropObsolete_congr (obs1 obs2 : List Nat) (l : List Rec) :
    ∀ (off : Nat), (∀ x ∈ offsetsFrom off l, (x ∈ obs1 ↔ x ∈ obs2)) →
    dropObsolete obs1 l off = dropObsolete obs2 l off := by
  induction l with
  | nil => intro off _; rfl
  | cons r rs ih =>
    intro off hiff
    have hhead : off ∈ offsetsFrom off (r :: rs) := by
      rw [offsetsFrom]; exact List.mem_cons_self _ _
    have htail : ∀ x ∈ offsetsFrom (off + encLen r) rs, (x ∈ obs1 ↔ x ∈ obs2) := by
      intro x hx
      exact hiff x (by rw [offsetsFrom]; exact List.mem_cons_of_mem _ hx)
    rw [dropObsolete, dropObsolete, ih (off + encLen r) htail]
    by_cases h : off ∈ obs1
    · rw [if_pos h, if_pos ((hiff off hhead).mp h)]
    · rw [if_neg h, if_neg (fun hc => h ((hiff off hhead).mpr hc))]

theorem collapseWalk_spec (recs : List Rec) :
    ∀ (off : Nat) (obs : List Nat), 0 < off →
    (∀ o ∈ obs, o ∈ offsetsFrom off recs) →
    obs.Pairwise (fun a b => a < b) →
    (collapseWalk recs off obs).1 = dropObsolete obs recs off ∧
    (collapseWalk recs off obs).2.1 =
      (dropObsolete obs recs off).countP (fun r => r.tag.keyBearing) ∧
    (collapseWalk recs off obs).2.2.1 = [] := by
  induction recs with
  | nil =>
    intro off obs _ hsub _
    have hobs : obs = [] := by
      cases obs with
      | nil => rfl
      | cons o os => exact absurd (hsub o (List.mem_cons_self _ _)) (by simp [offsetsFrom])
    subst hobs
    exact ⟨rfl, rfl, rfl⟩
  | cons r rs ih =>
    intro off obs hpos hsub hsorted
    have hlow : ∀ x ∈ offsetsFrom (off + encLen r) rs, off < x := by
      intro x hx
      have := offsetsFrom_lower rs (off + encLen r) x hx
      have := encLen_pos r
      omega
    cases obs with
    | nil =>
      have hne : (0 : Nat) ≠ off := by omega
      obtain ⟨h1, h2, h3⟩ := ih (off + encLen r) []
        (by have := encLen_pos r; omega) (by intro o ho; simp at ho)
        List.Pairwise.nil
      rw [dropObsolete, if_neg (by simp), collapseWalk]
      simp only [List.headD, if_neg hne]
      refine ⟨?_, ?_, ?_⟩
      · dsimp only
        rw [h1]
      · dsimp only
        rw [h2, List.countP_cons]
      · dsimp only
        rw [h3]
    | cons o os =>
      have hoin : o ∈ offsetsFrom off (r :: rs) := hsub o (List.mem_cons_self _ _)
      by_cases heq : o = off
      · -- head of the obsolete list matches this record: both are consumed
        subst heq
        have hsub' : ∀ x ∈ os, x ∈ offsetsFrom (o + encLen r) rs := by
          intro x hx
          have hmem := hsub x (List.mem_cons_of_mem _ hx)
          rw [offsetsFrom] at hmem
          rcases List.mem_cons.mp hmem with h | h
          · have : o < x := (List.pairwise_cons.mp hsorted).1 x hx
            omega
          · exact h
        obtain ⟨h1, h2, h3⟩ := ih (o + encLen r) os
          (by have := encLen_pos r; omega) hsub'
          (List.pairwise_cons.mp hsorted).2
        have hdrop : dropObsolete (o :: os) (r :: rs) o
            = dropObsolete os rs (o + encLen r) := by
          rw [dropObsolete, if_pos (List.mem_cons_self _ _)]
          apply dropObsolete_congr
          intro x hx
          have hxgt : o < x := hlow x hx
          constructor
          · intro hm
            rcases List.mem_cons.mp hm with h | h
            · omega
            · exact h
          · exact fun h => List.mem_cons_of_mem _ h
        rw [collapseWalk, if_pos (show ((o :: os).headD 0 = o) from rfl), hdrop]
        simp only [List.drop_one, List.tail_cons]
        refine ⟨?_, ?_, ?_⟩
        · dsimp only
          rw [h1]
        · dsimp only
          rw [h2]
        · dsimp only
          rw [h3]
      · -- no match: the record is kept, the obsolete list is unchanged
        have hogt : off < o := by
          rw [offsetsFrom] at hoin
          rcases List.mem_cons.mp hoin with h | h
          · exact absurd h heq
          · exact hlow o h
        have hnotin : off ∉ o :: os := by
          intro hc
          rcases List.mem_cons.mp hc with h | h
          · omega
          · have hmem := hsub off (List.mem_cons_of_mem _ h)
            rw [offsetsFrom] at hmem
            rcases List.mem_cons.mp hmem with h2 | h2
            · have : o < off := (List.pairwise_cons.mp hsorted).1 off h
              omega
            · have := hlow off h2
              omega
        have hsub' : ∀ x ∈ o :: os, x ∈ offsetsFrom (off + encLen r) rs := by
          intro x hx
          have hmem := hsub x hx
          rw [offsetsFrom] at hmem
          rcases List.mem_cons.mp hmem with h | h
          · exact absurd (h ▸ hx) hnotin
          · exact h
        obtain ⟨h1, h2, h3⟩ := ih (off + encLen r) (o :: os)
          (by have := encLen_pos r; omega) hsub' hsorted
        have hcond : ¬ ((o :: os).headD 0 = off) := by
          simp only [List.headD]
          omega
        rw [dropObsolete, if_neg hnotin, collapseWalk, if_neg hcond]
        refine ⟨?_, ?_, ?_⟩
        · dsimp only
          rw [h1]
        · dsimp only
          rw [h2, List.countP_cons]
        · dsimp only
          rw [h3]

/-! The newest record of a key: decoding and offset facts. -/

theorem lastMatch_lower (cf : Nat) (k : List Nat) (l : List Rec) :
    ∀ (off o : Nat) (r : Rec), lastMatch cf k l off = some (o, r) → off ≤ o := by
  induction l with
  | nil => intro off o r h; simp [lastMatch] at h
  | cons r0 rs ih =>
    intro off o r h
    rw [lastMatch] at h
    cases htail : lastMatch cf k rs (off + encLen r0) with
    | some x =>
      rw [htail] at h
      have hx := Option.some.inj h
      subst hx
      have := ih (off + encLen r0) o r htail
      omega
    | none =>
      rw [htail] at h
      by_cases hc : r0.tag.keyBearing = true ∧ r0.cf = cf ∧ r0.key = k
      · rw [if_pos hc] at h
        have hx := Option.some.inj h
        injection hx with h1 h2
        omega
      · rw [if_neg hc] at h
        cases h

theorem lastMatch_props (cf : Nat) (k : List Nat) (l : List Rec) :
    ∀ (off o : Nat) (r : Rec), lastMatch cf k l off = some (o, r) →
    r.tag.keyBearing = true ∧ r.cf = cf ∧ r.key = k := by
  induction l with
  | nil => intro off o r h; simp [lastMatch] at h
  | cons r0 rs ih =>
    intro off o r h
    rw [lastMatch] at h
    cases htail : lastMatch cf k rs (off + encLen r0) with
    | some x =>
      rw [htail] at h
      have hx := Option.some.inj h
      subst hx
      exact ih (off + encLen r0) o r htail
    | none =>
      rw [htail] at h
      by_cases hc : r0.tag.keyBearing = true ∧ r0.cf = cf ∧ r0.key = k
      · rw [if_pos hc] at h
        have hx := Option.some.inj h
        injection hx with h1 h2
        subst h2
        exact hc
      · rw [if_neg hc] at h
        cases h

theorem lastMatch_recAt (cf : Nat) (k : List Nat) (l : List Rec) :
    ∀ (off o : Nat) (r : Rec), lastMatch cf k l off = some (o, r) →
    recAt l off o = some r := by
  induction l with
  | nil => intro off o r h; simp [lastMatch] at h
  | cons r0 rs ih =>
    intro off o r h
    rw [lastMatch] at h
    cases htail : lastMatch cf k rs (off + encLen r0) with
    | some x =>
      rw [htail] at h
      have hx := Option.some.inj h
      subst hx
      have hlow := lastMatch_lower cf k rs (off + encLen r0) o r htail
      have hne : o ≠ off := by have := encLen_pos r0; omega
      rw [recAt, if_neg hne]
      exact ih (off + encLen r0) o r htail
    | none =>
      rw [htail] at h
      by_cases hc : r0.tag.keyBearing = true ∧ r0.cf = cf ∧ r0.key = k
      · rw [if_pos hc] at h
        have hx := Option.some.inj h
        injection hx with h1 h2
        subst h1
        subst h2
        rw [recAt, if_pos rfl]
      · rw [if_neg hc] at h
        cases h

theorem lastMatch_eq_lastRecFor (cf : Nat) (k : List Nat) (l : List Rec) :
    ∀ (off : Nat), (lastMatch cf k l off).map Prod.snd = lastRecFor cf k l := by
  induction l with
  | nil => intro off; rfl
  | cons r0 rs ih =>
    intro off
    rw [lastMatch, lastRecFor, ← ih (off + encLen r0)]
    cases htail : lastMatch cf k rs (off + encLen r0) with
    | some x => rfl
    | none =>
      simp only [Option.map_none']
      by_cases hc : r0.tag.keyBearing = true ∧ r0.cf = cf ∧ r0.key = k
      · rw [if_pos hc, if_pos hc]
        rfl
      · rw [if_neg hc, if_neg hc]
        rfl

/-! The index entries for one key filtered out of the reference index. -/

theorem filter_map_redirect_match (cf : Nat) (k : List Nat) (off : Nat)
    (acc : List IndexEntry)
    (hlen : (acc.filter (fun e => e.cf = cf && e.key = k)).length ≤ 1)
    (hex : ∃ e ∈ acc, (e.cf = cf ∧ e.key = k)) :
    (acc.map (fun e2 => if e2.cf = cf && e2.key = k
        then { e2 with offset := off } else e2)).filter
      (fun e => e.cf = cf && e.key = k) = [⟨cf, k, off⟩] := by
  induction acc with
  | nil => obtain ⟨e, he, _⟩ := hex; cases he
  | cons e es ih =>
    by_cases hp : e.cf = cf ∧ e.key = k
    · have hpb : (e.cf = cf && e.key = k) = true := by
        simp [hp.1, hp.2]
      have hes : es.filter (fun e => e.cf = cf && e.key = k) = [] := by
        rw [List.filter_cons, if_pos hpb] at hlen
        simp only [List.length_cons] at hlen
        have : (es.filter (fun e => e.cf = cf && e.key = k)).length = 0 := by omega
        exact List.length_eq_zero.mp this
      have hnone : ∀ e2 ∈ es, ¬ (e2.cf = cf && e2.key = k) = true := by
        intro e2 he2 hc
        have : e2 ∈ es.filter (fun e => e.cf = cf && e.key = k) :=
          List.mem_filter.mpr ⟨he2, hc⟩
        rw [hes] at this
        cases this
      have hmapes : (es.map (fun e2 => if e2.cf = cf && e2.key = k
          then { e2 with offset := off } else e2)).filter
          (fun e => e.cf = cf && e.key = k) = [] := by
        rw [List.filter_eq_nil_iff]
        intro a ha
        obtain ⟨e2, he2, rfl⟩ := List.mem_map.mp ha
        rw [if_neg (hnone e2 he2)]
        exact hnone e2 he2
      rw [List.map_cons, List.filter_cons, if_pos hpb]
      simp only [if_pos hpb]
      rw [hmapes]
      rw [hp.1, hp.2]
    · have hpb : ¬ (e.cf = cf && e.key = k) = true := by
        simp only [Bool.and_eq_true, decide_eq_true_eq]
        exact fun hc => hp ⟨hc.1, hc.2⟩
      have hex' : ∃ e2 ∈ es, (e2.cf = cf ∧ e2.key = k) := by
        obtain ⟨e2, he2, hpe2⟩ := hex
        rcases List.mem_cons.mp he2 with h | h
        · exact absurd (h ▸ hpe2) hp
        · exact ⟨e2, h, hpe2⟩
      have hlen' : (es.filter (fun e => e.cf = cf && e.key = k)).length ≤ 1 := by
        rw [List.filter_cons, if_neg hpb] at hlen
        exact hlen
      rw [List.map_cons, List.filter_cons, if_neg hpb]
      simp only [if_neg hpb]
      exact ih hlen' hex'

theorem filter_map_redirect_other (cf : Nat) (k : List Nat)
    (cf2 : Nat) (k2 : List Nat) (off : Nat)
    (hne : ¬ (cf2 = cf ∧ k2 = k)) (acc : List IndexEntry) :
    (acc.map (fun e2 => if e2.cf = cf2 && e2.key = k2
        then { e2 with offset := off } else e2)).filter
      (fun e => e.cf = cf && e.key = k)
    = acc.filter (fun e => e.cf = cf && e.key = k) := by
  induction acc with
  | nil => rfl
  | cons e es ih =>
    rw [List.map_cons, List.filter_cons, List.filter_cons]
    by_cases h2 : (e.cf = cf2 && e.key = k2) = true
    · have hnp : ¬ (e.cf = cf && e.key = k) = true := by
        simp only [Bool.and_eq_true, decide_eq_true_eq] at h2 ⊢
        intro hc
        exact hne ⟨h2.1 ▸ hc.1, h2.2 ▸ hc.2⟩
      rw [if_pos h2, if_neg hnp, if_neg (by simpa using hnp)]
      exact ih
    · rw [if_neg h2]
      by_cases hp : (e.cf = cf && e.key = k) = true
      · rw [if_pos hp, if_pos hp, ih]
      · rw [if_neg hp, if_neg hp]
        exact ih

theorem buildIndex_filter (cf : Nat) (k : List Nat) (l : List Rec) :
    ∀ (off : Nat) (acc : List IndexEntry),
    (acc.filter (fun e => e.cf = cf && e.key = k)).length ≤ 1 →
    (buildIndex true l off acc).filter (fun e => e.cf = cf && e.key = k) =
      (match lastMatch cf k l off with
       | some (o, _) => [(⟨cf, k, o⟩ : IndexEntry)]
       | none => acc.filter (fun e => e.cf = cf && e.key = k)) := by
  induction l with
  | nil => intro off acc _; rfl
  | cons r rs ih =>
    intro off acc hlen
    rw [buildIndex, lastMatch]
    by_cases hkb : r.tag.keyBearing = true
    · rw [if_pos hkb, if_pos rfl]
      by_cases hmatch : r.cf = cf ∧ r.key = k
      · obtain ⟨hcf, hkey⟩ := hmatch
        subst hcf
        subst hkey
        have hcond : r.tag.keyBearing = true ∧ r.cf = r.cf ∧ r.key = r.key :=
          ⟨hkb, rfl, rfl⟩
        cases hf : acc.find? (fun e => e.cf = r.cf && e.key = r.key) with
        | some e0 =>
          have hex : ∃ e ∈ acc, (e.cf = r.cf ∧ e.key = r.key) := by
            refine ⟨e0, List.mem_of_find?_eq_some hf, ?_⟩
            have := List.find?_some hf
            simp only [Bool.and_eq_true, decide_eq_true_eq] at this
            exact this
          have hacc2 := filter_map_redirect_match r.cf r.key off acc hlen hex
          have hlen2 : ((acc.map (fun e2 => if e2.cf = r.cf && e2.key = r.key
              then { e2 with offset := off } else e2)).filter
              (fun e => e.cf = r.cf && e.key = r.key)).length ≤ 1 := by
            rw [hacc2]
            simp
          dsimp only
          rw [ih (off + encLen r) _ hlen2]
          rw [hacc2]
          cases htail : lastMatch r.cf r.key rs (off + encLen r) with
          | some x => rfl
          | none => rw [if_pos hcond]
        | none =>
          have hfilacc : acc.filter (fun e => e.cf = r.cf && e.key = r.key) = [] := by
            rw [List.filter_eq_nil_iff]
            intro a ha
            exact List.find?_eq_none.mp hf a ha
          have hacc2 : (acc ++ [(⟨r.cf, r.key, off⟩ : IndexEntry)]).filter
              (fun e => e.cf = r.cf && e.key = r.key)
              = [(⟨r.cf, r.key, off⟩ : IndexEntry)] := by
            rw [List.filter_append, hfilacc]
            simp
          have hlen2 : ((acc ++ [(⟨r.cf, r.key, off⟩ : IndexEntry)]).filter
              (fun e => e.cf = r.cf && e.key = r.key)).length ≤ 1 := by
            rw [hacc2]
            simp
          dsimp only
          rw [ih (off + encLen r) _ hlen2]
          rw [hacc2]
          cases htail : lastMatch r.cf r.key rs (off + encLen r) with
          | some x => rfl
          | none => rw [if_pos hcond]
      · have hcondn : ¬ (r.tag.keyBearing = true ∧ r.cf = cf ∧ r.key = k) := by
          intro hc
          exact hmatch ⟨hc.2.1, hc.2.2⟩
        have hstep : ∀ acc2 : List IndexEntry,
            acc2.filter (fun e => e.cf = cf && e.key = k)
              = acc.filter (fun e => e.cf = cf && e.key = k) →
            (buildIndex true rs (off + encLen r) acc2).filter
              (fun e => e.cf = cf && e.key = k) =
            (match lastMatch cf k (r :: rs) off with
             | some (o, _) => [(⟨cf, k, o⟩ : IndexEntry)]
             | none => acc.filter (fun e => e.cf = cf && e.key = k)) := by
          intro acc2 hacc2
          rw [ih (off + encLen r) acc2 (by rw [hacc2]; exact hlen)]
          rw [lastMatch]
          cases htail : lastMatch cf k rs (off + encLen r) with
          | some x => rfl
          | none => rw [if_neg hcondn, hacc2]
        have hgoal := hstep
        cases hf : acc.find? (fun e => e.cf = r.cf && e.key = r.key) with
        | some e0 =>
          have := hgoal
            (acc.map (fun e2 => if e2.cf = r.cf && e2.key = r.key
              then { e2 with offset := off } else e2))
            (filter_map_redirect_other cf k r.cf r.key off hmatch acc)
          rw [lastMatch] at this
          exact this
        | none =>
          have hnewn : ¬ ((⟨r.cf, r.key, off⟩ : IndexEntry).cf = cf
              && (⟨r.cf, r.key, off⟩ : IndexEntry).key = k) = true := by
            simp only [Bool.and_eq_true, decide_eq_true_eq]
            exact fun hc => hmatch ⟨hc.1, hc.2⟩
          have := hgoal (acc ++ [(⟨r.cf, r.key, off⟩ : IndexEntry)])
            (by rw [List.filter_append, List.filter_cons, if_neg hnewn]
                simp)
          rw [lastMatch] at this
          exact this
    · rw [if_neg hkb]
      have hcondn : ¬ (r.tag.keyBearing = true ∧ r.cf = cf ∧ r.key = k) := by
        intro hc
        exact hkb hc.1
      rw [ih (off + encLen r) acc hlen]
      cases htail : lastMatch cf k rs (off + encLen r) with
      | some x => rfl
      | none => rw [if_neg hcondn]

/-! The index rebuild walk computes the reference index. -/

theorem addOrUpdateIndex_fields (cfid : Nat) (k : List Nat) (s : WB) :
    (addOrUpdateIndex cfid k s).recs = s.recs ∧
    (addOrUpdateIndex cfid k s).count = s.count ∧
    (addOrUpdateIndex cfid k s).savePoints = s.savePoints ∧
    (addOrUpdateIndex cfid k s).overwrite = s.overwrite ∧
    (addOrUpdateIndex cfid k s).allowDupMerge = s.allowDupMerge ∧
    (addOrUpdateIndex cfid k s).index =
      (if s.overwrite = true then
        match s.index.find? (fun e => e.cf = cfid && e.key = k) with
        | some _ => s.index.map (fun e2 => if e2.cf = cfid && e2.key = k
            then { e2 with offset := s.lastEntryOffset } else e2)
        | none => s.index ++ [⟨cfid, k, s.lastEntryOffset⟩]
      else s.index ++ [⟨cfid, k, s.lastEntryOffset⟩]) := by
  cases hov : s.overwrite with
  | false =>
    rw [addOrUpdateIndex, updateExisting, hov]
    rw [if_pos rfl, if_neg (by simp)]
    dsimp only
    exact ⟨rfl, rfl, rfl, hov, rfl, rfl⟩
  | true =>
    rw [addOrUpdateIndex, updateExisting, hov]
    rw [if_neg (by simp), if_pos rfl]
    cases hf : s.index.find? (fun e => e.cf = cfid && e.key = k) with
    | some e0 =>
      dsimp only
      exact ⟨rfl, rfl, rfl, rfl, rfl, rfl⟩
    | none =>
      dsimp only
      exact ⟨rfl, rfl, rfl, hov, rfl, rfl⟩

theorem reBuildWalk_spec (l : List Rec) : ∀ (off : Nat) (s : WB),
    (reBuildWalk l off s).1 = l.countP (fun r => r.tag.keyBearing) ∧
    (reBuildWalk l off s).2.index = buildIndex s.overwrite l off s.index ∧
    (reBuildWalk l off s).2.recs = s.recs ∧
    (reBuildWalk l off s).2.count = s.count ∧
    (reBuildWalk l off s).2.savePoints = s.savePoints ∧
    (reBuildWalk l off s).2.overwrite = s.overwrite ∧
    (reBuildWalk l off s).2.allowDupMerge = s.allowDupMerge := by
  induction l with
  | nil =>
    intro off s
    exact ⟨rfl, rfl, rfl, rfl, rfl, rfl, rfl⟩
  | cons r rs ih =>
    intro off s
    rw [reBuildWalk, buildIndex]
    by_cases hkb : r.tag.keyBearing = true
    · rw [if_pos hkb, if_pos hkb]
      obtain ⟨f1, f2, f3, f4, f5, f6⟩ :=
        addOrUpdateIndex_fields r.cf r.key { s with lastEntryOffset := off }
      obtain ⟨g1, g2, g3, g4, g5, g6, g7⟩ := ih (off + encLen r)
        (addOrUpdateIndex r.cf r.key { s with lastEntryOffset := off })
      dsimp only
      refine ⟨?_, ?_, ?_, ?_, ?_, ?_, ?_⟩
      · rw [g1, List.countP_cons, if_pos hkb]
      · rw [g2, f6, f4]
      · rw [g3, f1]
      · rw [g4, f2]
      · rw [g5, f3]
      · rw [g6, f4]
      · rw [g7, f5]
    · rw [if_neg hkb, if_neg hkb]
      obtain ⟨g1, g2, g3, g4, g5, g6, g7⟩ := ih (off + encLen r) s
      dsimp only
      refine ⟨?_, ?_, ?_, ?_, ?_, ?_, ?_⟩
      · rw [g1, List.countP_cons, if_neg hkb]
        omega
      · rw [g2]
      · rw [g3]
      · rw [g4]
      · rw [g5]
      · rw [g6]
      · rw [g7]

/-! The point lookup resolves to the newest record of the key. -/

theorem getFromBatchRaw_eq_lastRecFor (s : WB) (cf : Nat) (k : List Nat)
    (hidx : s.index = buildIndex true s.recs kHeader []) :
    getFromBatchRaw s cf k =
      (match lastRecFor cf k s.recs with
       | none => GetResult.notFoundRes
       | some r => tagResult r) := by
  rw [getFromBatchRaw, hidx]
  rw [buildIndex_filter cf k s.recs kHeader [] (by simp)]
  cases hm : lastMatch cf k s.recs kHeader with
  | none =>
    have hlr : lastRecFor cf k s.recs = none := by
      rw [← lastMatch_eq_lastRecFor cf k s.recs kHeader, hm]
      rfl
    rw [hlr]
    rfl
  | some x =>
    obtain ⟨o, r⟩ := x
    obtain ⟨hkb, hcf, hkey⟩ := lastMatch_props cf k s.recs kHeader o r hm
    have hrec : recAt s.recs kHeader o = some r :=
      lastMatch_recAt cf k s.recs kHeader o r hm
    have hlr : lastRecFor cf k s.recs = some r := by
      rw [← lastMatch_eq_lastRecFor cf k s.recs kHeader, hm]
      rfl
    subst hkey
    rw [hlr, List.reverse_singleton, getScan, getEntryFromDataOffset, hrec]
    dsimp only
    rw [if_neg (show ¬ (r.key ≠ r.key) from fun hc => hc rfl)]
    obtain ⟨tag, rcf, rkey, rval⟩ := r
    cases tag with
    | putTag => rfl
    | deleteTag => rfl
    | singleDeleteTag => rfl
    | deleteRangeTag => rfl
    | mergeTag => rfl
    | logDataTag => cases hkb
    | beginPrepareTag => cases hkb
    | endPrepareTag => cases hkb
    | commitTag => cases hkb
    | rollbackTag => cases hkb
    | noopTag => cases hkb

/-- Dropping only records that are never the newest of their key keeps
the newest record of every key. -/
theorem lastRecFor_dropObsolete (cf : Nat) (k : List Nat) (obs : List Nat)
    (l : List Rec) :
    ∀ (off : Nat),
    (∀ o ∈ obs, ∀ (cf2 : Nat) (k2 : List Nat) (o2 : Nat) (r2 : Rec),
      lastMatch cf2 k2 l off = some (o2, r2) → o ≠ o2) →
    lastRecFor cf k (dropObsolete obs l off) = lastRecFor cf k l := by
  induction l with
  | nil => intro off _; rfl
  | cons r rs ih =>
    intro off H
    have H' : ∀ o ∈ obs, ∀ (cf2 : Nat) (k2 : List Nat) (o2 : Nat) (r2 : Rec),
        lastMatch cf2 k2 rs (off + encLen r) = some (o2, r2) → o ≠ o2 := by
      intro o ho cf2 k2 o2 r2 hm
      refine H o ho cf2 k2 o2 r2 ?_
      rw [lastMatch, hm]
    rw [dropObsolete]
    by_cases hmem : off ∈ obs
    · rw [if_pos hmem, ih (off + encLen r) H']
      rw [lastRecFor]
      cases hrs : lastRecFor cf k rs with
      | some x => rfl
      | none =>
        have hnone : lastMatch cf k rs (off + encLen r) = none := by
          have := lastMatch_eq_lastRecFor cf k rs (off + encLen r)
          rw [hrs] at this
          exact Option.map_eq_none'.mp this
        by_cases hc : r.tag.keyBearing = true ∧ r.cf = cf ∧ r.key = k
        · exfalso
          have hm : lastMatch cf k (r :: rs) off = some (off, r) := by
            rw [lastMatch, hnone, if_pos hc]
          exact H off hmem cf k off r hm rfl
        · rw [if_neg hc]
    · rw [if_neg hmem, lastRecFor, lastRecFor, ih (off + encLen r) H']

/-- A log with no key-bearing record contributes nothing to the index. -/
theorem buildIndex_no_keys (ov : Bool) (l : List Rec) :
    ∀ (off : Nat) (acc : List IndexEntry),
    l.countP (fun r => r.tag.keyBearing) = 0 →
    buildIndex ov l off acc = acc := by
  induction l with
  | nil => intro off acc _; rfl
  | cons r rs ih =>
    intro off acc h
    rw [List.countP_cons] at h
    by_cases hkb : r.tag.keyBearing = true
    · rw [if_pos hkb] at h; omega
    · rw [buildIndex, if_neg hkb]
      rw [if_neg hkb] at h
      exact ih (off + encLen r) acc (by omega)

/-! Collapse in terms of the reference filter, and the scenario states
of the spec's testable scenarios. -/

theorem collapse_spec (s : WB) (hne : s.obsolete ≠ [])
    (hsub : ∀ o ∈ s.obsolete, o ∈ recOffsets s.recs)
    (hnd : s.obsolete.Nodup) :
    collapse s = (true, { s with
      recs := dropObsolete s.obsolete s.recs kHeader,
      count := (dropObsolete s.obsolete s.recs kHeader).countP
        (fun r => r.tag.keyBearing),
      obsolete := [] }) := by
  have hlen : ¬ s.obsolete.length = 0 := by
    intro h
    exact hne (List.length_eq_zero.mp h)
  have hperm : List.Perm (List.insertionSort (fun a b => a ≤ b) s.obsolete)
      s.obsolete := List.perm_insertionSort _ _
  have hmem : ∀ x, x ∈ List.insertionSort (fun a b => a ≤ b) s.obsolete
      ↔ x ∈ s.obsolete := fun x => hperm.mem_iff
  have hle : (List.insertionSort (fun a b => a ≤ b) s.obsolete).Pairwise
      (fun a b => a ≤ b) := List.sorted_insertionSort _ _
  have hnd2 : (List.insertionSort (fun a b => a ≤ b) s.obsolete).Nodup :=
    hperm.nodup_iff.mpr hnd
  have hlt : (List.insertionSort (fun a b => a ≤ b) s.obsolete).Pairwise
      (fun a b => a < b) :=
    (List.Pairwise.and hle hnd2).imp (fun h => lt_of_le_of_ne h.1 h.2)
  have hsub2 : ∀ o ∈ List.insertionSort (fun a b => a ≤ b) s.obsolete,
      o ∈ offsetsFrom kHeader s.recs := by
    intro o ho
    exact hsub o ((hmem o).mp ho)
  obtain ⟨w1, w2, w3⟩ := collapseWalk_spec s.recs kHeader
    (List.insertionSort (fun a b => a ≤ b) s.obsolete)
    (by decide) hsub2 hlt
  have hdrop : dropObsolete (List.insertionSort (fun a b => a ≤ b) s.obsolete)
      s.recs kHeader = dropObsolete s.obsolete s.recs kHeader :=
    dropObsolete_congr _ _ s.recs kHeader (fun x _ => hmem x)
  rw [collapse, if_neg hlen]
  dsimp only
  rw [w1, w2, w3, hdrop]

/-- The spec's three-put scenario: put a 1, put a 2, put b 3 in
overwrite mode. -/
def wbThreePuts : WB :=
  putOp 0 [98] [51] (putOp 0 [97] [50] (putOp 0 [97] [49] (mkWB true false)))

/-- Two puts on the same key in overwrite mode. -/
def wbTwoPuts : WB :=
  putOp 0 [97] [50] (putOp 0 [97] [49] (mkWB true false))

/-- Two merges on the same key in overwrite mode with
allow_duplicate_merge unset. -/
def wbTwoMerges : BatchStatus × WB :=
  mergeOp 0 [107] [98] (mergeOp 0 [107] [97] (mkWB true false)).2

/-- The spec's rollback scenario: put x 1, save point, put y 2,
delete x. -/
def wbRollbackChain : WB :=
  deleteOp 0 [120] (putOp 0 [121] [50] (setSavePoint
    (putOp 0 [120] [49] (mkWB true false))))

/-- C4: collapse() returns false and is a no-op when obsolete_offsets is
empty; otherwise it returns true, rewrites the log keeping exactly the
records whose offsets are not listed in obsolete_offsets, and sets the
record count to the number of surviving key-bearing records; after
put(a,1); put(a,2); put(b,3) in overwrite mode, obsolete_offsets has
length 1 and collapse() leaves record count 2. -/
theorem c4_collapse (s : WB) :
    (s.obsolete = [] → collapse s = (false, s)) ∧
    (s.obsolete ≠ [] →
      (∀ o ∈ s.obsolete, o ∈ recOffsets s.recs) →
      s.obsolete.Nodup →
      collapse s = (true, { s with
        recs := dropObsolete s.obsolete s.recs kHeader,
        count := (dropObsolete s.obsolete s.recs kHeader).countP
          (fun r => r.tag.keyBearing),
        obsolete := [] })) ∧
    (wbThreePuts.obsolete.length = 1 ∧ (collapse wbThreePuts).2.count = 2) := by
  refine ⟨?_, ?_, by decide⟩
  · intro h
    rw [collapse, if_pos (by rw [h]; rfl)]
  · intro hne hsub hnd
    exact collapse_spec s hne hsub hnd

/-- Witness for C4 at the three-put scenario: its obsolete list is
non-empty and collapse keeps exactly the non-obsolete records. -/
theorem c4_collapse_witness :
    wbThreePuts.obsolete ≠ [] ∧
    collapse wbThreePuts = (true, { wbThreePuts with
      recs := dropObsolete wbThreePuts.obsolete wbThreePuts.recs kHeader,
      count := (dropObsolete wbThreePuts.obsolete wbThreePuts.recs
        kHeader).countP (fun r => r.tag.keyBearing),
      obsolete := [] }) :=
  ⟨by decide,
    (c4_collapse wbThreePuts).2.1 (by decide) (by decide) (by decide)⟩

/-- C5 counterexample: after two puts on the same key in overwrite mode,
collapse() alone changes the result of get_from_batch for that key: the
surviving index entry still holds the offset of the rewritten log, so
the lookup no longer finds the value. -/
theorem c5_get_changed_by_collapse :
    getFromBatch (collapse wbTwoPuts).2 0 [97] ≠ getFromBatch wbTwoPuts 0 [97]
    := by decide

/-- C9: collapse() does read obsolete_offsets.front() while the vector
is empty.  In the three-put scenario the single obsolete offset is
consumed when the walk passes the superseded record, and every later
record's iteration reads front() of the now-empty vector: the claimed
unreachability is refuted. -/
theorem c9_front_of_empty_reached :
    wbThreePuts.obsolete ≠ [] ∧
    collapseReadsFrontOfEmpty wbThreePuts = true := by decide

theorem addOrUpdateIndex_obsolete (cfid : Nat) (k : List Nat) (s : WB) :
    (addOrUpdateIndex cfid k s).obsolete =
      (if s.overwrite = true then
        match s.index.find? (fun e => e.cf = cfid && e.key = k) with
        | some e => s.obsolete ++ [e.offset]
        | none => s.obsolete
      else s.obsolete) := by
  cases hov : s.overwrite with
  | false =>
    rw [addOrUpdateIndex, updateExisting, hov]
    rw [if_pos rfl, if_neg (by simp)]
    rfl
  | true =>
    rw [addOrUpdateIndex, updateExisting, hov]
    rw [if_neg (by simp), if_pos rfl]
    cases hf : s.index.find? (fun e => e.cf = cfid && e.key = k) with
    | some e0 => rfl
    | none => rfl

/-- C8: for a batch not in overwrite mode, NewIteratorWithBase fails
under the debug-fatal assertion and returns a null handle; in overwrite
mode it returns the BaseDeltaIterator over the base and the batch's
entries. -/
theorem c8_new_iterator_with_base (s : WB)
    (base : List (List Nat × List Nat)) (cf : Nat) :
    (s.overwrite = false →
      (newIteratorWithBase s base cf).handle = none ∧
      (newIteratorWithBase s base cf).assertFailed = true) ∧
    (s.overwrite = true →
      (newIteratorWithBase s base cf).handle
        = some (WBWI.BDI.mkBDI base (deltaEntriesFor s cf)) ∧
      (newIteratorWithBase s base cf).assertFailed = false) := by
  constructor
  · intro h
    rw [newIteratorWithBase, if_pos h]
    exact ⟨rfl, rfl⟩
  · intro h
    rw [newIteratorWithBase, if_neg (by rw [h]; simp)]
    exact ⟨rfl, rfl⟩

/-- Witness for C8: a non-overwrite batch yields a null handle with the
assertion failed, an overwrite batch yields a live handle. -/
theorem c8_new_iterator_with_base_witness :
    (newIteratorWithBase (mkWB false false) [] 0).handle = none ∧
    (newIteratorWithBase (mkWB true false) [([0], [1])] 0).assertFailed
      = false :=
  ⟨((c8_new_iterator_with_base (mkWB false false) [] 0).1 rfl).1,
   ((c8_new_iterator_with_base (mkWB true false) [([0], [1])] 0).2 rfl).2⟩

/-- C7: in overwrite mode with allow_duplicate_merge unset, a merge on a
key with a live index entry returns NotSupported; a merge on a fresh
key, any merge with allow_duplicate_merge set, and any merge outside
overwrite mode return OK; the second of two merges on one key returns
NotSupported. -/
theorem c7_merge_duplicate_unsupported (s : WB) (cf : Nat)
    (k v : List Nat) :
    (s.overwrite = true → s.allowDupMerge = false →
      (s.index.find? (fun e => e.cf = cf && e.key = k)).isSome = true →
      (mergeOp cf k v s).1 = .notSupportedStatus) ∧
    (s.overwrite = true →
      s.index.find? (fun e => e.cf = cf && e.key = k) = none →
      (mergeOp cf k v s).1 = .ok) ∧
    (s.allowDupMerge = true → (mergeOp cf k v s).1 = .ok) ∧
    (s.overwrite = false → (mergeOp cf k v s).1 = .ok) ∧
    wbTwoMerges.1 = .notSupportedStatus := by
  refine ⟨?_, ?_, ?_, ?_, by decide⟩
  · intro hov hdm hfind
    obtain ⟨e, he⟩ := Option.isSome_iff_exists.mp hfind
    simp only [mergeOp, addOrUpdateIndex, updateExisting, appendRec,
      setLastEntryOffset, hov, hdm, he]
    simp only [Bool.true_eq_false, if_false, ite_false]
    dsimp only
    rw [if_pos ⟨trivial, by simp⟩]
  · intro hov hfind
    simp only [mergeOp, addOrUpdateIndex, updateExisting, addNewEntry,
      appendRec, setLastEntryOffset, hov, hfind]
    simp only [Bool.true_eq_false, if_false, ite_false]
    dsimp only
    rw [if_neg (fun hc => hc.2 rfl)]
  · intro hdm
    simp only [mergeOp, addOrUpdateIndex, updateExisting, addNewEntry,
      appendRec, setLastEntryOffset, hdm]
    simp only [Bool.true_eq_false, false_and, if_false, ite_false]
  · intro hov
    simp only [mergeOp, addOrUpdateIndex, updateExisting, addNewEntry,
      appendRec, setLastEntryOffset, hov]
    simp only [eq_self_iff_true, if_true, ite_true]
    dsimp only
    rw [if_neg (fun hc => hc.2 rfl)]

/-- Witness for C7: the duplicate merge, a fresh-key merge, a merge with
allow_duplicate_merge set, and a non-overwrite merge, all concrete. -/
theorem c7_merge_duplicate_unsupported_witness :
    (mergeOp 0 [107] [98] (mergeOp 0 [107] [97] (mkWB true false)).2).1
      = .notSupportedStatus ∧
    (mergeOp 0 [5] [1] (mkWB true false)).1 = .ok ∧
    (mergeOp 0 [107] [98] (mergeOp 0 [107] [97] (mkWB true true)).2).1
      = .ok ∧
    (mergeOp 0 [107] [98] (mergeOp 0 [107] [97] (mkWB false false)).2).1
      = .ok :=
  ⟨(c7_merge_duplicate_unsupported (mergeOp 0 [107] [97]
      (mkWB true false)).2 0 [107] [98]).1 (by decide) (by decide)
      (by decide),
   (c7_merge_duplicate_unsupported (mkWB true false) 0 [5] [1]).2.1
      (by decide) (by decide),
   (c7_merge_duplicate_unsupported (mergeOp 0 [107] [97]
      (mkWB true true)).2 0 [107] [98]).2.2.1 (by decide),
   (c7_merge_duplicate_unsupported (mergeOp 0 [107] [97]
      (mkWB false false)).2 0 [107] [98]).2.2.2.1 (by decide)⟩

/-- C10: when Merge returns the duplicate-key NotSupported error, the
state has already been mutated: the merge record is appended to the log,
the superseded record's offset is pushed on obsolete_offsets, and the
live index entry is redirected to the new record's offset. -/
theorem c10_merge_failure_state (s : WB) (cf : Nat) (k v : List Nat)
    (e : IndexEntry)
    (hov : s.overwrite = true) (hdm : s.allowDupMerge = false)
    (hfind : s.index.find? (fun e2 => e2.cf = cf && e2.key = k) = some e) :
    (mergeOp cf k v s).1 = .notSupportedStatus ∧
    (mergeOp cf k v s).2.recs = s.recs ++ [⟨.mergeTag, cf, k, v⟩] ∧
    (mergeOp cf k v s).2.obsolete = s.obsolete ++ [e.offset] ∧
    (mergeOp cf k v s).2.index = s.index.map (fun e2 =>
      if e2.cf = cf && e2.key = k then { e2 with offset := dataSize s.recs }
      else e2) := by
  simp only [mergeOp, addOrUpdateIndex, updateExisting, appendRec,
    setLastEntryOffset, hov, hfind, hdm]
  simp only [Bool.true_eq_false, if_false, iff_false, ite_false]
  dsimp only
  rw [if_pos ⟨trivial, by simp⟩]
  exact ⟨rfl, rfl, rfl, rfl⟩

/-- Witness for C10 at the two-merge scenario: the second merge fails
but leaves the appended record, the grown obsolete list and the
redirected index entry. -/
theorem c10_merge_failure_state_witness :
    (wbTwoMerges.1 = .notSupportedStatus ∧
     wbTwoMerges.2.recs = (mergeOp 0 [107] [97] (mkWB true false)).2.recs
       ++ [⟨.mergeTag, 0, [107], [98]⟩] ∧
     wbTwoMerges.2.obsolete = (mergeOp 0 [107] [97]
       (mkWB true false)).2.obsolete
       ++ [(⟨0, [107], 12⟩ : IndexEntry).offset] ∧
     wbTwoMerges.2.index = (mergeOp 0 [107] [97]
       (mkWB true false)).2.index.map (fun e2 =>
         if e2.cf = 0 && e2.key = [107] then
           { e2 with offset := dataSize (mergeOp 0 [107] [97]
             (mkWB true false)).2.recs }
         else e2)) :=
  c10_merge_failure_state (mergeOp 0 [107] [97] (mkWB true false)).2
    0 [107] [98] ⟨0, [107], 12⟩ (by decide) (by decide) (by decide)

/-- The point lookup reads the state only through its record log and its
index: getScan decodes entries from the log and never looks at the other
fields. -/
theorem getScan_congr (s1 s2 : WB) (hrecs : s1.recs = s2.recs)
    (k : List Nat) :
    ∀ (es : List IndexEntry) (ops : List (List Nat)),
    getScan s1 k es ops = getScan s2 k es ops := by
  intro es
  induction es with
  | nil =>
    intro ops
    rfl
  | cons e es ih =>
    intro ops
    rw [getScan, getScan, hrecs]
    cases hge : getEntryFromDataOffset s2.recs e.offset with
    | none => rfl
    | some r =>
      dsimp only
      by_cases hk : r.key ≠ k
      · rw [if_pos hk, if_pos hk]
      · rw [if_neg hk, if_neg hk]
        cases htag : r.tag <;> first | rfl | exact ih (r.value :: ops)

theorem getFromBatchRaw_congr (s1 s2 : WB) (cf : Nat) (k : List Nat)
    (hrecs : s1.recs = s2.recs) (hidx : s1.index = s2.index) :
    getFromBatchRaw s1 cf k = getFromBatchRaw s2 cf k := by
  rw [getFromBatchRaw, getFromBatchRaw, hidx]
  exact getScan_congr s1 s2 hrecs k _ []

/-- C6: when rollback_to_save_point succeeds, the log is truncated to
the save point, the index is rebuilt from scratch from the truncated log
and obsolete_offsets is cleared, so the batch's observable contents
(get_from_batch on every column and key) are those of any batch of the
same mode holding exactly the truncated log; after put(x,1);
set_save_point; put(y,2); delete(x); rollback_to_save_point,
get_from_batch finds x=1 and reports y not found. -/
theorem c6_rollback_rebuilds (t : WB) (n c : Nat)
    (rest : List (Nat × Nat))
    (hsp : t.savePoints = (n, c) :: rest)
    (hc : c = (t.recs.take n).countP (fun r => r.tag.keyBearing)) :
    ((rollbackToSavePoint t).1 = .ok ∧
     (rollbackToSavePoint t).2.recs = t.recs.take n ∧
     (rollbackToSavePoint t).2.obsolete = [] ∧
     (rollbackToSavePoint t).2.index
       = buildIndex t.overwrite (t.recs.take n) kHeader [] ∧
     (∀ (s0 : WB), s0.overwrite = t.overwrite →
       s0.index = buildIndex s0.overwrite s0.recs kHeader [] →
       s0.recs = t.recs.take n →
       ∀ (cf : Nat) (k : List Nat),
         getFromBatch (rollbackToSavePoint t).2 cf k
           = getFromBatch s0 cf k)) ∧
    ((rollbackToSavePoint wbRollbackChain).1 = .ok ∧
     getFromBatch (rollbackToSavePoint wbRollbackChain).2 0 [120]
       = (.ok, some [49]) ∧
     getFromBatch (rollbackToSavePoint wbRollbackChain).2 0 [121]
       = (.notFound, none)) := by
  refine ⟨?_, by decide⟩
  have hrb : rollbackWriteBatch t
      = (.ok, { t with
          recs := t.recs.take n,
          count := c,
          savePoints := rest }) := by
    rw [rollbackWriteBatch, hsp]
  have hmain : rollbackToSavePoint t
      = ((reBuildIndex { t with
            recs := t.recs.take n,
            count := c,
            savePoints := rest }).1,
         { (reBuildIndex { t with
            recs := t.recs.take n,
            count := c,
            savePoints := rest }).2 with obsolete := [] }) := by
    rw [rollbackToSavePoint]
    dsimp only
    rw [hrb]
    dsimp only
    rw [if_pos rfl]
  have hfour :
      (reBuildIndex { t with
          recs := t.recs.take n,
          count := c,
          savePoints := rest }).1 = .ok ∧
      (reBuildIndex { t with
          recs := t.recs.take n,
          count := c,
          savePoints := rest }).2.recs = t.recs.take n ∧
      (reBuildIndex { t with
          recs := t.recs.take n,
          count := c,
          savePoints := rest }).2.index
        = buildIndex t.overwrite (t.recs.take n) kHeader [] := by
    rw [reBuildIndex]
    dsimp only [clearIndex]
    by_cases hc0 : c = 0
    · rw [if_pos hc0]
      refine ⟨rfl, rfl, ?_⟩
      rw [buildIndex_no_keys t.overwrite (t.recs.take n) kHeader []
        (by omega)]
    · rw [if_neg hc0]
      obtain ⟨w1, w2, w3, w4, w5, w6, w7⟩ :=
        reBuildWalk_spec (t.recs.take n) kHeader
          { t with
            recs := t.recs.take n,
            count := c,
            savePoints := rest,
            index := [],
            lastEntryOffset := 0 }
      rw [if_pos (by rw [w1, w4]; exact hc.symm)]
      refine ⟨rfl, ?_, ?_⟩
      · rw [w3]
      · rw [w2]
  obtain ⟨h1, h2, h3⟩ := hfour
  rw [hmain]
  refine ⟨h1, h2, rfl, h3, ?_⟩
  intro s0 hov0 hidx0 hrecs0 cf k
  rw [getFromBatch, getFromBatch]
  rw [getFromBatchRaw_congr
    { (reBuildIndex { t with
        recs := t.recs.take n,
        count := c,
        savePoints := rest }).2 with obsolete := [] } s0 cf k
    (by dsimp only; rw [h2, hrecs0])
    (by dsimp only; rw [h3, hidx0, hov0, hrecs0])]

/-- Witness for C6 at the rollback scenario: the rollback succeeds,
truncates the log to the save point, clears the obsolete offsets and
rebuilds the index. -/
theorem c6_rollback_rebuilds_witness :
    (rollbackToSavePoint wbRollbackChain).1 = .ok ∧
    (rollbackToSavePoint wbRollbackChain).2.recs
      = wbRollbackChain.recs.take 1 ∧
    (rollbackToSavePoint wbRollbackChain).2.obsolete = [] ∧
    (rollbackToSavePoint wbRollbackChain).2.index
      = buildIndex wbRollbackChain.overwrite
          (wbRollbackChain.recs.take 1) kHeader [] := by
  have h := c6_rollback_rebuilds wbRollbackChain 1 1 []
    (by decide) (by decide)
  exact ⟨h.1.1, h.1.2.1, h.1.2.2.1, h.1.2.2.2.1⟩

/-- Computable check that the record starting at a byte offset, if any,
is not the newest record of its column and key. -/
def notNewest (recs : List Rec) (o : Nat) : Bool :=
  match getEntryFromDataOffset recs o with
  | none => true
  | some r =>
    match lastMatch r.cf r.key recs kHeader with
    | none => true
    | some x => if x.1 = o then false else true

/-- The check implies the offset never carries the newest record of any
column and key. -/
theorem not_newest_of_check (recs : List Rec) (obs : List Nat)
    (h : ∀ o ∈ obs, notNewest recs o = true) :
    ∀ o ∈ obs, ∀ (cf : Nat) (k : List Nat) (o2 : Nat) (r2 : Rec),
      lastMatch cf k recs kHeader = some (o2, r2) → o ≠ o2 := by
  intro o ho cf k o2 r2 hm heq
  subst heq
  have hrec := lastMatch_recAt cf k recs kHeader o r2 hm
  obtain ⟨hkb, hcf, hkey⟩ := lastMatch_props cf k recs kHeader o r2 hm
  have h2 := h o ho
  rw [notNewest, getEntryFromDataOffset, hrec] at h2
  dsimp only at h2
  rw [hcf, hkey, hm] at h2
  dsimp only at h2
  rw [if_pos rfl] at h2
  cases h2

/-- C5 (amended): get_from_batch is preserved by collapse() followed by
ReBuildIndex, for an overwrite-mode batch whose index is the reference
index of its log and whose obsolete offsets are record offsets, without
duplicates, that never denote the newest record of a key. -/
theorem c5_amended_get_preserved (s : WB)
    (hov : s.overwrite = true)
    (hidx : s.index = buildIndex true s.recs kHeader [])
    (hne : s.obsolete ≠ [])
    (hsub : ∀ o ∈ s.obsolete, o ∈ recOffsets s.recs)
    (hnd : s.obsolete.Nodup)
    (hlast : ∀ o ∈ s.obsolete, ∀ (cf : Nat) (k : List Nat) (o2 : Nat)
      (r2 : Rec), lastMatch cf k s.recs kHeader = some (o2, r2) → o ≠ o2) :
    (reBuildIndex (collapse s).2).1 = .ok ∧
    ∀ (cf : Nat) (k : List Nat),
      getFromBatch (reBuildIndex (collapse s).2).2 cf k
        = getFromBatch s cf k := by
  have hcol := collapse_spec s hne hsub hnd
  have hLR : ∀ (cf : Nat) (k : List Nat),
      lastRecFor cf k (dropObsolete s.obsolete s.recs kHeader)
        = lastRecFor cf k s.recs :=
    fun cf k => lastRecFor_dropObsolete cf k s.obsolete s.recs kHeader hlast
  rw [hcol]
  dsimp only
  have hrb :
      (reBuildIndex { s with
        recs := dropObsolete s.obsolete s.recs kHeader,
        count := (dropObsolete s.obsolete s.recs kHeader).countP
          (fun r => r.tag.keyBearing),
        obsolete := [] }).1 = .ok ∧
      (reBuildIndex { s with
        recs := dropObsolete s.obsolete s.recs kHeader,
        count := (dropObsolete s.obsolete s.recs kHeader).countP
          (fun r => r.tag.keyBearing),
        obsolete := [] }).2.recs
        = dropObsolete s.obsolete s.recs kHeader ∧
      (reBuildIndex { s with
        recs := dropObsolete s.obsolete s.recs kHeader,
        count := (dropObsolete s.obsolete s.recs kHeader).countP
          (fun r => r.tag.keyBearing),
        obsolete := [] }).2.index
        = buildIndex true (dropObsolete s.obsolete s.recs kHeader)
            kHeader [] := by
    rw [reBuildIndex]
    dsimp only [clearIndex]
    by_cases hc0 : (dropObsolete s.obsolete s.recs kHeader).countP
        (fun r => r.tag.keyBearing) = 0
    · rw [if_pos hc0]
      refine ⟨rfl, rfl, ?_⟩
      rw [buildIndex_no_keys true (dropObsolete s.obsolete s.recs kHeader)
        kHeader [] hc0]
    · rw [if_neg hc0]
      obtain ⟨w1, w2, w3, w4, w5, w6, w7⟩ :=
        reBuildWalk_spec (dropObsolete s.obsolete s.recs kHeader) kHeader
          { s with
            recs := dropObsolete s.obsolete s.recs kHeader,
            count := (dropObsolete s.obsolete s.recs kHeader).countP
              (fun r => r.tag.keyBearing),
            obsolete := [],
            index := [],
            lastEntryOffset := 0 }
      rw [if_pos (by rw [w1, w4])]
      refine ⟨rfl, ?_, ?_⟩
      · rw [w3]
      · rw [w2, hov]
  obtain ⟨h1, h2, h3⟩ := hrb
  refine ⟨h1, ?_⟩
  intro cf k
  have hX := getFromBatchRaw_eq_lastRecFor
    (reBuildIndex { s with
      recs := dropObsolete s.obsolete s.recs kHeader,
      count := (dropObsolete s.obsolete s.recs kHeader).countP
        (fun r => r.tag.keyBearing),
      obsolete := [] }).2 cf k (by rw [h3, h2])
  have hY := getFromBatchRaw_eq_lastRecFor s cf k hidx
  rw [getFromBatch, getFromBatch, hX, hY, h2, hLR]

/-- Witness for the amended C5 at the two-put scenario: collapse
followed by ReBuildIndex restores the value of get_from_batch. -/
theorem c5_amended_get_preserved_witness :
    (reBuildIndex (collapse wbTwoPuts).2).1 = .ok ∧
    getFromBatch (reBuildIndex (collapse wbTwoPuts).2).2 0 [97]
      = getFromBatch wbTwoPuts 0 [97] := by
  have h := c5_amended_get_preserved wbTwoPuts (by decide) (by decide)
    (by decide) (by decide) (by decide)
    (not_newest_of_check wbTwoPuts.recs wbTwoPuts.obsolete (by decide))
  exact ⟨h.1, h.2 0 [97]⟩

end Batch


end WBWI
